import Mathlib

/-!
# sync-audio-with-timestamps: speed-sync, timeline assembly and the manifest

A shallow embedding of `pkg/core/processor.go`, of `internal/manifest/manifest.go`
and of `FFmpegProcessor.ApplySpeed` of `internal/audio/audio.go`, together with
the parts of the Go standard library they call (`path/filepath`,
`strings.TrimSuffix`, `bufio.Scanner`, `regexp`, `strconv.ParseFloat`, `%.1f`).

Modelling conventions
* `float64` values are exact rationals (`ℚ`); NaN and infinities do not occur.
  The one place where the range of `float64` decides what the code does, the
  range error of `strconv.ParseFloat`, is modelled by its threshold.
* The audio engine (`audio.Processor`) and the surrounding system (manifest
  reader and writer, `os.MkdirTemp`, `os.RemoveAll`, `os.Rename`) are
  interfaces over an arbitrary state type `σ`, threaded explicitly, so that an
  implementation may answer differently on every call.
* Every function of `pkg/core` returns, next to its Go result and the new
  state, the list of interface calls it made, in order, each with the answer
  it received.
* `manifest.Parse` and `manifest.Write` work on the texts of the files. The
  pattern of `Parse` is embedded as a matcher written for this pattern, with
  the leftmost-first, greedy choice of Go `regexp`.
* Console output (`fmt.Printf`, `log.Printf`) is not modelled.
-/

namespace manifest

/-- ManifestEntry represents a single line in the manifest file. -/
structure ManifestEntry where
  StartTime : ℚ
  EndTime : ℚ
  Speaker : String
  FilePath : String
  deriving DecidableEq

/-- The class `\d` of Go regexp: an ASCII digit. -/
def isDigit (c : Char) : Bool :=
  decide ('0' ≤ c ∧ c ≤ '9')

/-- The class `\s` of Go regexp: tab, line feed, form feed, carriage return
or space. -/
def isReSpace (c : Char) : Bool :=
  c = '\t' || c = '\n' || c = Char.ofNat 12 || c = '\r' || c = ' '

/-- Go `unicode.IsSpace`, the white space `strings.TrimSpace` removes. -/
def isSpace (c : Char) : Bool :=
  c = '\t' || c = '\n' || c = Char.ofNat 11 || c = Char.ofNat 12 || c = '\r' || c = ' '
    || c.toNat = 0x85 || c.toNat = 0xA0 || c.toNat = 0x1680
    || decide (0x2000 ≤ c.toNat ∧ c.toNat ≤ 0x200A)
    || c.toNat = 0x2028 || c.toNat = 0x2029 || c.toNat = 0x202F || c.toNat = 0x205F
    || c.toNat = 0x3000

/-- The test `strings.TrimSpace(line) == ""`: the line is white space only. -/
def isBlank (line : List Char) : Bool :=
  line.all isSpace

/-- The number of bytes of a text in UTF-8. -/
def utf8Length (text : List Char) : Nat :=
  (text.map Char.utf8Size).sum

/-- Go `bufio.MaxScanTokenSize`: a `bufio.Scanner` gives up on a line that
does not fit its buffer of this size. -/
def maxScanTokenSize : Nat := 64 * 1024

/-- The lines `bufio.ScanLines` finds in a text, before the carriage return is
dropped: the text between line feeds; a last line without line feed counts
when it is not empty. -/
def rawLines : List Char → List (List Char)
  | [] => []
  | c :: cs =>
    if c = '\n' then [] :: rawLines cs
    else
      match rawLines cs with
      | [] => [[c]]
      | l :: ls => (c :: l) :: ls

/-- The function `dropCR` of Go bufio: drop one carriage return at the end. -/
def dropCR (data : List Char) : List Char :=
  if data.getLast? = some '\r' then data.dropLast else data

/-- One literal character of the pattern: the rest of the input after it. -/
def expect (c : Char) : List Char → Option (List Char)
  | [] => none
  | x :: rest => if x = c then some rest else none

/-- The group `(\d+(?:\.\d+)?)` at the start of the input: the text of the
group and the rest of the input. -/
def matchNumber (input : List Char) : Option (List Char × List Char) :=
  let whole := input.takeWhile isDigit
  let rest := input.dropWhile isDigit
  if whole = [] then none
  else
    match rest with
    | [] => some (whole, rest)
    | c :: rest2 =>
      if c = '.' ∧ rest2.takeWhile isDigit ≠ [] then
        some (whole ++ c :: rest2.takeWhile isDigit, rest2.dropWhile isDigit)
      else some (whole, rest)

/-- The class `[–-]` at the start of the input: en dash or hyphen. -/
def matchDash : List Char → Option (List Char)
  | [] => none
  | x :: rest => if x = '–' ∨ x = '-' then some rest else none

/-- The part `\s+` at the start of the input, taken as long as it goes. -/
def matchSpaces (input : List Char) : Option (List Char) :=
  if input.takeWhile isReSpace = [] then none else some (input.dropWhile isReSpace)

/-- The end `\s+(.+)$` of the pattern on the whole rest of the input: the text
of the group. The white space is taken as long as it goes, but leaves one
character to the group; `.` does not match a line feed. -/
def matchSpacesPath (input : List Char) : Option (List Char) :=
  let spaces := input.takeWhile isReSpace
  let path := input.dropWhile isReSpace
  if spaces = [] then none
  else if path = [] then
    if spaces.length ≥ 2 then
      match spaces.getLast? with
      | some c => if c = '\n' then none else some [c]
      | none => none
    else none
  else if path.any (fun c => c == '\n') then none
  else some path

/-- The part `(.+)\)\s+(.+)$` of the pattern on the whole rest of the input:
the texts of the two groups. The first `.+` is greedy, so the split is at the
last closing parenthesis after which the rest still matches; the first group
may come out empty here. -/
def matchSpeakerPath : List Char → Option (List Char × List Char)
  | [] => none
  | c :: rest =>
    if c = '\n' then none
    else
      match matchSpeakerPath rest with
      | some (speaker, path) => some (c :: speaker, path)
      | none =>
        if c = ')' then
          match matchSpacesPath rest with
          | some path => some ([], path)
          | none => none
        else none

/-- Go `re.FindStringSubmatch(line)` for the pattern of `Parse`,
`^\[(\d+(?:\.\d+)?)s[–-](\d+(?:\.\d+)?)s\]\s+\((.+)\)\s+(.+)$`: the texts of
the four groups, `none` when the line does not match. -/
def matchLine (line : List Char) : Option (List Char × List Char × List Char × List Char) := do
  let r0 ← expect '[' line
  let (startText, r1) ← matchNumber r0
  let r2 ← expect 's' r1
  let r3 ← matchDash r2
  let (endText, r4) ← matchNumber r3
  let r5 ← expect 's' r4
  let r6 ← expect ']' r5
  let r7 ← matchSpaces r6
  let r8 ← expect '(' r7
  let (speaker, path) ← matchSpeakerPath r8
  if speaker = [] then none else some (startText, endText, speaker, path)

/-- The value of a decimal digit. -/
def digitValue (c : Char) : Nat :=
  c.toNat - '0'.toNat

/-- The number a row of decimal digits stands for. -/
def parseNat (digits : List Char) : Nat :=
  digits.foldl (fun acc c => 10 * acc + digitValue c) 0

/-- The value of a text of the form `\d+(?:\.\d+)?`. -/
def decimalValue (text : List Char) : ℚ :=
  let whole := text.takeWhile isDigit
  let frac := (text.dropWhile isDigit).drop 1
  (parseNat whole : ℚ) + (parseNat frac : ℚ) / (10 : ℚ) ^ frac.length

/-- The least value that `float64` rounds to infinity: half a unit in the last
place above the largest finite value. -/
def floatOverflow : ℚ := 2 ^ 1024 - 2 ^ 970

/-- Go `strconv.ParseFloat(text, 64)` on a text the pattern has matched as a
number: the value of the text, or `none` for the range error of a value that
`float64` cannot hold. -/
def ParseFloat (text : List Char) : Option ℚ :=
  if decimalValue text ≥ floatOverflow then none else some (decimalValue text)

/-- The errors of `Parse`. -/
inductive ParseError where
  | openFailed
  | lineMismatch (line : String)
  | startTime
  | endTime
  | readFailed
  deriving DecidableEq

/-- The body of the loop of `Parse` for one line as the scanner delivers it:
`none` for a blank line, which is skipped, or the entry of the line. -/
def parseLine (line : List Char) : Except ParseError (Option ManifestEntry) :=
  if isBlank line then .ok none
  else
    match matchLine line with
    | none => .error (.lineMismatch (String.mk line))
    | some (m1, m2, m3, m4) =>
      match ParseFloat m1 with
      | none => .error .startTime
      | some startTime =>
        match ParseFloat m2 with
        | none => .error .endTime
        | some endTime =>
          .ok (some { StartTime := startTime, EndTime := endTime, Speaker := String.mk m3,
                      FilePath := String.mk m4 })

/-- The loop of `Parse` over the lines of the file, with the Go variable
`entries`. A line of `maxScanTokenSize` bytes or more stops the scanner, and
`scanner.Err()` then makes `Parse` fail. -/
def parseLines : List (List Char) → List ManifestEntry → Except ParseError (List ManifestEntry)
  | [], entries => .ok entries
  | raw :: rest, entries =>
    if utf8Length raw ≥ maxScanTokenSize then .error .readFailed
    else
      match parseLine (dropCR raw) with
      | .error e => .error e
      | .ok none => parseLines rest entries
      | .ok (some entry) => parseLines rest (entries ++ [entry])

/-- The function `Parse` on the text of the manifest file. -/
def parseText (text : String) : Except ParseError (List ManifestEntry) :=
  parseLines (rawLines text.data) []

/-- The function `Parse`: reads and parses the manifest file at the given
path; `files` gives the text of the files that can be opened. -/
def Parse (files : String → Option String) (path : String) :
    Except ParseError (List ManifestEntry) :=
  match files path with
  | none => .error .openFailed
  | some text => parseText text

/-- The entries of the lines that `parseLine` turns into an entry, in order. -/
def lineEntries (raws : List (List Char)) : List ManifestEntry :=
  raws.filterMap (fun raw =>
    match parseLine (dropCR raw) with
    | .ok r => r
    | .error _ => none)

/-- The nearest integer, a tie going to the even one. -/
def roundHalfEven (x : ℚ) : ℤ :=
  if x - ⌊x⌋ < 1 / 2 then ⌊x⌋
  else if x - ⌊x⌋ > 1 / 2 then ⌊x⌋ + 1
  else if ⌊x⌋ % 2 = 0 then ⌊x⌋
  else ⌊x⌋ + 1

/-- A time rounded to one decimal place. -/
def roundTenth (t : ℚ) : ℚ :=
  (roundHalfEven (t * 10) : ℚ) / 10

/-- Go `fmt.Sprintf("%.1f", t)`: the sign, the digits before the point and the
one digit after it. -/
def formatTenths (t : ℚ) : List Char :=
  let n := (roundHalfEven (|t| * 10)).toNat
  (if t < 0 then ['-'] else []) ++ Nat.toDigits 10 (n / 10) ++ '.' :: Nat.toDigits 10 (n % 10)

/-- The line `Write` formats for an entry, without its line feed:
`fmt.Sprintf("[%.1fs–%.1fs] (%s) %s", ...)`. -/
def formatLine (entry : ManifestEntry) : List Char :=
  '[' :: formatTenths entry.StartTime ++ 's' :: '–' :: formatTenths entry.EndTime
    ++ 's' :: ']' :: ' ' :: '(' :: entry.Speaker.data ++ ')' :: ' ' :: entry.FilePath.data

/-- The text `Write` writes for a list of entries: one line per entry. -/
def writeText (entries : List ManifestEntry) : String :=
  String.mk (entries.flatMap (fun entry => formatLine entry ++ ['\n']))

/-- The errors of `Write`. -/
inductive WriteError where
  | createFailed
  deriving DecidableEq

/-- The function `Write`: writes the entries to a file at the given path.
`canCreate` tells where `os.Create` succeeds; writing to a created file does
not fail. Returns the error, `none` for `nil`, and the files after the call. -/
def Write (canCreate : String → Bool) (files : String → Option String) (path : String)
    (entries : List ManifestEntry) : Option WriteError × (String → Option String) :=
  if canCreate path then
    (none, fun f => if f = path then some (writeText entries) else files f)
  else (some .createFailed, files)

/-- The text holds no closing parenthesis that is followed by white space of
the pattern and at least one more character: no place inside it where the end
`\)\s+(.+)$` of the pattern matches. -/
def noSplitInside : List Char → Bool
  | [] => true
  | c :: rest =>
    !(c = ')' && (match rest with
      | w :: _ :: _ => isReSpace w
      | _ => false)) && noSplitInside rest

/-- The entries that `Write` and `Parse` carry through: times that are not
negative and stay in the range of `float64` when rounded; a speaker that is
not empty and has no parenthesis and no line feed; a file path that is not
empty, has no line feed, does not begin with white space of the pattern, does
not end with a carriage return and has no place where the end of the pattern
matches; and a line that fits the buffer of the scanner. -/
structure WellFormed (entry : ManifestEntry) : Prop where
  startTime : 0 ≤ entry.StartTime ∧ roundTenth entry.StartTime < floatOverflow
  endTime : 0 ≤ entry.EndTime ∧ roundTenth entry.EndTime < floatOverflow
  speaker : entry.Speaker.data ≠ []
    ∧ ∀ c ∈ entry.Speaker.data, c ≠ '(' ∧ c ≠ ')' ∧ c ≠ '\n'
  filePath : entry.FilePath.data ≠ []
    ∧ (∀ c ∈ entry.FilePath.data, c ≠ '\n')
    ∧ (∀ c, entry.FilePath.data.head? = some c → isReSpace c = false)
    ∧ entry.FilePath.data.getLast? ≠ some '\r'
    ∧ noSplitInside entry.FilePath.data = true
  lineLength : utf8Length (formatLine entry) < maxScanTokenSize

/-- The first entry of the manifest of `TestParse`. -/
def testEntry0 : ManifestEntry :=
  { StartTime := 0, EndTime := 5, Speaker := "SPEAKER_00", FilePath := "/path/to/audio/000.wav" }

/-- The second entry of the manifest of `TestParse`. -/
def testEntry1 : ManifestEntry :=
  { StartTime := 5.7, EndTime := 8.4, Speaker := "SPEAKER_01",
    FilePath := "/path/to/audio/001.wav" }

/-- The two entries of the manifest of `TestParse`. -/
def testEntries : List ManifestEntry :=
  [testEntry0, testEntry1]

/-- An entry whose file name holds a closing parenthesis followed by a space. -/
def copyEntry : ManifestEntry :=
  { StartTime := 0, EndTime := 5, Speaker := "SPEAKER_00", FilePath := "/x/clip (1) copy.wav" }

/-- An entry with an empty speaker. -/
def unnamedEntry : ManifestEntry :=
  { StartTime := 0, EndTime := 5, Speaker := "", FilePath := "/x/clip.wav" }

/-- The entry with its times rounded to one decimal place. -/
def roundEntry (entry : ManifestEntry) : ManifestEntry :=
  { StartTime := roundTenth entry.StartTime, EndTime := roundTenth entry.EndTime,
    Speaker := entry.Speaker, FilePath := entry.FilePath }

end manifest

namespace strings

/-- Go `strings.TrimSuffix` on the characters of a string. -/
def TrimSuffix (s suffix : List Char) : List Char :=
  if suffix.isSuffixOf s then s.take (s.length - suffix.length) else s

end strings

namespace filepath

/-- The elements of a path between its separators (`/`). -/
def splitSlash : List Char → List (List Char)
  | [] => [[]]
  | c :: cs =>
    match splitSlash cs with
    | [] => [[]]
    | h :: t => if c = '/' then [] :: h :: t else (c :: h) :: t

/-- One element of the loop of Go `filepath.Clean`; `out` holds the elements
written so far, the most recent first. -/
def cleanStep (rooted : Bool) (out : List (List Char)) (el : List Char) : List (List Char) :=
  if el = [] ∨ el = ['.'] then out
  else if el = ['.', '.'] then
    match out with
    | [] => if rooted then [] else [el]
    | top :: rest => if top = ['.', '.'] then el :: out else rest
  else el :: out

/-- Go `filepath.Clean` (Unix) on the characters of a path. -/
def cleanChars (path : List Char) : List Char :=
  if path = [] then ['.']
  else
    let rooted : Bool := path.head? = some '/'
    let out := (splitSlash path).foldl (cleanStep rooted) []
    let body := List.intercalate ['/'] out.reverse
    if rooted then '/' :: body else if body = [] then ['.'] else body

/-- Go `filepath.Base` (Unix) on the characters of a path. -/
def baseChars (path : List Char) : List Char :=
  if path = [] then ['.']
  else
    let stripped := path.reverse.dropWhile (fun c => c == '/')
    let last := (stripped.takeWhile (fun c => c != '/')).reverse
    if last = [] then ['/'] else last

/-- Go `filepath.Dir` (Unix) on the characters of a path. -/
def dirChars (path : List Char) : List Char :=
  cleanChars (path.reverse.dropWhile (fun c => c != '/')).reverse

/-- The backwards scan of Go `filepath.Ext`: `rev` is the unread part of the
path, last character first, `seen` the characters already passed. -/
def extScan : List Char → List Char → List Char
  | [], _ => []
  | c :: rev, seen =>
    if c = '/' then [] else if c = '.' then c :: seen else extScan rev (c :: seen)

/-- Go `filepath.Ext` on the characters of a path. -/
def extChars (path : List Char) : List Char :=
  extScan path.reverse []

/-- Go `filepath.Join` (Unix) on the characters of its elements. -/
def joinChars : List (List Char) → List Char
  | [] => []
  | e :: rest => if e = [] then joinChars rest else cleanChars (List.intercalate ['/'] (e :: rest))

/-- Go `filepath.Dir`. -/
def Dir (path : String) : String := String.mk (dirChars path.data)

/-- Go `filepath.Base`. -/
def Base (path : String) : String := String.mk (baseChars path.data)

/-- Go `filepath.Ext`. -/
def Ext (path : String) : String := String.mk (extChars path.data)

/-- Go `filepath.Join` of two elements. -/
def Join (a b : String) : String := String.mk (joinChars [a.data, b.data])

end filepath

namespace audio

/-- Processor is an interface for audio processing operations. An operation
that returns only `error` in Go returns `none` for `nil`. -/
structure Processor (σ : Type) where
  GetDuration : String → σ → Except String ℚ × σ
  ApplySpeed : String → String → ℚ → σ → Option String × σ
  GenerateSilence : ℚ → String → σ → Option String × σ
  Concatenate : List String → String → σ → Option String × σ

/-- The errors of `FFmpegProcessor.ApplySpeed`: the speed factor is outside
the range ffmpeg supports, or the ffmpeg command failed with the given output. -/
inductive ApplySpeedError where
  | unsupportedSpeed (speed : ℚ)
  | ffmpegFailed (output : String) (err : String)

/-- The method `FFmpegProcessor.ApplySpeed`. `run` stands for building and
running the ffmpeg command with the `atempo` filter (`cmd.CombinedOutput`): it
gets the input file, the speed and the output file, and answers with the
output of the command and its error, if any. -/
def FFmpegProcessor.ApplySpeed {σ : Type}
    (run : String → ℚ → String → σ → (String × Option String) × σ)
    (inputFile outputFile : String) (speed : ℚ) (s : σ) : Option ApplySpeedError × σ :=
  if speed < 0.5 ∨ speed > 2.0 then (some (.unsupportedSpeed speed), s)
  else
    match run inputFile speed outputFile s with
    | ((output, some err), s1) => (some (.ffmpegFailed output err), s1)
    | ((_, none), s1) => (none, s1)

end audio

namespace core

open manifest

/-- The lower bound of the speed factor. -/
def minSpeed : ℚ := 0.8

/-- The upper bound of the speed factor. -/
def maxSpeed : ℚ := 1.5

/-- Epsilon is a small value to handle floating-point inaccuracies. -/
def epsilon : ℚ := 0.01

/-- The calls `pkg/core` makes outside the audio engine: `manifest.Parse`,
`manifest.Write`, `os.MkdirTemp`, `os.RemoveAll` and `os.Rename`. -/
structure System (σ : Type) where
  Parse : String → σ → Except String (List ManifestEntry) × σ
  Write : String → List ManifestEntry → σ → Option String × σ
  MkdirTemp : String → String → σ → Except String String × σ
  RemoveAll : String → σ → Option String × σ
  Rename : String → String → σ → Option String × σ

/-- Processor handles the core logic of processing the manifest entries. -/
structure Processor (σ : Type) where
  audioProc : audio.Processor σ

/-- The errors `pkg/core` returns. `ErrInvalidManifest` and
`ErrProcessingEntry` wrap the sentinel of that name and a cause; the others
are the plain errors built with `fmt.Errorf`, named after their message. -/
inductive Error where
  | ErrInvalidManifest (err : String)
  | ErrProcessingEntry (err : String)
  | invalidDuration (manifestDuration : ℚ)
  | actualDurationIsZero
  | writeSyncedManifest (err : String)
  | emptyManifest
  | createTempDir (err : String)
  | generateSilence (i : Nat) (err : String)
  | concatenateFiles (i : Nat) (err : String)
  | intermediateDuration (err : String)
  | moveFinalBuildFile (err : String)
  deriving DecidableEq

/-- One call made through an interface, with its arguments and its answer. -/
inductive Event where
  | GetDuration (filePath : String) (res : Except String ℚ)
  | ApplySpeed (inputFile outputFile : String) (speed : ℚ) (err : Option String)
  | GenerateSilence (duration : ℚ) (outputFile : String) (err : Option String)
  | Concatenate (inputFiles : List String) (outputFile : String) (err : Option String)
  | Parse (path : String) (res : Except String (List ManifestEntry))
  | Write (path : String) (entries : List ManifestEntry) (err : Option String)
  | MkdirTemp (dir pattern : String) (res : Except String String)
  | RemoveAll (path : String) (err : Option String)
  | Rename (oldpath newpath : String) (err : Option String)

/-- The function `clamp` of processor.go, on numbers; `float64.clamp` is the
same function on values that include NaN and the infinities. -/
def clamp (value min max : ℚ) : ℚ :=
  if value < min then min
  else if value > max then max
  else value

/-- The function `getSyncedManifestPath` of processor.go. -/
def getSyncedManifestPath (inputPath : String) : String :=
  let dir := filepath.Dir inputPath
  let base := filepath.Base inputPath
  let ext := filepath.Ext base
  let name := String.mk (strings.TrimSuffix base.data ext.data)
  filepath.Join dir (name ++ "_synced" ++ ext)

/-- The function `getOutputFilePath` of processor.go. -/
def getOutputFilePath (inputPath : String) : String :=
  let dir := filepath.Dir inputPath
  let base := filepath.Base inputPath
  let ext := filepath.Ext base
  let name := String.mk (strings.TrimSuffix base.data ext.data)
  filepath.Join dir (name ++ "_synced" ++ ext)

/-- The derived path in the words of the spec, `<dir>/<name>_synced<ext>`:
the directory, a separator, the name, the suffix and the extension. -/
def specDerivedPath (dir name ext : List Char) : String :=
  String.mk (dir ++ '/' :: (name ++ ("_synced".data ++ ext)))

/-- The text of a clean directory path: its elements joined by separators,
after a separator when the path is rooted (the empty text for the root). -/
def dirText (rooted : Bool) (els : List (List Char)) : List Char :=
  List.intercalate ['/'] ((if rooted then [[]] else []) ++ els)

/-- A plain path element: not empty, without separator, neither `.` nor `..`. -/
def isPlain (el : List Char) : Bool :=
  decide (el ≠ [] ∧ (∀ c ∈ el, c ≠ '/') ∧ el ≠ ['.'] ∧ el ≠ ['.', '.'])

/-- The text `ext` is the extension of the base name `name ++ ext`: empty when
the base name has no dot, or else its part from the last dot on. -/
def isExtension (name ext : List Char) : Bool :=
  decide ((ext = [] ∧ ∀ c ∈ name, c ≠ '.') ∨ (ext.head? = some '.' ∧ ∀ c ∈ ext.tail, c ≠ '.'))

/-- The method `processEntry`: the logic for a single manifest entry. -/
def processEntry {σ : Type} (p : Processor σ) (entry : ManifestEntry) (s : σ) :
    Except Error ManifestEntry × σ × List Event :=
  let manifestDuration := entry.EndTime - entry.StartTime
  if manifestDuration ≤ 0 then
    (.error (.invalidDuration manifestDuration), s, [])
  else
    match p.audioProc.GetDuration entry.FilePath s with
    | (.error err, s1) =>
      (.error (.ErrProcessingEntry err), s1, [.GetDuration entry.FilePath (.error err)])
    | (.ok actualDuration, s1) =>
      if actualDuration = 0 then
        (.error .actualDurationIsZero, s1, [.GetDuration entry.FilePath (.ok actualDuration)])
      else
        let speedFactor := actualDuration / manifestDuration
        let clampedSpeed := clamp speedFactor minSpeed maxSpeed
        let outputFilePath := getOutputFilePath entry.FilePath
        match p.audioProc.ApplySpeed entry.FilePath outputFilePath clampedSpeed s1 with
        | (some err, s2) =>
          (.error (.ErrProcessingEntry err), s2,
            [.GetDuration entry.FilePath (.ok actualDuration),
             .ApplySpeed entry.FilePath outputFilePath clampedSpeed (some err)])
        | (none, s2) =>
          (.ok { StartTime := entry.StartTime, EndTime := entry.EndTime,
                 Speaker := entry.Speaker, FilePath := outputFilePath }, s2,
            [.GetDuration entry.FilePath (.ok actualDuration),
             .ApplySpeed entry.FilePath outputFilePath clampedSpeed none])

/-- The loop of `ProcessManifest` over the parsed entries; `syncedEntries` is
the Go variable of that name. Returns its final value. -/
def processLoop {σ : Type} (p : Processor σ) :
    List ManifestEntry → List ManifestEntry → σ → List ManifestEntry × σ × List Event
  | [], syncedEntries, s => (syncedEntries, s, [])
  | entry :: rest, syncedEntries, s =>
    match processEntry p entry s with
    | (.error _, s1, ev) =>
      let r := processLoop p rest syncedEntries s1
      (r.1, r.2.1, ev ++ r.2.2)
    | (.ok newEntry, s1, ev) =>
      let r := processLoop p rest (syncedEntries ++ [newEntry]) s1
      (r.1, r.2.1, ev ++ r.2.2)

/-- The method `ProcessManifest`: processes the manifest file, adjusts audio
speed, and writes a new manifest for the synced files. `none` is `nil`. -/
def ProcessManifest {σ : Type} (sys : System σ) (p : Processor σ) (manifestPath : String)
    (s : σ) : Option Error × σ × List Event :=
  match sys.Parse manifestPath s with
  | (.error err, s1) =>
    (some (.ErrInvalidManifest err), s1, [.Parse manifestPath (.error err)])
  | (.ok entries, s1) =>
    match processLoop p entries [] s1 with
    | (syncedEntries, s2, ev) =>
      if syncedEntries.length > 0 then
        let syncedManifestPath := getSyncedManifestPath manifestPath
        match sys.Write syncedManifestPath syncedEntries s2 with
        | (some err, s3) =>
          (some (.writeSyncedManifest err), s3,
            .Parse manifestPath (.ok entries) :: ev ++
              [.Write syncedManifestPath syncedEntries (some err)])
        | (none, s3) =>
          (none, s3,
            .Parse manifestPath (.ok entries) :: ev ++
              [.Write syncedManifestPath syncedEntries none])
      else
        (none, s2, .Parse manifestPath (.ok entries) :: ev)

/-- The scratch file `filepath.Join(tempDir, fmt.Sprintf("silence_%d.wav", i))`. -/
def silenceFileName (tempDir : String) (i : Nat) : String :=
  filepath.Join tempDir ("silence_" ++ toString i ++ ".wav")

/-- The scratch file `filepath.Join(tempDir, fmt.Sprintf("build_step_%d.wav", i))`. -/
def buildFileName (tempDir : String) (i : Nat) : String :=
  filepath.Join tempDir ("build_step_" ++ toString i ++ ".wav")

/-- The body of the loop of `BuildFromManifest` for entry `i`, started with
the Go variables `currentTime` and `currentBuildFile`; returns their new
values, or the error the method returns from inside the loop. -/
def buildStep {σ : Type} (p : Processor σ) (tempDir : String) (i : Nat) (entry : ManifestEntry)
    (currentTime : ℚ) (currentBuildFile : String) (s : σ) :
    Except Error (ℚ × String) × σ × List Event :=
  let gap := entry.StartTime - currentTime
  let filesToConcat : List String := []
  let filesToConcat := if i > 0 then filesToConcat ++ [currentBuildFile] else filesToConcat
  let silenced : Except Error (List String) × σ × List Event :=
    if gap > epsilon then
      let silenceFile := silenceFileName tempDir i
      match p.audioProc.GenerateSilence gap silenceFile s with
      | (some err, s1) =>
        (.error (.generateSilence i err), s1, [.GenerateSilence gap silenceFile (some err)])
      | (none, s1) =>
        (.ok (filesToConcat ++ [silenceFile]), s1, [.GenerateSilence gap silenceFile none])
    else (.ok filesToConcat, s, [])
  match silenced with
  | (.error e, s1, ev) => (.error e, s1, ev)
  | (.ok filesToConcat, s1, ev) =>
    let filesToConcat := filesToConcat ++ [entry.FilePath]
    let nextBuildFile := buildFileName tempDir i
    match p.audioProc.Concatenate filesToConcat nextBuildFile s1 with
    | (some err, s2) =>
      (.error (.concatenateFiles i err), s2,
        ev ++ [.Concatenate filesToConcat nextBuildFile (some err)])
    | (none, s2) =>
      let currentBuildFile := nextBuildFile
      match p.audioProc.GetDuration currentBuildFile s2 with
      | (.error err, s3) =>
        (.error (.intermediateDuration err), s3,
          ev ++ [.Concatenate filesToConcat nextBuildFile none,
                 .GetDuration currentBuildFile (.error err)])
      | (.ok newDuration, s3) =>
        (.ok (newDuration, currentBuildFile), s3,
          ev ++ [.Concatenate filesToConcat nextBuildFile none,
                 .GetDuration currentBuildFile (.ok newDuration)])

/-- The loop of `BuildFromManifest` from entry `i` on. -/
def buildLoop {σ : Type} (p : Processor σ) (tempDir : String) :
    Nat → List ManifestEntry → ℚ → String → σ → Except Error (ℚ × String) × σ × List Event
  | _, [], currentTime, currentBuildFile, s => (.ok (currentTime, currentBuildFile), s, [])
  | i, entry :: rest, currentTime, currentBuildFile, s =>
    match buildStep p tempDir i entry currentTime currentBuildFile s with
    | (.error e, s1, ev) => (.error e, s1, ev)
    | (.ok (newTime, newBuildFile), s1, ev) =>
      let r := buildLoop p tempDir (i + 1) rest newTime newBuildFile s1
      (r.1, r.2.1, ev ++ r.2.2)

/-- The method `BuildFromManifest`: creates a single audio file by
concatenating clips from a manifest. `none` is `nil`. The deferred
`os.RemoveAll(tempDir)` runs on every return after the directory exists. -/
def BuildFromManifest {σ : Type} (sys : System σ) (p : Processor σ)
    (manifestPath outputPath : String) (s : σ) : Option Error × σ × List Event :=
  match sys.Parse manifestPath s with
  | (.error err, s1) =>
    (some (.ErrInvalidManifest err), s1, [.Parse manifestPath (.error err)])
  | (.ok entries, s1) =>
    if entries.length = 0 then
      (some .emptyManifest, s1, [.Parse manifestPath (.ok entries)])
    else
      match sys.MkdirTemp "" "sync-audio-build-" s1 with
      | (.error err, s2) =>
        (some (.createTempDir err), s2,
          [.Parse manifestPath (.ok entries), .MkdirTemp "" "sync-audio-build-" (.error err)])
      | (.ok tempDir, s2) =>
        let body : Option Error × σ × List Event :=
          match buildLoop p tempDir 0 entries 0 "" s2 with
          | (.error e, s3, ev) => (some e, s3, ev)
          | (.ok (_, currentBuildFile), s3, ev) =>
            match sys.Rename currentBuildFile outputPath s3 with
            | (some err, s4) =>
              (some (.moveFinalBuildFile err), s4,
                ev ++ [.Rename currentBuildFile outputPath (some err)])
            | (none, s4) => (none, s4, ev ++ [.Rename currentBuildFile outputPath none])
        let removed := sys.RemoveAll tempDir body.2.1
        (body.1, removed.2,
          [.Parse manifestPath (.ok entries), .MkdirTemp "" "sync-audio-build-" (.ok tempDir)]
            ++ body.2.2 ++ [.RemoveAll tempDir removed.1])

/-- An event is a call of the audio engine. -/
def Event.isEngineCall : Event → Bool
  | .GetDuration _ _ => true
  | .ApplySpeed _ _ _ _ => true
  | .GenerateSilence _ _ _ => true
  | .Concatenate _ _ _ => true
  | _ => false

/-- An event is a call of the audio engine that returned an error. -/
def Event.isFailedEngineCall : Event → Bool
  | .GetDuration _ (.error _) => true
  | .ApplySpeed _ _ _ (some _) => true
  | .GenerateSilence _ _ (some _) => true
  | .Concatenate _ _ (some _) => true
  | _ => false

/-- An event is a call whose error `BuildFromManifest` returns: a failed
`manifest.Parse`, `os.MkdirTemp`, engine call or `os.Rename`. The error of the
deferred `os.RemoveAll` is dropped. -/
def Event.isFailure : Event → Bool
  | .Parse _ (.error _) => true
  | .MkdirTemp _ _ (.error _) => true
  | .Rename _ _ (some _) => true
  | .GetDuration _ (.error _) => true
  | .ApplySpeed _ _ _ (some _) => true
  | .GenerateSilence _ _ (some _) => true
  | .Concatenate _ _ (some _) => true
  | _ => false

/-- An event is a call of `os.Rename`. -/
def Event.isRename : Event → Bool
  | .Rename _ _ _ => true
  | _ => false

/-- An event is a call of `ApplySpeed`. -/
def Event.isApplySpeed : Event → Bool
  | .ApplySpeed _ _ _ _ => true
  | _ => false

/-- An event is a call of `GenerateSilence`. -/
def Event.isGenerateSilence : Event → Bool
  | .GenerateSilence _ _ _ => true
  | _ => false

/-- An event is a call of `Concatenate`. -/
def Event.isConcatenate : Event → Bool
  | .Concatenate _ _ _ => true
  | _ => false

/-- An event is a call of `manifest.Write`. -/
def Event.isWrite : Event → Bool
  | .Write _ _ _ => true
  | _ => false

end core

namespace ideal

open manifest

/-- A stretch of an audio track: silence, or the audio of a named clip. -/
inductive Segment where
  | silence (d : ℚ)
  | clip (name : String) (d : ℚ)
  deriving DecidableEq

/-- The playing time of a segment. -/
def Segment.duration : Segment → ℚ
  | .silence d => d
  | .clip _ d => d

/-- The playing time of a track: the sum over its segments. -/
def duration (t : List Segment) : ℚ :=
  (t.map Segment.duration).sum

/-- The clips of a track, each with the time at which it starts when the
track itself starts at `off`. -/
def clipStartsFrom : ℚ → List Segment → List (String × ℚ)
  | _, [] => []
  | off, .silence d :: rest => clipStartsFrom (off + d) rest
  | off, .clip name d :: rest => (name, off) :: clipStartsFrom (off + d) rest

/-- The clips of a track with their start times. -/
def clipStarts (t : List Segment) : List (String × ℚ) :=
  clipStartsFrom 0 t

/-- The files the run can see: audio tracks and manifests by path, and the
directory the next `os.MkdirTemp` hands out. -/
structure Disk where
  audio : String → Option (List Segment)
  manifests : String → Option (List ManifestEntry)
  tempDir : String

/-- Write an audio file. -/
def Disk.put (d : Disk) (path : String) (t : List Segment) : Disk :=
  { d with audio := fun f => if f = path then some t else d.audio f }

/-- The tracks of the named files, one after the other; `none` when a file is
missing. -/
def Disk.readAll (d : Disk) : List String → Option (List Segment)
  | [] => some []
  | f :: rest =>
    match d.audio f, Disk.readAll d rest with
    | some t, some ts => some (t ++ ts)
    | _, _ => none

/-- The path `f` is the directory `dir` or lies below it. -/
def inDirectory (dir f : String) : Bool :=
  f = dir || (dir.data ++ ['/']).isPrefixOf f.data

/-- The ideal engine: a concatenated track is its inputs one after the other,
so its measured duration is the sum of theirs; synthesized silence has exactly
the requested duration; a speed change divides every duration by the speed,
within the range 0.5 to 2.0 of `FFmpegProcessor.ApplySpeed`. -/
def engine : audio.Processor Disk where
  GetDuration f d :=
    match d.audio f with
    | some t => (.ok (duration t), d)
    | none => (.error "no such file", d)
  ApplySpeed inputFile outputFile speed d :=
    if speed < 0.5 ∨ speed > 2.0 then (some "speed factor is outside the supported range", d)
    else
      match d.audio inputFile with
      | some t =>
        (none, d.put outputFile (t.map (fun sg =>
          match sg with
          | .silence x => .silence (x / speed)
          | .clip name x => .clip name (x / speed))))
      | none => (some "no such file", d)
  GenerateSilence dur outputFile d := (none, d.put outputFile [.silence dur])
  Concatenate inputFiles outputFile d :=
    if inputFiles = [] then (some "no input files provided for concatenation", d)
    else
      match d.readAll inputFiles with
      | some t => (none, d.put outputFile t)
      | none => (some "no such file", d)

/-- The system calls on a `Disk`. -/
def system : core.System Disk where
  Parse path d :=
    match d.manifests path with
    | some entries => (.ok entries, d)
    | none => (.error "failed to open manifest file", d)
  Write path entries d :=
    (none, { d with manifests := fun f => if f = path then some entries else d.manifests f })
  MkdirTemp _ _ d := (.ok d.tempDir, d)
  RemoveAll dir d :=
    (none, { d with audio := fun f => if inDirectory dir f then none else d.audio f })
  Rename oldpath newpath d :=
    match d.audio oldpath with
    | some t =>
      (none, { d with audio := fun f =>
        if f = newpath then some t else if f = oldpath then none else d.audio f })
    | none => (some "no such file", d)

/-- The processor over the ideal engine. -/
def processor : core.Processor Disk := { audioProc := engine }

/-- The timeline cursor `currentTime` when step `k` of `BuildFromManifest`
begins: its value after the loop has run over the first `k` entries. -/
def cursorAt (entries : List ManifestEntry) (k : Nat) (d : Disk) : ℚ :=
  match core.buildLoop processor d.tempDir 0 (entries.take k) 0 "" d with
  | (.ok (currentTime, _), _, _) => currentTime
  | (.error _, _, _) => 0

end ideal

namespace mock

open manifest

/-- The test double of processor_test.go: `GetDuration` returns
`actualDuration` for every file, `ApplySpeed` records the speed it is given
and returns `nil`; the state is the list of recorded speeds. -/
def clampingEngine (actualDuration : ℚ) : audio.Processor (List ℚ) where
  GetDuration _ s := (.ok actualDuration, s)
  ApplySpeed _ _ speed s := (none, s ++ [speed])
  GenerateSilence _ _ s := (none, s)
  Concatenate _ _ s := (none, s)

/-- The test double of processor_test.go whose `GetDuration` fails. -/
def failingEngine : audio.Processor Unit where
  GetDuration _ s := (.error "mock get duration error", s)
  ApplySpeed _ _ _ s := (some "ApplySpeedFunc not implemented", s)
  GenerateSilence _ _ s := (none, s)
  Concatenate _ _ s := (none, s)

/-- A system whose manifest reader answers `parsed` for every path and whose
other calls succeed without touching the state. -/
def system {σ : Type} (parsed : Except String (List ManifestEntry)) : core.System σ where
  Parse _ s := (parsed, s)
  Write _ _ s := (none, s)
  MkdirTemp _ _ s := (.ok "/tmp/sync-audio-build-1", s)
  RemoveAll _ s := (none, s)
  Rename _ _ s := (none, s)

/-- The one-line manifest of the clamping test: `[0.0s–Ds] (SPEAKER_00) /fake/audio.wav`. -/
def clampingManifest (D : ℚ) : List ManifestEntry :=
  [{ StartTime := 0, EndTime := D, Speaker := "SPEAKER_00", FilePath := "/fake/audio.wav" }]

/-- A manifest of two lines: an entry with an empty interval, then the entry
of the clamping test in a slot of 5 seconds. -/
def mixedManifest : List ManifestEntry :=
  [{ StartTime := 5, EndTime := 5, Speaker := "SPEAKER_01", FilePath := "/fake/bad.wav" },
   { StartTime := 0, EndTime := 5, Speaker := "SPEAKER_00", FilePath := "/fake/audio.wav" }]

/-- A manifest of two lines whose second entry ends before it starts. -/
def reversedManifest : List ManifestEntry :=
  [{ StartTime := 0, EndTime := 5, Speaker := "SPEAKER_00", FilePath := "/fake/audio.wav" },
   { StartTime := 9, EndTime := 7, Speaker := "SPEAKER_01", FilePath := "/fake/bad.wav" }]

/-- The manifest `reversedManifest` with the second entry ending after its start. -/
def forwardManifest : List ManifestEntry :=
  [{ StartTime := 0, EndTime := 5, Speaker := "SPEAKER_00", FilePath := "/fake/audio.wav" },
   { StartTime := 9, EndTime := 12, Speaker := "SPEAKER_01", FilePath := "/fake/bad.wav" }]

/-- The entry of the clamping test in a slot of 5 seconds. -/
def clipEntry : ManifestEntry :=
  { StartTime := 0, EndTime := 5, Speaker := "SPEAKER_00", FilePath := "/fake/audio.wav" }

/-- An entry whose clip is named without a directory. -/
def bareEntry : ManifestEntry :=
  { StartTime := 0, EndTime := 5, Speaker := "SPEAKER_00", FilePath := "audio.wav" }

end mock

namespace core

open manifest

/-- The list `filesToConcat` a step of `BuildFromManifest` is expected to pass
to `Concatenate`: the previous track if `i > 0`, the silence file if the gap
exceeds epsilon, then the file of the entry. -/
def stepInputs (tempDir : String) (i : Nat) (entry : ManifestEntry) (currentTime : ℚ)
    (currentBuildFile : String) : List String :=
  (if i > 0 then [currentBuildFile] else [])
    ++ (if entry.StartTime - currentTime > epsilon then [silenceFileName tempDir i] else [])
    ++ [entry.FilePath]

/-- The successful `GenerateSilence` call of a step, if its gap exceeds epsilon. -/
def stepSilence (tempDir : String) (i : Nat) (entry : ManifestEntry) (currentTime : ℚ) :
    List Event :=
  if entry.StartTime - currentTime > epsilon then
    [.GenerateSilence (entry.StartTime - currentTime) (silenceFileName tempDir i) none]
  else []

/-- The entry `processEntry` returns for `entry` when it succeeds: the same
timing and speaker, and the derived path of its file. -/
def syncedEntry (entry : ManifestEntry) : ManifestEntry :=
  { StartTime := entry.StartTime, EndTime := entry.EndTime, Speaker := entry.Speaker,
    FilePath := getOutputFilePath entry.FilePath }

/-- The entries of a list on which `processEntry` succeeds when the list is
processed in order from the state `s`, each call starting in the state the
call before it left. -/
def succeeded {σ : Type} (p : Processor σ) : List ManifestEntry → σ → List ManifestEntry
  | [], _ => []
  | entry :: rest, s =>
    match processEntry p entry s with
    | (.ok _, s1, _) => entry :: succeeded p rest s1
    | (.error _, s1, _) => succeeded p rest s1

end core

namespace ideal

open manifest

/-- The silence a step of `BuildFromManifest` puts before a clip that is to
start at `startTime` when the cursor stands at `cursor`. -/
def padding (startTime cursor : ℚ) : List Segment :=
  if startTime - cursor > core.epsilon then [.silence (startTime - cursor)] else []

/-- A manifest of two clips: the first is to start at 2, the second at 5.005. -/
def demoManifest : List ManifestEntry :=
  [{ StartTime := 2, EndTime := 5, Speaker := "SPEAKER_00", FilePath := "/clips/a.wav" },
   { StartTime := 5.005, EndTime := 7, Speaker := "SPEAKER_01", FilePath := "/clips/b.wav" }]

/-- A disk with the two clips of `demoManifest`, of 3 and 2 seconds, and the
manifest itself. -/
def demoDisk : Disk where
  audio f :=
    if f = "/clips/a.wav" then some [.clip "/clips/a.wav" 3]
    else if f = "/clips/b.wav" then some [.clip "/clips/b.wav" 2]
    else none
  manifests f := if f = "manifest.txt" then some demoManifest else none
  tempDir := "/tmp/sync-audio-build-1"

end ideal

namespace float64

open manifest

/-- A value of Go `float64` as comparison and division see it: a number, an
infinity or NaN. A number is an exact rational; rounding is not modelled. -/
inductive Value where
  | num (q : ℚ)
  | posInf
  | negInf
  | NaN
  deriving DecidableEq

/-- Go `a < b` on `float64`: false whenever an operand is NaN. -/
def Value.lt : Value → Value → Bool
  | .NaN, _ => false
  | _, .NaN => false
  | .num a, .num b => decide (a < b)
  | .num _, .posInf => true
  | .num _, .negInf => false
  | .posInf, _ => false
  | .negInf, .negInf => false
  | .negInf, _ => true

/-- Go `a > b` on `float64`: false whenever an operand is NaN. -/
def Value.gt (a b : Value) : Bool := Value.lt b a

/-- Go `a == 0` on `float64`. -/
def Value.isZero : Value → Bool
  | .num q => decide (q = 0)
  | _ => false

/-- Go `a / d` on `float64` for a number `d`. -/
def Value.div : Value → ℚ → Value
  | .num q, d =>
    if d = 0 then (if q = 0 then .NaN else if q > 0 then .posInf else .negInf)
    else .num (q / d)
  | .posInf, d => if d < 0 then .negInf else .posInf
  | .negInf, d => if d < 0 then .posInf else .negInf
  | .NaN, _ => .NaN

/-- The value is a number from `lo` to `hi`. -/
def Value.within (lo hi : ℚ) : Value → Bool
  | .num q => decide (lo ≤ q ∧ q ≤ hi)
  | _ => false

/-- The function `clamp` of processor.go, on `float64` values. -/
def clamp (value min max : Value) : Value :=
  if value.lt min then min
  else if value.gt max then max
  else value

/-- Processor is an interface for audio processing operations, with its
durations and speeds as `float64` values. -/
structure Processor (σ : Type) where
  GetDuration : String → σ → Except String Value × σ
  ApplySpeed : String → String → Value → σ → Option String × σ
  GenerateSilence : Value → String → σ → Option String × σ
  Concatenate : List String → String → σ → Option String × σ

/-- The method `processEntry` with the measured duration and the speed factor
as `float64` values; the times of the entry are numbers, as `manifest.Parse`
reads them from digits. The last component lists the speeds passed to
`ApplySpeed`. -/
def processEntry {σ : Type} (audioProc : Processor σ) (entry : ManifestEntry) (s : σ) :
    Except core.Error ManifestEntry × σ × List Value :=
  let manifestDuration := entry.EndTime - entry.StartTime
  if manifestDuration ≤ 0 then
    (.error (.invalidDuration manifestDuration), s, [])
  else
    match audioProc.GetDuration entry.FilePath s with
    | (.error err, s1) => (.error (.ErrProcessingEntry err), s1, [])
    | (.ok actualDuration, s1) =>
      if actualDuration.isZero then (.error .actualDurationIsZero, s1, [])
      else
        let speedFactor := actualDuration.div manifestDuration
        let clampedSpeed := clamp speedFactor (.num core.minSpeed) (.num core.maxSpeed)
        let outputFilePath := core.getOutputFilePath entry.FilePath
        match audioProc.ApplySpeed entry.FilePath outputFilePath clampedSpeed s1 with
        | (some err, s2) => (.error (.ErrProcessingEntry err), s2, [clampedSpeed])
        | (none, s2) =>
          (.ok { StartTime := entry.StartTime, EndTime := entry.EndTime,
                 Speaker := entry.Speaker, FilePath := outputFilePath }, s2, [clampedSpeed])

/-- The errors of `FFmpegProcessor.ApplySpeed`, the speed a `float64` value. -/
inductive ApplySpeedError where
  | unsupportedSpeed (speed : Value)
  | ffmpegFailed (output : String) (err : String)

/-- The method `FFmpegProcessor.ApplySpeed` with the speed as a `float64`
value; `run` stands for building and running the ffmpeg command with the
`atempo` filter. -/
def FFmpegProcessor.ApplySpeed {σ : Type}
    (run : String → Value → String → σ → (String × Option String) × σ)
    (inputFile outputFile : String) (speed : Value) (s : σ) : Option ApplySpeedError × σ :=
  if speed.lt (.num 0.5) || speed.gt (.num 2.0) then (some (.unsupportedSpeed speed), s)
  else
    match run inputFile speed outputFile s with
    | ((output, some err), s1) => (some (.ffmpegFailed output err), s1)
    | ((_, none), s1) => (none, s1)

/-- An engine whose `GetDuration` answers NaN for every file, as
`strconv.ParseFloat` does for the text `NaN`; `ApplySpeed` records the speed
it is given and returns `nil`. -/
def nanEngine : Processor (List Value) where
  GetDuration _ s := (.ok .NaN, s)
  ApplySpeed _ _ speed s := (none, s ++ [speed])
  GenerateSilence _ _ s := (none, s)
  Concatenate _ _ s := (none, s)

end float64

/-! ## The derived path: `filepath.Clean` on clean paths -/

namespace filepath

/-- A path always has at least one element. -/
theorem splitSlash_ne_nil (path : List Char) : splitSlash path ≠ [] := by
  cases path with
  | nil => simp [splitSlash]
  | cons c cs =>
    rw [splitSlash]
    rcases splitSlash cs with _ | ⟨h, t⟩
    · simp
    · simp only
      split_ifs <;> simp

/-- A text without separator is one element. -/
theorem splitSlash_plain (el : List Char) (h : ∀ c ∈ el, c ≠ '/') : splitSlash el = [el] := by
  induction el with
  | nil => rfl
  | cons c cs ih =>
    rw [splitSlash, ih (fun x hx => h x (List.mem_cons_of_mem _ hx))]
    simp [h c (List.mem_cons_self _ _)]

/-- An element, a separator and more: the element, then the elements of the
rest. -/
theorem splitSlash_append (el rest : List Char) (h : ∀ c ∈ el, c ≠ '/') :
    splitSlash (el ++ '/' :: rest) = el :: splitSlash rest := by
  induction el with
  | nil =>
    rw [List.nil_append, splitSlash]
    rcases hs : splitSlash rest with _ | ⟨x, t⟩
    · exact absurd hs (splitSlash_ne_nil rest)
    · simp
  | cons c cs ih =>
    rw [List.cons_append, splitSlash, ih (fun x hx => h x (List.mem_cons_of_mem _ hx))]
    simp [h c (List.mem_cons_self _ _)]

/-- Joining two or more elements with separators. -/
theorem intercalate_cons_cons (x y : List Char) (r : List (List Char)) :
    List.intercalate ['/'] (x :: y :: r) = x ++ '/' :: List.intercalate ['/'] (y :: r) := by
  simp [List.intercalate]

/-- Joining one element. -/
theorem intercalate_single (x : List Char) : List.intercalate ['/'] [x] = x := by
  simp [List.intercalate]

/-- The elements of a path joined from elements without separator are these
elements. -/
theorem splitSlash_intercalate (raw : List (List Char)) (hne : raw ≠ [])
    (hslash : ∀ el ∈ raw, ∀ c ∈ el, c ≠ '/') :
    splitSlash (List.intercalate ['/'] raw) = raw := by
  induction raw with
  | nil => exact absurd rfl hne
  | cons x r ih =>
    cases r with
    | nil =>
      rw [intercalate_single]
      exact splitSlash_plain x (hslash x (List.mem_cons_self _ _))
    | cons y r2 =>
      rw [intercalate_cons_cons, splitSlash_append x _ (hslash x (List.mem_cons_self _ _)),
        ih (by simp) (fun el hel => hslash el (List.mem_cons_of_mem _ hel))]

/-- Over elements none of which is `..`, the loop of `filepath.Clean` keeps
the elements that are neither empty nor `.`, in order. -/
theorem foldl_cleanStep (rooted : Bool) (raw : List (List Char))
    (hdots : ∀ el ∈ raw, el ≠ ['.', '.']) :
    ∀ out : List (List Char),
      raw.foldl (cleanStep rooted) out
        = (raw.filter (fun el => decide (el ≠ [] ∧ el ≠ ['.']))).reverse ++ out := by
  induction raw with
  | nil => intro out; simp
  | cons x r ih =>
    intro out
    have hx : x ≠ ['.', '.'] := hdots x (List.mem_cons_self _ _)
    rw [List.foldl_cons, ih (fun el hel => hdots el (List.mem_cons_of_mem _ hel))]
    by_cases hk : x = [] ∨ x = ['.']
    · have hk2 : ¬ (x ≠ [] ∧ x ≠ ['.']) := by tauto
      simp [cleanStep, hk, List.filter_cons, hk2]
    · have hk2 : x ≠ [] ∧ x ≠ ['.'] := by tauto
      simp [cleanStep, hk, hx, List.filter_cons, hk2]

/-- The result of `filepath.Clean` on a path joined from elements without
separator, none of which is `..`: the elements that are neither empty nor `.`,
joined, after a separator if the path begins with one. -/
theorem cleanChars_intercalate (raw : List (List Char)) (hne : raw ≠ [])
    (hslash : ∀ el ∈ raw, ∀ c ∈ el, c ≠ '/') (hdots : ∀ el ∈ raw, el ≠ ['.', '.'])
    (hpath : List.intercalate ['/'] raw ≠ []) :
    cleanChars (List.intercalate ['/'] raw) =
      if (List.intercalate ['/'] raw).head? = some '/' then
        '/' :: List.intercalate ['/'] (raw.filter (fun el => decide (el ≠ [] ∧ el ≠ ['.'])))
      else if List.intercalate ['/'] (raw.filter (fun el => decide (el ≠ [] ∧ el ≠ ['.']))) = []
        then ['.']
      else List.intercalate ['/'] (raw.filter (fun el => decide (el ≠ [] ∧ el ≠ ['.']))) := by
  unfold cleanChars
  simp only [hpath, if_false, splitSlash_intercalate raw hne hslash,
    foldl_cleanStep _ raw hdots, List.append_nil, List.reverse_reverse]
  by_cases hr : (List.intercalate ['/'] raw).head? = some '/'
  · simp [hr]
  · simp [hr]

/-- Joining elements and one more. -/
theorem intercalate_append_single (xs : List (List Char)) (y : List Char) (hne : xs ≠ []) :
    List.intercalate ['/'] (xs ++ [y]) = List.intercalate ['/'] xs ++ '/' :: y := by
  induction xs with
  | nil => exact absurd rfl hne
  | cons x r ih =>
    cases r with
    | nil => simp [intercalate_cons_cons, intercalate_single]
    | cons z r2 =>
      rw [List.cons_append, List.cons_append, intercalate_cons_cons, intercalate_cons_cons,
        ← List.cons_append, ih (by simp)]
      simp

/-- Joining after an empty first element: a separator in front. -/
theorem intercalate_nil_cons (r : List (List Char)) (hne : r ≠ []) :
    List.intercalate ['/'] ([] :: r) = '/' :: List.intercalate ['/'] r := by
  cases r with
  | nil => exact absurd rfl hne
  | cons y r2 => rw [intercalate_cons_cons, List.nil_append]

/-- The result of `filepath.Clean` on a rooted path. -/
theorem cleanChars_rooted (extra : List (List Char)) (hne : extra ≠ [])
    (hslash : ∀ el ∈ extra, ∀ c ∈ el, c ≠ '/') (hdots : ∀ el ∈ extra, el ≠ ['.', '.']) :
    cleanChars ('/' :: List.intercalate ['/'] extra) =
      '/' :: List.intercalate ['/'] (extra.filter (fun el => decide (el ≠ [] ∧ el ≠ ['.']))) := by
  have h := cleanChars_intercalate ([] :: extra) (by simp)
    (by
      intro el hel
      rcases List.mem_cons.mp hel with h1 | h1
      · rw [h1]; simp
      · exact hslash el h1)
    (by
      intro el hel
      rcases List.mem_cons.mp hel with h1 | h1
      · rw [h1]; simp
      · exact hdots el h1)
    (by rw [intercalate_nil_cons extra hne]; simp)
  rw [intercalate_nil_cons extra hne] at h
  rw [h]
  simp [List.filter_cons]

/-- The result of `filepath.Clean` on a path that begins with an element. -/
theorem cleanChars_unrooted (x : List Char) (r : List (List Char)) (hx : x ≠ [])
    (hslash : ∀ el ∈ x :: r, ∀ c ∈ el, c ≠ '/') (hdots : ∀ el ∈ x :: r, el ≠ ['.', '.']) :
    cleanChars (List.intercalate ['/'] (x :: r)) =
      if List.intercalate ['/'] ((x :: r).filter (fun el => decide (el ≠ [] ∧ el ≠ ['.']))) = []
        then ['.']
      else List.intercalate ['/'] ((x :: r).filter (fun el => decide (el ≠ [] ∧ el ≠ ['.']))) := by
  obtain ⟨c, cs, hc⟩ : ∃ c cs, x = c :: cs := by
    cases x with
    | nil => exact absurd rfl hx
    | cons c cs => exact ⟨c, cs, rfl⟩
  have hcs : c ≠ '/' := hslash x (List.mem_cons_self _ _) c (by rw [hc]; simp)
  have hhead : (List.intercalate ['/'] (x :: r)).head? = some c := by
    cases r with
    | nil => rw [intercalate_single, hc]; rfl
    | cons y r2 => rw [intercalate_cons_cons, hc]; rfl
  have hpath : List.intercalate ['/'] (x :: r) ≠ [] := by
    intro h
    rw [h] at hhead
    simp at hhead
  have h := cleanChars_intercalate (x :: r) (by simp) hslash hdots hpath
  rw [h, hhead]
  have : ¬ (some c = some '/') := by
    intro h2
    exact hcs (Option.some.inj h2)
  simp only [this, if_false]

/-- Go `filepath.Base` of a path that ends with a file name: the file name. -/
theorem baseChars_file (pre base : List Char) (hbase : base ≠ [])
    (hs : ∀ c ∈ base, c ≠ '/') (hpre : pre = [] ∨ ∃ d, pre = d ++ ['/']) :
    baseChars (pre ++ base) = base := by
  obtain ⟨ys, a, hya⟩ : ∃ ys a, base = ys ++ [a] :=
    ⟨_, _, (List.dropLast_concat_getLast hbase).symm⟩
  have ha : a ≠ '/' := hs a (by rw [hya]; simp)
  have hrev : (pre ++ base).reverse = (a :: ys.reverse) ++ pre.reverse := by
    rw [hya]; simp
  have hall : ∀ c ∈ a :: ys.reverse, (fun c => c != '/') c = true := by
    intro c hc
    have : c ∈ base := by
      rw [hya]
      simp only [List.mem_cons, List.mem_reverse] at hc
      simp only [List.mem_append, List.mem_singleton]
      tauto
    simpa using hs c this
  have htail : pre.reverse.takeWhile (fun c => c != '/') = [] := by
    rcases hpre with h | ⟨d, h⟩
    · rw [h]; rfl
    · rw [h]; simp
  have hne : pre ++ base ≠ [] := by
    rw [hya]; simp
  unfold baseChars
  simp only [hne, if_false, hrev]
  have hdrop : ((a :: ys.reverse) ++ pre.reverse).dropWhile (fun c => c == '/')
      = (a :: ys.reverse) ++ pre.reverse := by
    rw [List.cons_append, List.dropWhile_cons_of_neg (by simpa using ha)]
  rw [hdrop, List.takeWhile_append_of_pos hall, htail, List.append_nil]
  have hb : (a :: ys.reverse).reverse = base := by
    rw [hya]; simp
  rw [hb]
  simp [hbase]

/-- Go `filepath.Dir` of a directory, a separator and a file name: the
directory with the separator, cleaned. -/
theorem dirChars_file (d base : List Char) (hs : ∀ c ∈ base, c ≠ '/') :
    dirChars (d ++ '/' :: base) = cleanChars (d ++ ['/']) := by
  have hall : ∀ c ∈ base.reverse, (fun c => c != '/') c = true := by
    intro c hc
    simpa using hs c (List.mem_reverse.mp hc)
  unfold dirChars
  have hrev : (d ++ '/' :: base).reverse = base.reverse ++ '/' :: d.reverse := by simp
  rw [hrev, List.dropWhile_append_of_pos hall, List.dropWhile_cons_of_neg (by simp)]
  simp

/-- Go `filepath.Dir` of a bare file name: `.`. -/
theorem dirChars_bare (base : List Char) (hs : ∀ c ∈ base, c ≠ '/') :
    dirChars base = ['.'] := by
  have hall : ∀ c ∈ base.reverse, (fun c => c != '/') c = true := by
    intro c hc
    simpa using hs c (List.mem_reverse.mp hc)
  unfold dirChars
  have h : List.dropWhile (fun c => c != '/') (base.reverse ++ []) = List.dropWhile (fun c => c != '/') [] :=
    List.dropWhile_append_of_pos hall
  rw [List.append_nil] at h
  rw [h]
  rfl

/-- The scan of `filepath.Ext` stops at the first dot it meets. -/
theorem extScan_dot (l rest : List Char) (h : ∀ c ∈ l, c ≠ '.' ∧ c ≠ '/') :
    ∀ seen : List Char, extScan (l ++ '.' :: rest) seen = '.' :: (l.reverse ++ seen) := by
  induction l with
  | nil => intro seen; simp [extScan]
  | cons c cs ih =>
    intro seen
    have hc := h c (List.mem_cons_self _ _)
    rw [List.cons_append, extScan, if_neg hc.2, if_neg hc.1,
      ih (fun x hx => h x (List.mem_cons_of_mem _ hx))]
    simp

/-- The scan of `filepath.Ext` finds nothing where there is no dot. -/
theorem extScan_none (l : List Char) (h : ∀ c ∈ l, c ≠ '.' ∧ c ≠ '/') :
    ∀ seen : List Char, extScan l seen = [] := by
  induction l with
  | nil => intro seen; rfl
  | cons c cs ih =>
    intro seen
    have hc := h c (List.mem_cons_self _ _)
    rw [extScan, if_neg hc.2, if_neg hc.1, ih (fun x hx => h x (List.mem_cons_of_mem _ hx))]

/-- Go `filepath.Ext` of a base name with its extension: the extension. -/
theorem extChars_file (name ext : List Char) (hs : ∀ c ∈ name ++ ext, c ≠ '/')
    (hext : core.isExtension name ext = true) : extChars (name ++ ext) = ext := by
  simp only [core.isExtension, decide_eq_true_eq] at hext
  unfold extChars
  rcases hext with ⟨he, hn⟩ | ⟨he, hn⟩
  · subst he
    rw [List.append_nil]
    apply extScan_none
    intro c hc
    have hc2 := List.mem_reverse.mp hc
    exact ⟨hn c hc2, hs c (by simp [hc2])⟩
  · obtain ⟨e, rfl⟩ : ∃ e, ext = '.' :: e := by
      cases ext with
      | nil => simp at he
      | cons x e =>
        simp only [List.head?_cons, Option.some.injEq] at he
        exact ⟨e, by rw [he]⟩
    simp only [List.tail_cons] at hn
    have hrev : (name ++ '.' :: e).reverse = e.reverse ++ '.' :: name.reverse := by simp
    rw [hrev, extScan_dot]
    · simp
    · intro c hc
      have hc2 := List.mem_reverse.mp hc
      exact ⟨hn c hc2, hs c (by simp [hc2])⟩

/-- Go `filepath.Clean` never returns the empty path. -/
theorem cleanChars_ne_nil (path : List Char) : cleanChars path ≠ [] := by
  unfold cleanChars
  by_cases h1 : path = []
  · simp [h1]
  · simp only [h1, if_false]
    split_ifs with h2 h3
    · simp
    · simp
    · exact h3

/-- The scan of Go `filepath.Ext` returns an end of the text it has read. -/
theorem extScan_suffix (rev : List Char) :
    ∀ seen : List Char, extScan rev seen <:+ rev.reverse ++ seen := by
  induction rev with
  | nil => intro seen; simp [extScan]
  | cons c rev ih =>
    intro seen
    rw [extScan]
    split_ifs with h1 h2
    · exact List.nil_suffix
    · rw [List.reverse_cons, List.append_assoc, List.singleton_append]
      exact List.suffix_append _ _
    · rw [List.reverse_cons, List.append_assoc, List.singleton_append]
      exact ih (c :: seen)

/-- The extension Go `filepath.Ext` returns is an end of the path. -/
theorem extChars_suffix (path : List Char) : extChars path <:+ path := by
  have h := extScan_suffix path.reverse []
  rw [List.reverse_reverse, List.append_nil] at h
  exact h

end filepath

namespace strings

/-- Go `strings.TrimSuffix` takes a suffix off. -/
theorem TrimSuffix_append (name ext : List Char) : TrimSuffix (name ++ ext) ext = name := by
  unfold TrimSuffix
  have h : ext.isSuffixOf (name ++ ext) = true := by
    rw [List.isSuffixOf_iff_suffix]
    exact List.suffix_append name ext
  simp [h]

/-- Go `strings.TrimSuffix` of a text by one of its ends, followed by that
end, is the text. -/
theorem TrimSuffix_of_suffix (s suffix : List Char) (h : suffix <:+ s) :
    TrimSuffix s suffix ++ suffix = s := by
  obtain ⟨name, rfl⟩ := h
  rw [TrimSuffix_append]

end strings

namespace core

/-- The clean of a clean directory followed by a separator is the directory;
for the root, the separator. -/
theorem cleanChars_dirText (rooted : Bool) (els : List (List Char))
    (hdir : rooted = true ∨ els ≠ []) (hels : ∀ el ∈ els, isPlain el = true) :
    filepath.cleanChars (dirText rooted els ++ ['/'])
      = if rooted then '/' :: List.intercalate ['/'] els else List.intercalate ['/'] els := by
  have hp : ∀ el ∈ els, el ≠ [] ∧ (∀ c ∈ el, c ≠ '/') ∧ el ≠ ['.'] ∧ el ≠ ['.', '.'] := by
    intro el hel
    simpa [isPlain] using hels el hel
  have hfilter : (els ++ [[]]).filter (fun el => decide (el ≠ [] ∧ el ≠ ['.'])) = els := by
    rw [List.filter_append]
    simp only [List.filter_cons, List.filter_nil, ne_eq, not_true_eq_false, false_and,
      decide_False, Bool.false_eq_true, if_false, List.append_nil]
    rw [List.filter_eq_self]
    intro el hel
    simp [(hp el hel).1, (hp el hel).2.2.1]
  have hslash : ∀ el ∈ els ++ [[]], ∀ c ∈ el, c ≠ '/' := by
    intro el hel
    rcases List.mem_append.mp hel with h | h
    · exact (hp el h).2.1
    · simp only [List.mem_singleton] at h
      rw [h]; simp
  have hdots : ∀ el ∈ els ++ [[]], el ≠ ['.', '.'] := by
    intro el hel
    rcases List.mem_append.mp hel with h | h
    · exact (hp el h).2.2.2
    · simp only [List.mem_singleton] at h
      rw [h]; simp
  cases rooted with
  | true =>
    have htext : dirText true els ++ ['/'] = '/' :: List.intercalate ['/'] (els ++ [[]]) := by
      by_cases he : els = []
      · subst he
        simp [dirText, filepath.intercalate_single]
      · simp only [dirText, if_true, List.singleton_append]
        rw [filepath.intercalate_nil_cons els he, filepath.intercalate_append_single els [] he]
        simp
    rw [htext, filepath.cleanChars_rooted _ (by simp) hslash hdots, hfilter]
    simp
  | false =>
    have he : els ≠ [] := by
      rcases hdir with h | h
      · cases h
      · exact h
    obtain ⟨x, r, hxr⟩ : ∃ x r, els = x :: r := by
      cases els with
      | nil => exact absurd rfl he
      | cons x r => exact ⟨x, r, rfl⟩
    have hx : x ≠ [] := (hp x (by rw [hxr]; simp)).1
    have htext : dirText false els ++ ['/'] = List.intercalate ['/'] (x :: (r ++ [[]])) := by
      simp only [dirText, Bool.false_eq_true, if_false, List.nil_append]
      rw [← filepath.intercalate_append_single els [] he, hxr]
      rfl
    have hbody : List.intercalate ['/'] els ≠ [] := by
      rw [hxr]
      cases r with
      | nil => rw [filepath.intercalate_single]; exact hx
      | cons y r2 =>
        rw [filepath.intercalate_cons_cons]
        simp
    have hcons : x :: (r ++ [[]]) = els ++ [[]] := by rw [hxr]; rfl
    rw [htext, filepath.cleanChars_unrooted x _ hx (by rw [hcons]; exact hslash)
      (by rw [hcons]; exact hdots), hcons, hfilter]
    simp [hbody]

/-- Go `filepath.Join` of a clean directory and a plain file name: the
directory, a separator and the file name. -/
theorem joinChars_dirText (rooted : Bool) (els : List (List Char)) (file : List Char)
    (hdir : rooted = true ∨ els ≠ []) (hels : ∀ el ∈ els, isPlain el = true)
    (hfile : isPlain file = true) :
    filepath.joinChars
        [if rooted then '/' :: List.intercalate ['/'] els else List.intercalate ['/'] els, file]
      = dirText rooted els ++ '/' :: file := by
  have hp : ∀ el ∈ els, el ≠ [] ∧ (∀ c ∈ el, c ≠ '/') ∧ el ≠ ['.'] ∧ el ≠ ['.', '.'] := by
    intro el hel
    simpa [isPlain] using hels el hel
  have hf : file ≠ [] ∧ (∀ c ∈ file, c ≠ '/') ∧ file ≠ ['.'] ∧ file ≠ ['.', '.'] := by
    simpa [isPlain] using hfile
  have hfilter : (els ++ [file]).filter (fun el => decide (el ≠ [] ∧ el ≠ ['.']))
      = els ++ [file] := by
    rw [List.filter_eq_self]
    intro el hel
    rcases List.mem_append.mp hel with h | h
    · simp [(hp el h).1, (hp el h).2.2.1]
    · simp only [List.mem_singleton] at h
      rw [h]
      simp [hf.1, hf.2.2.1]
  have hslash : ∀ el ∈ els ++ [file], ∀ c ∈ el, c ≠ '/' := by
    intro el hel
    rcases List.mem_append.mp hel with h | h
    · exact (hp el h).2.1
    · simp only [List.mem_singleton] at h
      rw [h]; exact hf.2.1
  have hdots : ∀ el ∈ els ++ [file], el ≠ ['.', '.'] := by
    intro el hel
    rcases List.mem_append.mp hel with h | h
    · exact (hp el h).2.2.2
    · simp only [List.mem_singleton] at h
      rw [h]; exact hf.2.2.2
  cases rooted with
  | true =>
    simp only [if_true, filepath.joinChars, List.cons_ne_nil, if_false,
      filepath.intercalate_cons_cons, filepath.intercalate_single, List.cons_append]
    by_cases he : els = []
    · subst he
      have h1 : List.intercalate ['/'] ([] : List (List Char)) = [] := rfl
      have h2 : ('/' :: file) = List.intercalate ['/'] [[], file] := by
        rw [filepath.intercalate_cons_cons, filepath.intercalate_single]; rfl
      rw [h1, List.nil_append, h2, filepath.cleanChars_rooted _ (by simp)
        (by
          intro el hel
          simp only [List.mem_cons, List.mem_singleton, List.not_mem_nil, or_false] at hel
          rcases hel with h | h
          · rw [h]; simp
          · rw [h]; exact hf.2.1)
        (by
          intro el hel
          simp only [List.mem_cons, List.mem_singleton, List.not_mem_nil, or_false] at hel
          rcases hel with h | h
          · rw [h]; simp
          · rw [h]; exact hf.2.2.2)]
      simp [List.filter_cons, hf.1, hf.2.2.1, dirText, filepath.intercalate_single, ← h2]
    · rw [← filepath.intercalate_append_single els file he,
        filepath.cleanChars_rooted _ (by simp) hslash hdots, hfilter]
      simp only [dirText, if_true, List.singleton_append]
      rw [filepath.intercalate_nil_cons els he, filepath.intercalate_append_single els file he]
      rfl
  | false =>
    have he : els ≠ [] := by
      rcases hdir with h | h
      · cases h
      · exact h
    obtain ⟨x, r, hxr⟩ : ∃ x r, els = x :: r := by
      cases els with
      | nil => exact absurd rfl he
      | cons x r => exact ⟨x, r, rfl⟩
    have hx : x ≠ [] := (hp x (by rw [hxr]; simp)).1
    have hbody : List.intercalate ['/'] els ≠ [] := by
      rw [hxr]
      cases r with
      | nil => rw [filepath.intercalate_single]; exact hx
      | cons y r2 =>
        rw [filepath.intercalate_cons_cons]
        simp
    have hcons : x :: (r ++ [file]) = els ++ [file] := by rw [hxr]; rfl
    have hjoined : List.intercalate ['/'] (els ++ [file]) ≠ [] := by
      rw [filepath.intercalate_append_single els file he]
      simp
    simp only [Bool.false_eq_true, if_false, filepath.joinChars, hbody,
      filepath.intercalate_cons_cons, filepath.intercalate_single]
    rw [← filepath.intercalate_append_single els file he, ← hcons,
      filepath.cleanChars_unrooted x _ hx (by rw [hcons]; exact hslash)
        (by rw [hcons]; exact hdots), hcons, hfilter]
    simp only [hjoined, if_false, dirText, Bool.false_eq_true, List.nil_append]
    rw [filepath.intercalate_append_single els file he]


/-- The file name `getOutputFilePath` builds, `<name>_synced<ext>`, is a plain
path element. -/
theorem isPlain_synced (name ext : List Char) (hs : ∀ c ∈ name ++ ext, c ≠ '/') :
    isPlain (name ++ ("_synced".data ++ ext)) = true := by
  have hmem : '_' ∈ name ++ ("_synced".data ++ ext) := by
    simp
  simp only [isPlain, decide_eq_true_eq]
  refine ⟨?_, ?_, ?_, ?_⟩
  · intro h
    rw [h] at hmem
    simp at hmem
  · intro c hc
    simp only [List.mem_append] at hc hs
    rcases hc with h | h | h
    · exact hs c (Or.inl h)
    · intro hc2
      subst hc2
      revert h
      decide
    · exact hs c (Or.inr h)
  · intro h
    rw [h] at hmem
    revert hmem
    decide
  · intro h
    rw [h] at hmem
    revert hmem
    decide

/-- The characters of the path `getOutputFilePath` returns. -/
theorem getOutputFilePath_data (inputPath : String) :
    getOutputFilePath inputPath =
      String.mk (filepath.joinChars [filepath.dirChars inputPath.data,
        strings.TrimSuffix (filepath.baseChars inputPath.data)
            (filepath.extChars (filepath.baseChars inputPath.data))
          ++ ("_synced".data ++ filepath.extChars (filepath.baseChars inputPath.data))]) := by
  simp only [getOutputFilePath, filepath.Dir, filepath.Base, filepath.Ext, filepath.Join,
    String.data_append, List.append_assoc]

/-- The derived path of a clean path with a directory part is, character for
character, `<dir>/<name>_synced<ext>`: the text before the last separator, the
separator, the file name without its extension, `_synced`, the extension. -/
theorem getOutputFilePath_derived (rooted : Bool) (els : List (List Char))
    (name ext : List Char) (hdir : rooted = true ∨ els ≠ [])
    (hels : ∀ el ∈ els, isPlain el = true) (hfile : name ++ ext ≠ [])
    (hslash : ∀ c ∈ name ++ ext, c ≠ '/') (hext : isExtension name ext = true) :
    getOutputFilePath (String.mk (dirText rooted els ++ '/' :: (name ++ ext)))
      = specDerivedPath (dirText rooted els) name ext := by
  have hbase : filepath.baseChars (dirText rooted els ++ '/' :: (name ++ ext)) = name ++ ext := by
    have h := filepath.baseChars_file (dirText rooted els ++ ['/']) (name ++ ext) hfile hslash
      (Or.inr ⟨_, rfl⟩)
    rw [List.append_assoc, List.singleton_append] at h
    exact h
  rw [getOutputFilePath_data]
  simp only [hbase, filepath.extChars_file name ext hslash hext, strings.TrimSuffix_append,
    filepath.dirChars_file _ _ hslash, cleanChars_dirText rooted els hdir hels,
    joinChars_dirText rooted els _ hdir hels (isPlain_synced name ext hslash), specDerivedPath]

/-- The derived path of any path: `filepath.Clean` of `<dir>/<name>_synced<ext>`,
where `<dir>` is `filepath.Dir` of the path, `<ext>` is `filepath.Ext` of its
base name and `<name>` followed by `<ext>` is the base name. -/
theorem getOutputFilePath_clean (inputPath : String) :
    strings.TrimSuffix (filepath.baseChars inputPath.data)
          (filepath.extChars (filepath.baseChars inputPath.data))
        ++ filepath.extChars (filepath.baseChars inputPath.data)
      = filepath.baseChars inputPath.data
    ∧ getOutputFilePath inputPath =
        String.mk (filepath.cleanChars (specDerivedPath (filepath.dirChars inputPath.data)
          (strings.TrimSuffix (filepath.baseChars inputPath.data)
            (filepath.extChars (filepath.baseChars inputPath.data)))
          (filepath.extChars (filepath.baseChars inputPath.data))).data) := by
  refine ⟨strings.TrimSuffix_of_suffix _ _ (filepath.extChars_suffix _), ?_⟩
  have hd : filepath.dirChars inputPath.data ≠ [] := by
    unfold filepath.dirChars
    exact filepath.cleanChars_ne_nil _
  rw [getOutputFilePath_data]
  simp only [filepath.joinChars, hd, if_false, filepath.intercalate_cons_cons,
    filepath.intercalate_single, specDerivedPath]

/-- Go `filepath.Join` of the current directory and a plain file name is the
file name. -/
theorem joinChars_dot (file : List Char) (hfile : isPlain file = true) :
    filepath.joinChars [['.'], file] = file := by
  have hp : file ≠ [] ∧ (∀ c ∈ file, c ≠ '/') ∧ file ≠ ['.'] ∧ file ≠ ['.', '.'] := by
    simpa [isPlain] using hfile
  simp only [filepath.joinChars, List.cons_ne_nil, if_false]
  rw [filepath.cleanChars_unrooted ['.'] _ (by simp)
    (by
      intro el hel
      simp only [List.mem_cons, List.mem_singleton, List.not_mem_nil, or_false] at hel
      rcases hel with h | h
      · rw [h]; decide
      · rw [h]; exact hp.2.1)
    (by
      intro el hel
      simp only [List.mem_cons, List.mem_singleton, List.not_mem_nil, or_false] at hel
      rcases hel with h | h
      · rw [h]; decide
      · rw [h]; exact hp.2.2.2)]
  simp [List.filter_cons, hp.1, hp.2.2.1, filepath.intercalate_single]

/-- The derived path of a bare file name is `<name>_synced<ext>`: the directory
is the current one, and `filepath.Join` writes no `./` before the name. -/
theorem getOutputFilePath_bare (name ext : List Char) (hfile : name ++ ext ≠ [])
    (hslash : ∀ c ∈ name ++ ext, c ≠ '/') (hext : isExtension name ext = true) :
    getOutputFilePath (String.mk (name ++ ext))
      = String.mk (name ++ ("_synced".data ++ ext)) := by
  have hbase : filepath.baseChars (name ++ ext) = name ++ ext := by
    have h := filepath.baseChars_file [] (name ++ ext) hfile hslash (Or.inl rfl)
    rw [List.nil_append] at h
    exact h
  rw [getOutputFilePath_data]
  simp only [hbase, filepath.extChars_file name ext hslash hext, strings.TrimSuffix_append,
    filepath.dirChars_bare _ hslash]
  rw [joinChars_dot _ (isPlain_synced name ext hslash)]

end core

/-! ## The derived path of any path: the shape of `filepath.Clean` results -/

namespace filepath

/-- No element of a path holds a separator. -/
theorem splitSlash_no_slash (path : List Char) :
    ∀ el ∈ splitSlash path, ∀ c ∈ el, c ≠ '/' := by
  induction path with
  | nil => simp [splitSlash]
  | cons c cs ih =>
    rw [splitSlash]
    rcases hs : splitSlash cs with _ | ⟨h, t⟩
    · simp
    · rw [hs] at ih
      simp only
      split_ifs with hc
      · intro el hel
        rcases List.mem_cons.mp hel with h1 | h1
        · rw [h1]; simp
        · exact ih el h1
      · intro el hel
        rcases List.mem_cons.mp hel with h1 | h1
        · rw [h1]
          intro x hx
          rcases List.mem_cons.mp hx with h2 | h2
          · rw [h2]; exact hc
          · exact ih h (List.mem_cons_self _ _) x h2
        · exact ih el (List.mem_cons_of_mem _ h1)

/-- The loop of `filepath.Clean` on a path that is not rooted keeps leading
`..` elements. -/
theorem foldl_cleanStep_dots (k : Nat) :
    ∀ j : Nat, (List.replicate k ['.', '.']).foldl (cleanStep false) (List.replicate j ['.', '.'])
      = List.replicate (k + j) ['.', '.'] := by
  induction k with
  | zero => intro j; simp
  | succ k ih =>
    intro j
    rw [List.replicate_succ, List.foldl_cons]
    have hstep : cleanStep false (List.replicate j ['.', '.']) ['.', '.']
        = List.replicate (j + 1) ['.', '.'] := by
      cases j with
      | zero => simp [cleanStep]
      | succ j => simp [cleanStep, List.replicate_succ]
    rw [hstep, ih (j + 1)]
    congr 1
    omega

/-- The result of `filepath.Clean` on a path that is not rooted, joined from
leading `..` elements and elements none of which is `..`: the `..` elements and
the elements that are neither empty nor `.`, joined. -/
theorem cleanChars_rel (k : Nat) (rest : List (List Char))
    (hslash : ∀ el ∈ rest, ∀ c ∈ el, c ≠ '/') (hdots : ∀ el ∈ rest, el ≠ ['.', '.'])
    (hfirst : 0 < k ∨ ∃ x r, rest = x :: r ∧ x ≠ []) :
    cleanChars (List.intercalate ['/'] (List.replicate k ['.', '.'] ++ rest)) =
      if List.intercalate ['/'] (List.replicate k ['.', '.']
          ++ rest.filter (fun el => decide (el ≠ [] ∧ el ≠ ['.']))) = [] then ['.']
      else List.intercalate ['/'] (List.replicate k ['.', '.']
          ++ rest.filter (fun el => decide (el ≠ [] ∧ el ≠ ['.']))) := by
  have hall : ∀ el ∈ List.replicate k ['.', '.'] ++ rest, ∀ c ∈ el, c ≠ '/' := by
    intro el hel
    rcases List.mem_append.mp hel with h | h
    · rw [(List.mem_replicate.mp h).2]
      decide
    · exact hslash el h
  obtain ⟨c, cs, r, hraw, hc⟩ : ∃ c cs r,
      List.replicate k ['.', '.'] ++ rest = (c :: cs) :: r ∧ c ≠ '/' := by
    rcases hfirst with hk | ⟨x, r, hx, hne⟩
    · obtain ⟨j, hj⟩ : ∃ j, k = j + 1 := ⟨k - 1, by omega⟩
      rw [hj, List.replicate_succ, List.cons_append]
      exact ⟨'.', ['.'], _, rfl, by decide⟩
    · cases k with
      | succ j =>
        rw [List.replicate_succ, List.cons_append]
        exact ⟨'.', ['.'], _, rfl, by decide⟩
      | zero =>
        cases x with
        | nil => exact absurd rfl hne
        | cons c cs =>
          refine ⟨c, cs, r, by rw [hx]; rfl, ?_⟩
          exact hslash (c :: cs) (by rw [hx]; simp) c (by simp)
  have hhead : (List.intercalate ['/'] (List.replicate k ['.', '.'] ++ rest)).head? = some c := by
    rw [hraw]
    cases r with
    | nil => rw [intercalate_single]; rfl
    | cons y r2 => rw [intercalate_cons_cons]; rfl
  have hpath : List.intercalate ['/'] (List.replicate k ['.', '.'] ++ rest) ≠ [] := by
    intro h
    rw [h] at hhead
    simp at hhead
  have hroot : ¬ (some c = some '/') := fun h => hc (Option.some.inj h)
  have hfold : List.foldl (cleanStep false) [] (List.replicate k ['.', '.'] ++ rest)
      = (rest.filter (fun el => decide (el ≠ [] ∧ el ≠ ['.']))).reverse
          ++ List.replicate k ['.', '.'] := by
    rw [List.foldl_append]
    have h0 := foldl_cleanStep_dots k 0
    rw [List.replicate_zero, Nat.add_zero] at h0
    rw [h0, foldl_cleanStep false rest hdots]
  unfold cleanChars
  simp only [hpath, if_false, splitSlash_intercalate _ (by rw [hraw]; simp) hall, hhead, hroot,
    decide_False, hfold, List.reverse_append, List.reverse_reverse, List.reverse_replicate,
    Bool.false_eq_true]

/-- The elements the loop of `filepath.Clean` has written are plain elements
on top of `..` elements, and a rooted path keeps no `..` element. -/
theorem foldl_cleanStep_form (rooted : Bool) (raw : List (List Char))
    (hslash : ∀ el ∈ raw, ∀ c ∈ el, c ≠ '/') :
    ∀ (k : Nat) (stack : List (List Char)),
      (∀ el ∈ stack, core.isPlain el = true) → (rooted = true → k = 0) →
      ∃ (k2 : Nat) (stack2 : List (List Char)),
        raw.foldl (cleanStep rooted) (stack ++ List.replicate k ['.', '.'])
          = stack2 ++ List.replicate k2 ['.', '.']
        ∧ (∀ el ∈ stack2, core.isPlain el = true) ∧ (rooted = true → k2 = 0) := by
  induction raw with
  | nil =>
    intro k stack hst hk
    exact ⟨k, stack, rfl, hst, hk⟩
  | cons x r ih =>
    intro k stack hst hk
    have ihr := ih (fun el hel => hslash el (List.mem_cons_of_mem _ hel))
    have hx := hslash x (List.mem_cons_self _ _)
    rw [List.foldl_cons]
    by_cases h1 : x = [] ∨ x = ['.']
    · have hstep : cleanStep rooted (stack ++ List.replicate k ['.', '.']) x
          = stack ++ List.replicate k ['.', '.'] := by
        simp [cleanStep, h1]
      rw [hstep]
      exact ihr k stack hst hk
    · by_cases h2 : x = ['.', '.']
      · subst h2
        cases stack with
        | nil =>
          cases k with
          | zero =>
            cases rooted with
            | true =>
              have hstep : cleanStep true ([] ++ List.replicate 0 ['.', '.']) ['.', '.'] = [] := by
                simp [cleanStep]
              rw [hstep]
              exact ihr 0 [] (by simp) (fun _ => rfl)
            | false =>
              have hstep : cleanStep false ([] ++ List.replicate 0 ['.', '.']) ['.', '.']
                  = [] ++ List.replicate 1 ['.', '.'] := by
                simp [cleanStep]
              rw [hstep]
              exact ihr 1 [] (by simp) (fun h => by cases h)
          | succ j =>
            have hr : rooted = false := by
              cases rooted with
              | true => exact absurd (hk rfl) (by simp)
              | false => rfl
            have hstep : cleanStep rooted ([] ++ List.replicate (j + 1) ['.', '.']) ['.', '.']
                = [] ++ List.replicate (j + 2) ['.', '.'] := by
              simp [cleanStep, List.replicate_succ]
            rw [hstep]
            exact ihr (j + 2) [] (by simp) (fun h => by rw [hr] at h; cases h)
        | cons top rest =>
          have htop : top ≠ ['.', '.'] := by
            have := hst top (List.mem_cons_self _ _)
            simp only [core.isPlain, decide_eq_true_eq] at this
            exact this.2.2.2
          have hstep : cleanStep rooted (top :: rest ++ List.replicate k ['.', '.']) ['.', '.']
              = rest ++ List.replicate k ['.', '.'] := by
            simp [cleanStep, htop]
          rw [hstep]
          exact ihr k rest (fun el hel => hst el (List.mem_cons_of_mem _ hel)) hk
      · have hplain : core.isPlain x = true := by
          simp only [core.isPlain, decide_eq_true_eq]
          exact ⟨fun h => h1 (Or.inl h), hx, fun h => h1 (Or.inr h), h2⟩
        have hstep : cleanStep rooted (stack ++ List.replicate k ['.', '.']) x
            = (x :: stack) ++ List.replicate k ['.', '.'] := by
          simp [cleanStep, h1, h2]
        rw [hstep]
        refine ihr k (x :: stack) ?_ hk
        intro el hel
        rcases List.mem_cons.mp hel with h | h
        · rw [h]; exact hplain
        · exact hst el h

/-- The shape of every result of `filepath.Clean`: a separator and plain
elements; or `.`; or `..` elements and plain elements, at least one in all. -/
theorem cleanChars_form (path : List Char) :
    (∃ plains : List (List Char), (∀ el ∈ plains, core.isPlain el = true)
        ∧ cleanChars path = '/' :: List.intercalate ['/'] plains)
    ∨ cleanChars path = ['.']
    ∨ (∃ (k : Nat) (plains : List (List Char)), (∀ el ∈ plains, core.isPlain el = true)
        ∧ (0 < k ∨ plains ≠ [])
        ∧ cleanChars path = List.intercalate ['/'] (List.replicate k ['.', '.'] ++ plains)) := by
  by_cases hp : path = []
  · right; left
    simp [cleanChars, hp]
  · obtain ⟨k2, stack2, hfold, hst, hk⟩ :=
      foldl_cleanStep_form (decide (path.head? = some '/')) (splitSlash path)
        (splitSlash_no_slash path) 0 [] (by simp) (fun _ => rfl)
    simp only [List.replicate_zero, List.append_nil] at hfold
    have hrev : ∀ el ∈ stack2.reverse, core.isPlain el = true :=
      fun el hel => hst el (List.mem_reverse.mp hel)
    unfold cleanChars
    simp only [hp, if_false, hfold, List.reverse_append, List.reverse_replicate]
    by_cases hr : path.head? = some '/'
    · left
      have hk0 : k2 = 0 := hk (by simp [hr])
      refine ⟨stack2.reverse, hrev, ?_⟩
      simp [hr, hk0]
    · right
      simp only [hr, decide_False, Bool.false_eq_true, if_false]
      by_cases hb : List.intercalate ['/'] (List.replicate k2 ['.', '.'] ++ stack2.reverse) = []
      · left
        simp [hb]
      · right
        refine ⟨k2, stack2.reverse, hrev, ?_, by simp [hb]⟩
        by_contra hcon
        push_neg at hcon
        have hk0 : k2 = 0 := by omega
        apply hb
        rw [hk0, hcon.2]
        rfl

/-- Go `filepath.Base` of a path that is not made of separators only holds no
separator and is not empty. -/
theorem baseChars_no_slash (path : List Char) (h : baseChars path ≠ ['/']) :
    baseChars path ≠ [] ∧ ∀ c ∈ baseChars path, c ≠ '/' := by
  unfold baseChars at h ⊢
  by_cases hp : path = []
  · simp [hp]
  · simp only [hp, if_false] at h ⊢
    by_cases hl : (List.takeWhile (fun c => c != '/')
        (List.dropWhile (fun c => c == '/') path.reverse)).reverse = []
    · simp [hl] at h
    · simp only [hl, if_false]
      refine ⟨hl, ?_⟩
      intro c hc
      have := List.mem_takeWhile_imp (List.mem_reverse.mp hc)
      simpa using this

/-- The scan of Go `filepath.Ext` over a text without separator: nothing when
the text has no dot, or else the text from its last dot on. -/
theorem extScan_cases (rev : List Char) (hrev : ∀ c ∈ rev, c ≠ '/') :
    ∀ seen : List Char, (∀ c ∈ seen, c ≠ '.') →
      (extScan rev seen = [] ∧ ∀ c ∈ rev, c ≠ '.')
      ∨ ((extScan rev seen).head? = some '.' ∧ ∀ c ∈ (extScan rev seen).tail, c ≠ '.') := by
  induction rev with
  | nil =>
    intro seen _
    left
    simp [extScan]
  | cons c rev ih =>
    intro seen hseen
    have hc : c ≠ '/' := hrev c (List.mem_cons_self _ _)
    rw [extScan]
    simp only [hc, if_false]
    by_cases hd : c = '.'
    · right
      simp only [hd, if_true]
      exact ⟨rfl, hseen⟩
    · simp only [hd, if_false]
      have hseen2 : ∀ x ∈ c :: seen, x ≠ '.' := by
        intro x hx
        rcases List.mem_cons.mp hx with h | h
        · rw [h]; exact hd
        · exact hseen x h
      rcases ih (fun x hx => hrev x (List.mem_cons_of_mem _ hx)) (c :: seen) hseen2 with
        ⟨h1, h2⟩ | h
      · left
        refine ⟨h1, ?_⟩
        intro x hx
        rcases List.mem_cons.mp hx with h | h
        · rw [h]; exact hd
        · exact h2 x h
      · right
        exact h

end filepath

namespace core

/-- Go `filepath.Ext` of a base name and the rest of the base name before it
are an extension and a name in the sense of `isExtension`; so are that
extension and the name followed by `_synced`. -/
theorem isExtension_extChars (base : List Char) (hbase : ∀ c ∈ base, c ≠ '/') :
    isExtension (strings.TrimSuffix base (filepath.extChars base)) (filepath.extChars base) = true
    ∧ isExtension (strings.TrimSuffix base (filepath.extChars base) ++ "_synced".data)
        (filepath.extChars base) = true := by
  have hsplit := strings.TrimSuffix_of_suffix base _ (filepath.extChars_suffix base)
  have hcases := filepath.extScan_cases base.reverse
    (fun c hc => hbase c (List.mem_reverse.mp hc)) [] (by simp)
  simp only [isExtension, decide_eq_true_eq]
  rcases hcases with ⟨h1, h2⟩ | h
  · have he : filepath.extChars base = [] := h1
    rw [he] at hsplit ⊢
    rw [List.append_nil] at hsplit
    rw [hsplit]
    have hnd : ∀ c ∈ base, c ≠ '.' := fun c hc => h2 c (List.mem_reverse.mpr hc)
    refine ⟨Or.inl ⟨rfl, hnd⟩, Or.inl ⟨rfl, ?_⟩⟩
    intro c hc
    rcases List.mem_append.mp hc with h | h
    · exact hnd c h
    · intro hcd
      subst hcd
      revert h
      decide
  · exact ⟨Or.inr h, Or.inr h⟩

/-- Joining a cleaned directory and a plain file name gives a path whose
directory is that directory and whose base name is that file name. -/
theorem joinChars_cleanChars (x file : List Char) (hfile : isPlain file = true) :
    filepath.dirChars (filepath.joinChars [filepath.cleanChars x, file]) = filepath.cleanChars x
    ∧ filepath.baseChars (filepath.joinChars [filepath.cleanChars x, file]) = file := by
  have hf : file ≠ [] ∧ (∀ c ∈ file, c ≠ '/') ∧ file ≠ ['.'] ∧ file ≠ ['.', '.'] := by
    simpa [isPlain] using hfile
  rcases filepath.cleanChars_form x with ⟨plains, hpl, hd⟩ | hd | ⟨k, plains, hpl, hne, hd⟩
  · have hj := joinChars_dirText true plains file (Or.inl rfl) hpl hfile
    simp only [if_true] at hj
    rw [hd, hj]
    constructor
    · rw [filepath.dirChars_file _ _ hf.2.1, cleanChars_dirText true plains (Or.inl rfl) hpl]
      simp
    · have h := filepath.baseChars_file (dirText true plains ++ ['/']) file hf.1 hf.2.1
        (Or.inr ⟨_, rfl⟩)
      rw [List.append_assoc, List.singleton_append] at h
      exact h
  · rw [hd, joinChars_dot file hfile]
    constructor
    · exact filepath.dirChars_bare file hf.2.1
    · have h := filepath.baseChars_file [] file hf.1 hf.2.1 (Or.inl rfl)
      rw [List.nil_append] at h
      exact h
  · have hp : ∀ el ∈ plains, el ≠ [] ∧ (∀ c ∈ el, c ≠ '/') ∧ el ≠ ['.'] ∧ el ≠ ['.', '.'] := by
      intro el hel
      simpa [isPlain] using hpl el hel
    have hL : List.replicate k ['.', '.'] ++ plains ≠ [] := by
      rcases hne with h | h
      · obtain ⟨j, hj⟩ : ∃ j, k = j + 1 := ⟨k - 1, by omega⟩
        rw [hj, List.replicate_succ]
        simp
      · simp [h]
    have hfirst : ∀ last : List Char,
        0 < k ∨ ∃ y r, plains ++ [last] = y :: r ∧ y ≠ [] := by
      intro last
      rcases hne with h | h
      · exact Or.inl h
      · right
        cases plains with
        | nil => exact absurd rfl h
        | cons y r => exact ⟨y, r ++ [last], rfl, (hp y (List.mem_cons_self _ _)).1⟩
    have hslash : ∀ last : List Char, (∀ c ∈ last, c ≠ '/') →
        ∀ el ∈ plains ++ [last], ∀ c ∈ el, c ≠ '/' := by
      intro last hlast el hel
      rcases List.mem_append.mp hel with h | h
      · exact (hp el h).2.1
      · simp only [List.mem_singleton] at h
        rw [h]; exact hlast
    have hdots : ∀ last : List Char, last ≠ ['.', '.'] →
        ∀ el ∈ plains ++ [last], el ≠ ['.', '.'] := by
      intro last hlast el hel
      rcases List.mem_append.mp hel with h | h
      · exact (hp el h).2.2.2
      · simp only [List.mem_singleton] at h
        rw [h]; exact hlast
    have hkeep : plains.filter (fun el => decide (el ≠ [] ∧ el ≠ ['.'])) = plains := by
      rw [List.filter_eq_self]
      intro el hel
      simp [(hp el hel).1, (hp el hel).2.2.1]
    have hdne : List.intercalate ['/'] (List.replicate k ['.', '.'] ++ plains) ≠ [] := by
      rw [← hd]
      exact filepath.cleanChars_ne_nil x
    have hjoin : filepath.joinChars [filepath.cleanChars x, file]
        = List.intercalate ['/'] (List.replicate k ['.', '.'] ++ plains) ++ '/' :: file := by
      rw [hd]
      simp only [filepath.joinChars, hdne, if_false, filepath.intercalate_cons_cons,
        filepath.intercalate_single]
      rw [← filepath.intercalate_append_single _ file hL, List.append_assoc,
        filepath.cleanChars_rel k (plains ++ [file]) (hslash file hf.2.1) (hdots file hf.2.2.2)
          (hfirst file)]
      have hk2 : (plains ++ [file]).filter (fun el => decide (el ≠ [] ∧ el ≠ ['.']))
          = plains ++ [file] := by
        rw [List.filter_append, hkeep]
        simp [List.filter_cons, hf.1, hf.2.2.1]
      rw [hk2, ← List.append_assoc, filepath.intercalate_append_single _ file hL]
      simp
    rw [hjoin]
    constructor
    · rw [filepath.dirChars_file _ _ hf.2.1, ← filepath.intercalate_append_single _ [] hL,
        List.append_assoc,
        filepath.cleanChars_rel k (plains ++ [[]]) (hslash [] (by simp)) (hdots [] (by simp))
          (hfirst [])]
      have hk2 : (plains ++ [[]]).filter (fun el => decide (el ≠ [] ∧ el ≠ ['.'])) = plains := by
        rw [List.filter_append, hkeep]
        simp [List.filter_cons]
      rw [hk2, hd]
      simp [hdne]
    · have h := filepath.baseChars_file
        (List.intercalate ['/'] (List.replicate k ['.', '.'] ++ plains) ++ ['/']) file hf.1 hf.2.1
        (Or.inr ⟨_, rfl⟩)
      rw [List.append_assoc, List.singleton_append] at h
      exact h

/-- The derived path of every path that has a base name: its directory is
the directory of the path, its base name is `<name>_synced<ext>`, and its
extension is the extension of the path. -/
theorem getOutputFilePath_parts (inputPath : String)
    (hbase : filepath.baseChars inputPath.data ≠ ['/']) :
    filepath.Dir (getOutputFilePath inputPath) = filepath.Dir inputPath
    ∧ filepath.Base (getOutputFilePath inputPath)
        = String.mk (strings.TrimSuffix (filepath.baseChars inputPath.data)
              (filepath.extChars (filepath.baseChars inputPath.data))
            ++ ("_synced".data ++ filepath.extChars (filepath.baseChars inputPath.data)))
    ∧ filepath.Ext (filepath.Base (getOutputFilePath inputPath))
        = filepath.Ext (filepath.Base inputPath) := by
  obtain ⟨_, hslash⟩ := filepath.baseChars_no_slash inputPath.data hbase
  have hsplit := strings.TrimSuffix_of_suffix (filepath.baseChars inputPath.data) _
    (filepath.extChars_suffix (filepath.baseChars inputPath.data))
  have hslash2 : ∀ c ∈ strings.TrimSuffix (filepath.baseChars inputPath.data)
      (filepath.extChars (filepath.baseChars inputPath.data))
        ++ filepath.extChars (filepath.baseChars inputPath.data), c ≠ '/' := by
    rw [hsplit]
    exact hslash
  have hplain := isPlain_synced _ _ hslash2
  have hext := (isExtension_extChars (filepath.baseChars inputPath.data) hslash).2
  have hj := joinChars_cleanChars
    (List.dropWhile (fun c => c != '/') inputPath.data.reverse).reverse _ hplain
  have hdata := getOutputFilePath_data inputPath
  have hdir : filepath.dirChars inputPath.data
      = filepath.cleanChars (List.dropWhile (fun c => c != '/') inputPath.data.reverse).reverse :=
    rfl
  rw [← hdir] at hj
  refine ⟨?_, ?_, ?_⟩
  · simp only [filepath.Dir, hdata, hj.1]
  · simp only [filepath.Base, hdata, hj.2]
  · simp only [filepath.Ext, filepath.Base, hdata, hj.2]
    have hs3 : ∀ c ∈ (strings.TrimSuffix (filepath.baseChars inputPath.data)
        (filepath.extChars (filepath.baseChars inputPath.data)) ++ "_synced".data)
          ++ filepath.extChars (filepath.baseChars inputPath.data), c ≠ '/' := by
      have hp : _ := hplain
      simp only [isPlain, decide_eq_true_eq] at hp
      intro c hc
      exact hp.2.1 c (by simpa [List.append_assoc] using hc)
    have h := filepath.extChars_file _ _ hs3 hext
    rw [List.append_assoc] at h
    rw [h]

end core

/-! ## Speed-sync: `processEntry` -/

namespace core

open manifest

/-- The value of `clamp` lies between its bounds when they are ordered. -/
theorem clamp_mem_range (value lo hi : ℚ) (h : lo ≤ hi) :
    lo ≤ clamp value lo hi ∧ clamp value lo hi ≤ hi := by
  unfold clamp
  split_ifs with h1 h2
  · exact ⟨le_refl _, h⟩
  · exact ⟨h, le_refl _⟩
  · exact ⟨not_lt.mp h1, not_lt.mp h2⟩

/-- What `processEntry` does once the manifest duration is positive and the
measured duration is non-zero: result, state and calls are those of the one
`ApplySpeed` call at the clamped ratio. -/
theorem processEntry_measured {σ : Type} (p : Processor σ) (entry : ManifestEntry) (s s1 : σ)
    (actualDuration : ℚ)
    (hpos : entry.EndTime - entry.StartTime > 0)
    (hget : p.audioProc.GetDuration entry.FilePath s = (.ok actualDuration, s1))
    (hne : actualDuration ≠ 0) :
    (processEntry p entry s).2.2 =
      [.GetDuration entry.FilePath (.ok actualDuration),
       .ApplySpeed entry.FilePath (getOutputFilePath entry.FilePath)
          (clamp (actualDuration / (entry.EndTime - entry.StartTime)) minSpeed maxSpeed)
          (p.audioProc.ApplySpeed entry.FilePath (getOutputFilePath entry.FilePath)
            (clamp (actualDuration / (entry.EndTime - entry.StartTime)) minSpeed maxSpeed)
            s1).1] := by
  unfold processEntry
  simp only [not_le.mpr hpos, if_false, hget, hne]
  rcases hA : p.audioProc.ApplySpeed entry.FilePath (getOutputFilePath entry.FilePath)
      (clamp (actualDuration / (entry.EndTime - entry.StartTime)) minSpeed maxSpeed) s1
    with ⟨_ | err, s2⟩ <;> simp

/-- C1: for an entry with manifestDuration = EndTime - StartTime > 0 whose
measured actualDuration is non-zero, `processEntry` calls `GetDuration` and
then `ApplySpeed` exactly once, with speed
clamp(actualDuration / manifestDuration, minSpeed, maxSpeed) over the
rationals; manifestDuration 5 with actualDuration 10 gives 1.5, and
manifestDuration 20 with actualDuration 10 gives 0.8. -/
theorem processEntry_applies_clamped_ratio {σ : Type} (p : Processor σ) (entry : ManifestEntry)
    (s s1 : σ) (actualDuration : ℚ)
    (hpos : entry.EndTime - entry.StartTime > 0)
    (hget : p.audioProc.GetDuration entry.FilePath s = (.ok actualDuration, s1))
    (hne : actualDuration ≠ 0) :
    (processEntry p entry s).2.2 =
        [.GetDuration entry.FilePath (.ok actualDuration),
         .ApplySpeed entry.FilePath (getOutputFilePath entry.FilePath)
            (clamp (actualDuration / (entry.EndTime - entry.StartTime)) minSpeed maxSpeed)
            (p.audioProc.ApplySpeed entry.FilePath (getOutputFilePath entry.FilePath)
              (clamp (actualDuration / (entry.EndTime - entry.StartTime)) minSpeed maxSpeed)
              s1).1]
      ∧ ((processEntry p entry s).2.2.filter Event.isApplySpeed).length = 1
      ∧ clamp (10 / 5) minSpeed maxSpeed = 1.5
      ∧ clamp (10 / 20) minSpeed maxSpeed = 0.8 := by
  have h := processEntry_measured p entry s s1 actualDuration hpos hget hne
  refine ⟨h, ?_, ?_, ?_⟩
  · rw [h]
    simp [Event.isApplySpeed]
  · norm_num [clamp, minSpeed, maxSpeed]
  · norm_num [clamp, minSpeed, maxSpeed]

/-- Witness of C1: the clip of the clamping test (actual duration 10) in a
slot of 5 seconds is sped up by 1.5, in one `ApplySpeed` call. -/
theorem processEntry_applies_clamped_ratio_witness :
    (processEntry { audioProc := mock.clampingEngine 10 }
        { StartTime := 0, EndTime := 5, Speaker := "SPEAKER_00", FilePath := "/fake/audio.wav" }
        []).2.2 =
      [.GetDuration "/fake/audio.wav" (.ok 10),
       .ApplySpeed "/fake/audio.wav" "/fake/audio_synced.wav" 1.5 none] := by
  have h := (processEntry_applies_clamped_ratio { audioProc := mock.clampingEngine 10 }
    { StartTime := 0, EndTime := 5, Speaker := "SPEAKER_00", FilePath := "/fake/audio.wav" }
    [] [] 10 (by norm_num) rfl (by norm_num)).1
  have hp : getOutputFilePath "/fake/audio.wav" = "/fake/audio_synced.wav" := by decide
  have hc : clamp ((10 : ℚ) / (5 - 0)) minSpeed maxSpeed = 1.5 := by
    norm_num [clamp, minSpeed, maxSpeed]
  rw [h]
  simp only [hp, hc, mock.clampingEngine]

/-- C8: for an entry with manifestDuration = EndTime - StartTime <= 0,
`processEntry` fails with the invalid-duration error and makes no engine call
at all (so no `ApplySpeed`), leaving the state as it was, whatever the engine. -/
theorem processEntry_invalid_duration {σ : Type} (p : Processor σ) (entry : ManifestEntry) (s : σ)
    (h : entry.EndTime - entry.StartTime ≤ 0) :
    processEntry p entry s =
      (.error (.invalidDuration (entry.EndTime - entry.StartTime)), s, []) := by
  unfold processEntry
  simp [h]

/-- Witness of C8: an entry spanning [5, 5] fails before the engine is asked. -/
theorem processEntry_invalid_duration_witness :
    processEntry { audioProc := mock.clampingEngine 10 }
        { StartTime := 5, EndTime := 5, Speaker := "SPEAKER_00", FilePath := "/fake/audio.wav" }
        [] =
      (.error (.invalidDuration ((5 : ℚ) - 5)), [], []) :=
  processEntry_invalid_duration { audioProc := mock.clampingEngine 10 }
    { StartTime := 5, EndTime := 5, Speaker := "SPEAKER_00", FilePath := "/fake/audio.wav" }
    [] (by norm_num)

/-! ## Speed-sync: `ProcessManifest` -/

/-- The clamping test on the code: one entry spanning [0, D] and a clip that
measures 10 seconds. `ProcessManifest` succeeds and `ApplySpeed` is called
once, with clamp(10 / D): 0.8 for D = 20, 1.5 for D = 5 and 5/6 for D = 12. -/
theorem ProcessManifest_clamping_test (D : ℚ) (hD : 0 < D) :
    ProcessManifest (mock.system (.ok (mock.clampingManifest D)))
        { audioProc := mock.clampingEngine 10 } "manifest.txt" [] =
      (none, [clamp (10 / D) minSpeed maxSpeed],
        [.Parse "manifest.txt" (.ok (mock.clampingManifest D)),
         .GetDuration "/fake/audio.wav" (.ok 10),
         .ApplySpeed "/fake/audio.wav" "/fake/audio_synced.wav"
            (clamp (10 / D) minSpeed maxSpeed) none,
         .Write "manifest_synced.txt"
            [{ StartTime := 0, EndTime := D, Speaker := "SPEAKER_00",
               FilePath := "/fake/audio_synced.wav" }] none]) := by
  have hp : getOutputFilePath "/fake/audio.wav" = "/fake/audio_synced.wav" := by decide
  have hm : getSyncedManifestPath "manifest.txt" = "manifest_synced.txt" := by decide
  have hD2 : ¬ D ≤ 0 := not_le.mpr hD
  simp [ProcessManifest, processLoop, processEntry, mock.system, mock.clampingManifest,
    mock.clampingEngine, hp, hm, hD2]

/-- C2: the three cases of the clamping test, run on the code. A clip that
measures 10 seconds in a slot of 20 is applied at minSpeed 0.8 (the test
expects maxSpeed), in a slot of 5 at maxSpeed 1.5 (the test expects
minSpeed), and in a slot of 12 at 5/6 (the test expects 1.2): the code passes
clamp(A / D), not clamp(D / A). -/
theorem ProcessManifest_clamping_test_speeds :
    (ProcessManifest (mock.system (.ok (mock.clampingManifest 20)))
        { audioProc := mock.clampingEngine 10 } "manifest.txt" []).2.1 = [minSpeed]
    ∧ (ProcessManifest (mock.system (.ok (mock.clampingManifest 5)))
        { audioProc := mock.clampingEngine 10 } "manifest.txt" []).2.1 = [maxSpeed]
    ∧ (ProcessManifest (mock.system (.ok (mock.clampingManifest 12)))
        { audioProc := mock.clampingEngine 10 } "manifest.txt" []).2.1 = [5 / 6]
    ∧ clamp (20 / 10) minSpeed maxSpeed = maxSpeed
    ∧ clamp (5 / 10) minSpeed maxSpeed = minSpeed
    ∧ clamp (12 / 10) minSpeed maxSpeed = 1.2
    ∧ minSpeed ≠ maxSpeed ∧ (5 / 6 : ℚ) ≠ 1.2 := by
  refine ⟨?_, ?_, ?_, ?_, ?_, ?_, ?_, ?_⟩
  · rw [ProcessManifest_clamping_test 20 (by norm_num)]
    norm_num [clamp, minSpeed, maxSpeed]
  · rw [ProcessManifest_clamping_test 5 (by norm_num)]
    norm_num [clamp, minSpeed, maxSpeed]
  · rw [ProcessManifest_clamping_test 12 (by norm_num)]
    norm_num [clamp, minSpeed, maxSpeed]
  · norm_num [clamp, minSpeed, maxSpeed]
  · norm_num [clamp, minSpeed, maxSpeed]
  · norm_num [clamp, minSpeed, maxSpeed]
  · norm_num [minSpeed, maxSpeed]
  · norm_num

/-- A successful `processEntry` returns the synced entry of its input. -/
theorem processEntry_ok {σ : Type} (p : Processor σ) (entry newEntry : ManifestEntry) (s s1 : σ)
    (ev : List Event) (h : processEntry p entry s = (.ok newEntry, s1, ev)) :
    newEntry = syncedEntry entry := by
  simp only [processEntry] at h
  split_ifs at h with h1
  · simp at h
  · revert h
    rcases p.audioProc.GetDuration entry.FilePath s with ⟨_ | actual, s2⟩
    · simp
    · simp only
      split_ifs with h2
      · simp
      · rcases p.audioProc.ApplySpeed entry.FilePath (getOutputFilePath entry.FilePath)
          (clamp (actual / (entry.EndTime - entry.StartTime)) minSpeed maxSpeed) s2
          with ⟨_ | err, s3⟩
        · intro h
          simp only [Prod.mk.injEq, Except.ok.injEq] at h
          rw [← h.1]
          rfl
        · simp

/-- The loop of `ProcessManifest` only appends to `syncedEntries`. -/
theorem processLoop_acc {σ : Type} (p : Processor σ) (entries : List ManifestEntry) :
    ∀ (acc : List ManifestEntry) (s : σ),
      processLoop p entries acc s =
        (acc ++ (processLoop p entries [] s).1, (processLoop p entries [] s).2.1,
          (processLoop p entries [] s).2.2) := by
  induction entries with
  | nil => intro acc s; simp [processLoop]
  | cons e rest ih =>
    intro acc s
    simp only [processLoop]
    rcases hpe : processEntry p e s with ⟨_ | ne, s1, ev⟩
    · simp only
      rw [ih acc s1]
    · simp only
      rw [ih (acc ++ [ne]) s1, ih ([] ++ [ne]) s1]
      simp

/-- The loop of `ProcessManifest` collects the synced entries of the entries
on which `processEntry` succeeds, in order. -/
theorem processLoop_collects {σ : Type} (p : Processor σ) (entries : List ManifestEntry) :
    ∀ s : σ, (processLoop p entries [] s).1 = (succeeded p entries s).map syncedEntry := by
  induction entries with
  | nil => intro s; simp [processLoop, succeeded]
  | cons e rest ih =>
    intro s
    simp only [processLoop, succeeded]
    rcases hpe : processEntry p e s with ⟨_ | ne, s1, ev⟩
    · simp only
      exact ih s1
    · simp only
      rw [processLoop_acc p rest ([] ++ [ne]) s1, ih s1, processEntry_ok p e ne s s1 ev hpe]
      simp

/-- The entries on which `processEntry` succeeds are a subsequence of the input. -/
theorem succeeded_sublist {σ : Type} (p : Processor σ) (entries : List ManifestEntry) :
    ∀ s : σ, (succeeded p entries s).Sublist entries := by
  induction entries with
  | nil => intro s; simp [succeeded]
  | cons e rest ih =>
    intro s
    simp only [succeeded]
    rcases hpe : processEntry p e s with ⟨_ | ne, s1, ev⟩
    · simp only
      exact (ih s1).cons e
    · simp only
      exact (ih s1).cons₂ e

/-- The loop of `ProcessManifest` makes no call of `manifest.Write`. -/
theorem processLoop_no_write {σ : Type} (p : Processor σ) (entries : List ManifestEntry) :
    ∀ (acc : List ManifestEntry) (s : σ),
      ∀ ev ∈ (processLoop p entries acc s).2.2, Event.isWrite ev = false := by
  have hstep : ∀ (e : ManifestEntry) (s : σ), ∀ ev ∈ (processEntry p e s).2.2,
      Event.isWrite ev = false := by
    intro e s ev
    simp only [processEntry]
    split_ifs with h1
    · simp
    · rcases p.audioProc.GetDuration e.FilePath s with ⟨_ | actual, s2⟩
      · simp only [List.mem_singleton]
        rintro rfl
        rfl
      · simp only
        split_ifs with h2
        · simp only [List.mem_singleton]
          rintro rfl
          rfl
        · rcases p.audioProc.ApplySpeed e.FilePath (getOutputFilePath e.FilePath)
            (clamp (actual / (e.EndTime - e.StartTime)) minSpeed maxSpeed) s2
            with ⟨_ | err, s3⟩ <;>
          · simp only [List.mem_cons, List.mem_singleton, List.not_mem_nil, or_false]
            rintro (rfl | rfl) <;> rfl
  induction entries with
  | nil => intro acc s ev; simp [processLoop]
  | cons e rest ih =>
    intro acc s ev
    simp only [processLoop]
    have hs := hstep e s
    rcases hpe : processEntry p e s with ⟨_ | ne, s1, evs⟩ <;>
    · rw [hpe] at hs
      simp only [List.mem_append]
      rintro (h | h)
      · exact hs ev h
      · exact ih _ s1 ev h

/-- What `ProcessManifest` returns once the manifest is parsed, in terms of
its loop. -/
theorem ProcessManifest_parsed {σ : Type} (sys : System σ) (p : Processor σ)
    (manifestPath : String) (s s1 : σ) (entries : List ManifestEntry)
    (hparse : sys.Parse manifestPath s = (.ok entries, s1)) :
    ProcessManifest sys p manifestPath s =
      if (processLoop p entries [] s1).1 = [] then
        (none, (processLoop p entries [] s1).2.1,
          .Parse manifestPath (.ok entries) :: (processLoop p entries [] s1).2.2)
      else
        ((sys.Write (getSyncedManifestPath manifestPath) (processLoop p entries [] s1).1
            (processLoop p entries [] s1).2.1).1.map Error.writeSyncedManifest,
         (sys.Write (getSyncedManifestPath manifestPath) (processLoop p entries [] s1).1
            (processLoop p entries [] s1).2.1).2,
         .Parse manifestPath (.ok entries) :: (processLoop p entries [] s1).2.2 ++
           [.Write (getSyncedManifestPath manifestPath) (processLoop p entries [] s1).1
             (sys.Write (getSyncedManifestPath manifestPath) (processLoop p entries [] s1).1
               (processLoop p entries [] s1).2.1).1]) := by
  simp only [ProcessManifest, hparse]
  rcases hl : processLoop p entries [] s1 with ⟨synced, s2, ev⟩
  simp only
  by_cases hs : synced = []
  · simp [hs]
  · have hlen : synced.length > 0 := List.length_pos.mpr hs
    simp only [hlen, if_true, hs, if_false]
    rcases sys.Write (getSyncedManifestPath manifestPath) synced s2 with ⟨_ | err, s3⟩ <;> simp

/-- C6: once the manifest is parsed, the list `ProcessManifest` collects is
the synced entries of exactly the input entries on which `processEntry`
succeeds, a subsequence of the input in its original order; a synced entry has
the StartTime, EndTime and Speaker of its input entry and the derived path of
its FilePath (`/fake/audio.wav` gives `/fake/audio_synced.wav`); and any
manifest written holds exactly that list, at the derived manifest path.
The derived path is `<dir>/<name>_synced<ext>`: for every FilePath it is
`filepath.Clean` of that text, with `filepath.Dir` of the path as `<dir>`,
`filepath.Ext` of its base name as `<ext>` and the rest of the base name as
`<name>`; for a clean FilePath with a directory part (plain elements, rooted or
not, then a file name) it is, character for character, the text before the last
separator, the separator, the file name without its extension, `_synced` and
the extension; for a bare file name it is `<name>_synced<ext>`, in the same
(current) directory; and for every FilePath that has a base name (is not made
of separators only) the derived path has the directory of the FilePath
(`filepath.Dir`), the base name `<name>_synced<ext>` and the extension of the
FilePath. -/
theorem ProcessManifest_collects_successes {σ : Type} (sys : System σ) (p : Processor σ)
    (manifestPath : String) (s s1 : σ) (entries : List ManifestEntry)
    (hparse : sys.Parse manifestPath s = (.ok entries, s1)) :
    (processLoop p entries [] s1).1 = (succeeded p entries s1).map syncedEntry
    ∧ (succeeded p entries s1).Sublist entries
    ∧ ((processLoop p entries [] s1).1.length = (succeeded p entries s1).length)
    ∧ (∀ e : ManifestEntry, (syncedEntry e).StartTime = e.StartTime
        ∧ (syncedEntry e).EndTime = e.EndTime ∧ (syncedEntry e).Speaker = e.Speaker
        ∧ (syncedEntry e).FilePath = getOutputFilePath e.FilePath)
    ∧ getOutputFilePath "/fake/audio.wav" = "/fake/audio_synced.wav"
    ∧ (∀ path written err,
        Event.Write path written err ∈ (ProcessManifest sys p manifestPath s).2.2 →
          path = getSyncedManifestPath manifestPath
            ∧ written = (succeeded p entries s1).map syncedEntry)
    ∧ (succeeded p entries s1 ≠ [] →
        ∃ err, Event.Write (getSyncedManifestPath manifestPath)
          ((succeeded p entries s1).map syncedEntry) err
            ∈ (ProcessManifest sys p manifestPath s).2.2)
    ∧ (∀ e : ManifestEntry,
        strings.TrimSuffix (filepath.baseChars e.FilePath.data)
              (filepath.extChars (filepath.baseChars e.FilePath.data))
            ++ filepath.extChars (filepath.baseChars e.FilePath.data)
          = filepath.baseChars e.FilePath.data
        ∧ (syncedEntry e).FilePath =
            String.mk (filepath.cleanChars (specDerivedPath (filepath.dirChars e.FilePath.data)
              (strings.TrimSuffix (filepath.baseChars e.FilePath.data)
                (filepath.extChars (filepath.baseChars e.FilePath.data)))
              (filepath.extChars (filepath.baseChars e.FilePath.data))).data))
    ∧ (∀ (e : ManifestEntry) (rooted : Bool) (els : List (List Char)) (name ext : List Char),
        (rooted = true ∨ els ≠ []) → (∀ el ∈ els, isPlain el = true) →
        name ++ ext ≠ [] → (∀ c ∈ name ++ ext, c ≠ '/') → isExtension name ext = true →
        e.FilePath = String.mk (dirText rooted els ++ '/' :: (name ++ ext)) →
          (syncedEntry e).FilePath = specDerivedPath (dirText rooted els) name ext)
    ∧ (∀ (e : ManifestEntry) (name ext : List Char),
        name ++ ext ≠ [] → (∀ c ∈ name ++ ext, c ≠ '/') → isExtension name ext = true →
        e.FilePath = String.mk (name ++ ext) →
          (syncedEntry e).FilePath = String.mk (name ++ ("_synced".data ++ ext)))
    ∧ (∀ e : ManifestEntry, filepath.baseChars e.FilePath.data ≠ ['/'] →
        filepath.Dir (syncedEntry e).FilePath = filepath.Dir e.FilePath
        ∧ filepath.Base (syncedEntry e).FilePath
            = String.mk (strings.TrimSuffix (filepath.baseChars e.FilePath.data)
                  (filepath.extChars (filepath.baseChars e.FilePath.data))
                ++ ("_synced".data ++ filepath.extChars (filepath.baseChars e.FilePath.data)))
        ∧ filepath.Ext (filepath.Base (syncedEntry e).FilePath)
            = filepath.Ext (filepath.Base e.FilePath)) := by
  have hc := processLoop_collects p entries s1
  refine ⟨hc, succeeded_sublist p entries s1, by rw [hc, List.length_map],
    fun e => ⟨rfl, rfl, rfl, rfl⟩, by decide, ?_, ?_,
    fun e => getOutputFilePath_clean e.FilePath, ?_, ?_,
    fun e hbase => getOutputFilePath_parts e.FilePath hbase⟩
  rotate_left 2
  · intro e rooted els name ext hdir hels hfile hslash hext hpath
    simp only [syncedEntry, hpath]
    exact getOutputFilePath_derived rooted els name ext hdir hels hfile hslash hext
  · intro e name ext hfile hslash hext hpath
    simp only [syncedEntry, hpath]
    exact getOutputFilePath_bare name ext hfile hslash hext
  · intro path written err hmem
    rw [ProcessManifest_parsed sys p manifestPath s s1 entries hparse] at hmem
    have hnw := processLoop_no_write p entries [] s1
    split_ifs at hmem with hs
    · simp only [List.mem_cons] at hmem
      rcases hmem with h | h
      · cases h
      · have := hnw _ h
        simp [Event.isWrite] at this
    · simp only [List.cons_append, List.mem_cons, List.mem_append, List.mem_singleton,
        List.not_mem_nil, or_false] at hmem
      rcases hmem with h | h | h
      · cases h
      · have := hnw _ h
        simp [Event.isWrite] at this
      · simp only [Event.Write.injEq] at h
        exact ⟨h.1, by rw [h.2.1, hc]⟩
  · intro hne
    rw [ProcessManifest_parsed sys p manifestPath s s1 entries hparse]
    have hs : (processLoop p entries [] s1).1 ≠ [] := by
      rw [hc]
      simpa using hne
    simp only [hs, if_false]
    rw [← hc]
    exact ⟨(sys.Write (getSyncedManifestPath manifestPath) (processLoop p entries [] s1).1
      (processLoop p entries [] s1).2.1).1, by simp⟩

/-- Witness of C6: of an entry with an empty interval and the entry of the
clamping test, only the second is collected, with its derived path; the path of
a clip `/fake/audio.wav` is the directory `/fake`, a separator, the name
`audio`, `_synced` and the extension `.wav`, and that of a bare `audio.wav` is
`audio_synced.wav`. -/
theorem ProcessManifest_collects_successes_witness :
    (processLoop { audioProc := mock.clampingEngine 10 } mock.mixedManifest [] []).1 =
      [{ StartTime := 0, EndTime := 5, Speaker := "SPEAKER_00",
         FilePath := "/fake/audio_synced.wav" }]
    ∧ (syncedEntry mock.clipEntry).FilePath
        = specDerivedPath "/fake".data "audio".data ".wav".data
    ∧ specDerivedPath "/fake".data "audio".data ".wav".data = "/fake/audio_synced.wav"
    ∧ (syncedEntry mock.bareEntry).FilePath = "audio_synced.wav" := by
  have hall := ProcessManifest_collects_successes
    (mock.system (.ok mock.mixedManifest))
    { audioProc := mock.clampingEngine 10 } "manifest.txt" [] [] _ rfl
  have h := hall.1
  have hp : getOutputFilePath "/fake/audio.wav" = "/fake/audio_synced.wav" := by decide
  refine ⟨?_, ?_, by decide, ?_⟩
  · rw [h]
    norm_num [succeeded, processEntry, mock.mixedManifest, mock.clampingEngine, syncedEntry, hp]
  · exact hall.2.2.2.2.2.2.2.2.1 mock.clipEntry true ["fake".data] "audio".data ".wav".data
      (Or.inl rfl) (by decide) (by decide) (by decide) (by decide) (by decide)
  · exact hall.2.2.2.2.2.2.2.2.2.1 mock.bareEntry "audio".data ".wav".data
      (by decide) (by decide) (by decide) (by decide)

/-- No entry is collected when `GetDuration` fails for every clip. -/
theorem succeeded_nil_of_GetDuration_fails {σ : Type} (p : Processor σ)
    (hfail : ∀ (f : String) (s : σ), ∃ err, (p.audioProc.GetDuration f s).1 = .error err)
    (entries : List ManifestEntry) : ∀ s : σ, succeeded p entries s = [] := by
  induction entries with
  | nil => intro s; simp [succeeded]
  | cons e rest ih =>
    intro s
    have hpe : ∃ err s1 ev, processEntry p e s = (.error err, s1, ev) := by
      simp only [processEntry]
      split_ifs with h1
      · exact ⟨_, _, _, rfl⟩
      · obtain ⟨err, herr⟩ := hfail e.FilePath s
        rcases hg : p.audioProc.GetDuration e.FilePath s with ⟨r, s2⟩
        rw [hg] at herr
        simp only at herr
        subst herr
        exact ⟨_, _, _, rfl⟩
    obtain ⟨err, s1, ev, hpe⟩ := hpe
    simp only [succeeded, hpe]
    exact ih s1

/-- C7: `ProcessManifest` returns an error exactly when the manifest fails to
parse or at least one entry was collected and writing the synced manifest
fails; a parse failure is returned as `ErrInvalidManifest`; when no entry
succeeds the result is `nil` and `manifest.Write` is never called; and no
entry succeeds when `GetDuration` fails for every clip. -/
theorem ProcessManifest_error_iff {σ : Type} (sys : System σ) (p : Processor σ)
    (manifestPath : String) (s : σ) :
    ((ProcessManifest sys p manifestPath s).1 ≠ none ↔
      ((∃ err, (sys.Parse manifestPath s).1 = .error err) ∨
       (∃ entries, (sys.Parse manifestPath s).1 = .ok entries
          ∧ succeeded p entries (sys.Parse manifestPath s).2 ≠ []
          ∧ (sys.Write (getSyncedManifestPath manifestPath)
              ((succeeded p entries (sys.Parse manifestPath s).2).map syncedEntry)
              (processLoop p entries [] (sys.Parse manifestPath s).2).2.1).1 ≠ none)))
    ∧ (∀ err, (sys.Parse manifestPath s).1 = .error err →
        (ProcessManifest sys p manifestPath s).1 = some (.ErrInvalidManifest err))
    ∧ (∀ entries, (sys.Parse manifestPath s).1 = .ok entries →
        succeeded p entries (sys.Parse manifestPath s).2 = [] →
          (ProcessManifest sys p manifestPath s).1 = none
            ∧ ∀ ev ∈ (ProcessManifest sys p manifestPath s).2.2, Event.isWrite ev = false)
    ∧ ((∀ (f : String) (t : σ), ∃ err, (p.audioProc.GetDuration f t).1 = .error err) →
        ∀ entries, (sys.Parse manifestPath s).1 = .ok entries →
          (ProcessManifest sys p manifestPath s).1 = none
            ∧ ∀ ev ∈ (ProcessManifest sys p manifestPath s).2.2, Event.isWrite ev = false) := by
  have hnil : ∀ entries s1, sys.Parse manifestPath s = (.ok entries, s1) →
      succeeded p entries s1 = [] →
        (ProcessManifest sys p manifestPath s).1 = none
          ∧ ∀ ev ∈ (ProcessManifest sys p manifestPath s).2.2, Event.isWrite ev = false := by
    intro entries s1 hparse hnone
    rw [ProcessManifest_parsed sys p manifestPath s s1 entries hparse]
    have hc := processLoop_collects p entries s1
    rw [hnone] at hc
    simp only [hc, List.map_nil, if_true, true_and]
    intro ev hev
    simp only [List.mem_cons] at hev
    rcases hev with h | h
    · rw [h]; rfl
    · exact processLoop_no_write p entries [] s1 ev h
  rcases hparse : sys.Parse manifestPath s with ⟨err | entries, s1⟩
  · refine ⟨?_, ?_, ?_, ?_⟩
    · simp [ProcessManifest, hparse]
    · intro e he
      simp only [Except.error.injEq] at he
      simp [ProcessManifest, hparse, he]
    · intro entries he
      simp at he
    · intro _ entries he
      simp at he
  · refine ⟨?_, ?_, ?_, ?_⟩
    · rw [ProcessManifest_parsed sys p manifestPath s s1 entries hparse]
      have hc := processLoop_collects p entries s1
      simp only [reduceCtorEq, exists_false, false_or, Except.ok.injEq, exists_eq_left']
      by_cases hs : succeeded p entries s1 = []
      · simp [hc, hs]
      · have hs2 : (processLoop p entries [] s1).1 ≠ [] := by
          rw [hc]
          simpa using hs
        simp only [hs2, if_false, ne_eq, hs, not_false_eq_true, true_and]
        rw [← hc]
        simp
    · intro e he
      simp at he
    · intro es he hnone
      simp only [Except.ok.injEq] at he
      subst he
      exact hnil _ s1 hparse hnone
    · intro hfail es he
      simp only [Except.ok.injEq] at he
      subst he
      exact hnil _ s1 hparse (succeeded_nil_of_GetDuration_fails p hfail _ s1)

end core

/-! ## Timeline assembly: one step of `BuildFromManifest` -/

namespace core

open manifest

/-- The four ways a step of `BuildFromManifest` can go: silence generation
fails, concatenation fails, measuring the intermediate track fails, or the
step succeeds with the measured duration as the new cursor. -/
theorem buildStep_cases {σ : Type} (p : Processor σ) (tempDir : String) (i : Nat)
    (entry : ManifestEntry) (currentTime : ℚ) (currentBuildFile : String) (s : σ) :
    (∃ err s1, entry.StartTime - currentTime > epsilon ∧
      buildStep p tempDir i entry currentTime currentBuildFile s =
        (.error (.generateSilence i err), s1,
          [.GenerateSilence (entry.StartTime - currentTime) (silenceFileName tempDir i)
            (some err)]))
    ∨ (∃ err s2, buildStep p tempDir i entry currentTime currentBuildFile s =
        (.error (.concatenateFiles i err), s2,
          stepSilence tempDir i entry currentTime ++
            [.Concatenate (stepInputs tempDir i entry currentTime currentBuildFile)
              (buildFileName tempDir i) (some err)]))
    ∨ (∃ err s3, buildStep p tempDir i entry currentTime currentBuildFile s =
        (.error (.intermediateDuration err), s3,
          stepSilence tempDir i entry currentTime ++
            [.Concatenate (stepInputs tempDir i entry currentTime currentBuildFile)
              (buildFileName tempDir i) none,
             .GetDuration (buildFileName tempDir i) (.error err)]))
    ∨ (∃ newDuration s3, buildStep p tempDir i entry currentTime currentBuildFile s =
        (.ok (newDuration, buildFileName tempDir i), s3,
          stepSilence tempDir i entry currentTime ++
            [.Concatenate (stepInputs tempDir i entry currentTime currentBuildFile)
              (buildFileName tempDir i) none,
             .GetDuration (buildFileName tempDir i) (.ok newDuration)])) := by
  simp only [buildStep, stepSilence, stepInputs]
  by_cases hgap : entry.StartTime - currentTime > epsilon
  · simp only [hgap, if_true]
    rcases p.audioProc.GenerateSilence (entry.StartTime - currentTime)
      (silenceFileName tempDir i) s with ⟨_ | err, s1⟩
    · simp only
      right
      rcases p.audioProc.Concatenate _ (buildFileName tempDir i) s1 with ⟨_ | err, s2⟩
      · simp only
        right
        rcases p.audioProc.GetDuration (buildFileName tempDir i) s2 with ⟨err | d, s3⟩
        · left
          exact ⟨err, s3, by simp⟩
        · right
          exact ⟨d, s3, by simp⟩
      · left
        exact ⟨err, s2, by simp⟩
    · left
      exact ⟨err, s1, trivial, rfl⟩
  · simp only [hgap, if_false]
    right
    rcases p.audioProc.Concatenate _ (buildFileName tempDir i) s with ⟨_ | err, s2⟩
    · simp only
      right
      rcases p.audioProc.GetDuration (buildFileName tempDir i) s2 with ⟨err | d, s3⟩
      · left
        exact ⟨err, s3, by simp⟩
      · right
        exact ⟨d, s3, by simp⟩
    · left
      exact ⟨err, s2, by simp⟩

/-- When the gap of a step exceeds epsilon, the step calls `GenerateSilence`
exactly once, for the gap and the silence file of the step. -/
theorem buildStep_silence_of_gap {σ : Type} (p : Processor σ) (tempDir : String) (i : Nat)
    (entry : ManifestEntry) (currentTime : ℚ) (currentBuildFile : String) (s : σ)
    (hgap : entry.StartTime - currentTime > epsilon) :
    ∃ err, (buildStep p tempDir i entry currentTime currentBuildFile s).2.2.filter
        Event.isGenerateSilence =
      [.GenerateSilence (entry.StartTime - currentTime) (silenceFileName tempDir i) err] := by
  rcases buildStep_cases p tempDir i entry currentTime currentBuildFile s with
    ⟨err, s1, _, h⟩ | ⟨err, s2, h⟩ | ⟨err, s3, h⟩ | ⟨d, s3, h⟩
  · exact ⟨some err, by rw [h]; simp [Event.isGenerateSilence]⟩
  all_goals
    exact ⟨none, by rw [h]; simp [stepSilence, hgap, Event.isConcatenate, Event.isGenerateSilence]⟩

/-- When the gap of a step is at most epsilon, the step does not call
`GenerateSilence`. -/
theorem buildStep_no_silence {σ : Type} (p : Processor σ) (tempDir : String) (i : Nat)
    (entry : ManifestEntry) (currentTime : ℚ) (currentBuildFile : String) (s : σ)
    (hgap : entry.StartTime - currentTime ≤ epsilon) :
    ∀ ev ∈ (buildStep p tempDir i entry currentTime currentBuildFile s).2.2,
      Event.isGenerateSilence ev = false := by
  have hn : ¬ entry.StartTime - currentTime > epsilon := not_lt.mpr hgap
  rcases buildStep_cases p tempDir i entry currentTime currentBuildFile s with
    ⟨err, s1, h1, h⟩ | ⟨err, s2, h⟩ | ⟨err, s3, h⟩ | ⟨d, s3, h⟩
  · exact absurd h1 hn
  all_goals
    rw [h]
    simp [stepSilence, hn, Event.isGenerateSilence]

/-- C4: in every step of `BuildFromManifest`, with gap = entry.StartTime -
currentTime, a list passed to `Concatenate` is exactly the previous track (iff
i > 0), then the silence file (iff gap > epsilon), then the entry's FilePath;
`Concatenate` is called at most once, and exactly once with that list unless
`GenerateSilence` failed; when gap > epsilon `GenerateSilence` is called
exactly once, with duration gap and the silence file of the step; when
gap <= epsilon it is not called. -/
theorem buildStep_concatenate_inputs {σ : Type} (p : Processor σ) (tempDir : String) (i : Nat)
    (entry : ManifestEntry) (currentTime : ℚ) (currentBuildFile : String) (s : σ) :
    (∀ files out err,
        Event.Concatenate files out err
            ∈ (buildStep p tempDir i entry currentTime currentBuildFile s).2.2 →
          files = (if i > 0 then [currentBuildFile] else [])
            ++ (if entry.StartTime - currentTime > epsilon
                then [silenceFileName tempDir i] else [])
            ++ [entry.FilePath])
    ∧ ((buildStep p tempDir i entry currentTime currentBuildFile s).2.2.filter
        Event.isConcatenate).length ≤ 1
    ∧ ((∀ d f err, Event.GenerateSilence d f (some err)
            ∉ (buildStep p tempDir i entry currentTime currentBuildFile s).2.2) →
        ∃ err, (buildStep p tempDir i entry currentTime currentBuildFile s).2.2.filter
            Event.isConcatenate =
          [.Concatenate ((if i > 0 then [currentBuildFile] else [])
              ++ (if entry.StartTime - currentTime > epsilon
                  then [silenceFileName tempDir i] else [])
              ++ [entry.FilePath]) (buildFileName tempDir i) err])
    ∧ (entry.StartTime - currentTime > epsilon →
        ∃ err, (buildStep p tempDir i entry currentTime currentBuildFile s).2.2.filter
            Event.isGenerateSilence =
          [.GenerateSilence (entry.StartTime - currentTime) (silenceFileName tempDir i) err])
    ∧ (entry.StartTime - currentTime ≤ epsilon →
        ∀ ev ∈ (buildStep p tempDir i entry currentTime currentBuildFile s).2.2,
          Event.isGenerateSilence ev = false) := by
  rcases buildStep_cases p tempDir i entry currentTime currentBuildFile s with
    ⟨err, s1, hgap, h⟩ | ⟨err, s2, h⟩ | ⟨err, s3, h⟩ | ⟨d, s3, h⟩
  · rw [h]
    refine ⟨?_, ?_, ?_, ?_, ?_⟩
    · intro files out e hmem
      simp at hmem
    · simp [Event.isConcatenate]
    · intro hno
      exact absurd (List.mem_singleton.mpr rfl) (hno _ _ err)
    · intro _
      exact ⟨some err, by simp [Event.isGenerateSilence]⟩
    · intro hle
      exact absurd hgap (not_lt.mpr hle)
  all_goals
    rw [h]
    by_cases hgap : entry.StartTime - currentTime > epsilon
    · have hle : ¬ entry.StartTime - currentTime ≤ epsilon := not_le.mpr hgap
      simp [stepSilence, stepInputs, hgap, hle, Event.isConcatenate, Event.isGenerateSilence]
      intros
      assumption
    · have hle : entry.StartTime - currentTime ≤ epsilon := not_lt.mp hgap
      simp [stepSilence, stepInputs, hgap, hle, Event.isConcatenate, Event.isGenerateSilence]
      intros
      assumption

/-- What `BuildFromManifest` does once the manifest is parsed, is not empty
and the scratch directory exists: the loop starts at entry 0 with the cursor
at 0, the rename follows only a loop without error, and the directory is
removed last. -/
theorem BuildFromManifest_started {σ : Type} (sys : System σ) (p : Processor σ)
    (manifestPath outputPath : String) (s s1 s2 : σ) (entries : List ManifestEntry)
    (tempDir : String)
    (hparse : sys.Parse manifestPath s = (.ok entries, s1))
    (hne : entries ≠ [])
    (hmk : sys.MkdirTemp "" "sync-audio-build-" s1 = (.ok tempDir, s2)) :
    (∀ e, (buildLoop p tempDir 0 entries 0 "" s2).1 = .error e →
      BuildFromManifest sys p manifestPath outputPath s =
        (some e, (sys.RemoveAll tempDir (buildLoop p tempDir 0 entries 0 "" s2).2.1).2,
          [.Parse manifestPath (.ok entries), .MkdirTemp "" "sync-audio-build-" (.ok tempDir)]
            ++ (buildLoop p tempDir 0 entries 0 "" s2).2.2
            ++ [.RemoveAll tempDir
                (sys.RemoveAll tempDir (buildLoop p tempDir 0 entries 0 "" s2).2.1).1]))
    ∧ (∀ t f, (buildLoop p tempDir 0 entries 0 "" s2).1 = .ok (t, f) →
      BuildFromManifest sys p manifestPath outputPath s =
        ((sys.Rename f outputPath (buildLoop p tempDir 0 entries 0 "" s2).2.1).1.map
            Error.moveFinalBuildFile,
         (sys.RemoveAll tempDir
            (sys.Rename f outputPath (buildLoop p tempDir 0 entries 0 "" s2).2.1).2).2,
         [.Parse manifestPath (.ok entries), .MkdirTemp "" "sync-audio-build-" (.ok tempDir)]
            ++ ((buildLoop p tempDir 0 entries 0 "" s2).2.2
              ++ [.Rename f outputPath
                  (sys.Rename f outputPath (buildLoop p tempDir 0 entries 0 "" s2).2.1).1])
            ++ [.RemoveAll tempDir (sys.RemoveAll tempDir
                (sys.Rename f outputPath (buildLoop p tempDir 0 entries 0 "" s2).2.1).2).1])) := by
  have hlen : ¬ entries.length = 0 := fun h => hne (List.length_eq_zero.mp h)
  constructor
  · intro e he
    simp only [BuildFromManifest, hparse, hlen, if_false, hmk]
    rcases hl : buildLoop p tempDir 0 entries 0 "" s2 with ⟨r, s3, ev⟩
    rw [hl] at he
    simp only at he
    subst he
    rfl
  · intro t f hok
    simp only [BuildFromManifest, hparse, hlen, if_false, hmk]
    rcases hl : buildLoop p tempDir 0 entries 0 "" s2 with ⟨r, s3, ev⟩
    rw [hl] at hok
    simp only at hok
    subst hok
    simp only
    rcases sys.Rename f outputPath s3 with ⟨_ | err, s4⟩ <;> rfl

/-- C5: when a step of `BuildFromManifest` succeeds, the new cursor is the
value `GetDuration` returned, as the last call of the step, for the step's
intermediate track `build_step_i.wav`; the next step starts from exactly that
cursor and track, so it generates silence of duration next.StartTime minus
the measured value iff that difference exceeds epsilon; and the first step of
a run starts with the cursor at 0. -/
theorem buildStep_cursor_is_measured {σ : Type} (p : Processor σ) (tempDir : String) (i : Nat)
    (entry : ManifestEntry) (currentTime : ℚ) (currentBuildFile : String) (s s1 : σ)
    (newTime : ℚ) (newBuildFile : String) (ev : List Event)
    (h : buildStep p tempDir i entry currentTime currentBuildFile s =
      (.ok (newTime, newBuildFile), s1, ev)) :
    newBuildFile = buildFileName tempDir i
    ∧ (∃ pre, ev = pre ++ [Event.GetDuration (buildFileName tempDir i) (.ok newTime)])
    ∧ (∀ next rest,
        buildLoop p tempDir i (entry :: next :: rest) currentTime currentBuildFile s =
          ((buildLoop p tempDir (i + 1) (next :: rest) newTime newBuildFile s1).1,
           (buildLoop p tempDir (i + 1) (next :: rest) newTime newBuildFile s1).2.1,
           ev ++ (buildLoop p tempDir (i + 1) (next :: rest) newTime newBuildFile s1).2.2))
    ∧ (∀ next : ManifestEntry, next.StartTime - newTime > epsilon →
        ∃ err, (buildStep p tempDir (i + 1) next newTime newBuildFile s1).2.2.filter
            Event.isGenerateSilence =
          [.GenerateSilence (next.StartTime - newTime) (silenceFileName tempDir (i + 1)) err])
    ∧ (∀ next : ManifestEntry, next.StartTime - newTime ≤ epsilon →
        ∀ e ∈ (buildStep p tempDir (i + 1) next newTime newBuildFile s1).2.2,
          Event.isGenerateSilence e = false)
    ∧ (∀ (sys : System σ) (manifestPath outputPath : String) (t0 t1 t2 : σ)
        (entries : List ManifestEntry) (dir : String),
        sys.Parse manifestPath t0 = (.ok entries, t1) → entries ≠ [] →
        sys.MkdirTemp "" "sync-audio-build-" t1 = (.ok dir, t2) →
          ∃ tail, (BuildFromManifest sys p manifestPath outputPath t0).2.2 =
            [.Parse manifestPath (.ok entries), .MkdirTemp "" "sync-audio-build-" (.ok dir)]
              ++ (buildLoop p dir 0 entries 0 "" t2).2.2 ++ tail) := by
  have hshape : newBuildFile = buildFileName tempDir i
      ∧ ∃ pre, ev = pre ++ [Event.GetDuration (buildFileName tempDir i) (.ok newTime)] := by
    rcases buildStep_cases p tempDir i entry currentTime currentBuildFile s with
      ⟨err, s1, _, h2⟩ | ⟨err, s2, h2⟩ | ⟨err, s3, h2⟩ | ⟨d, s3, h2⟩
    · rw [h2] at h; simp at h
    · rw [h2] at h; simp at h
    · rw [h2] at h; simp at h
    · rw [h2] at h
      simp only [Prod.mk.injEq, Except.ok.injEq] at h
      obtain ⟨⟨hd, hf⟩, _, hev⟩ := h
      subst hd
      refine ⟨hf.symm, stepSilence tempDir i entry currentTime ++
        [.Concatenate (stepInputs tempDir i entry currentTime currentBuildFile)
          (buildFileName tempDir i) none], ?_⟩
      rw [← hev]
      simp
  refine ⟨hshape.1, hshape.2, ?_, ?_, ?_, ?_⟩
  · intro next rest
    rw [buildLoop, h]
  · intro next hgap
    exact buildStep_silence_of_gap p tempDir (i + 1) next newTime newBuildFile s1 hgap
  · intro next hgap
    exact buildStep_no_silence p tempDir (i + 1) next newTime newBuildFile s1 hgap
  · intro sys manifestPath outputPath t0 t1 t2 entries dir hparse hne hmk
    have hb := BuildFromManifest_started sys p manifestPath outputPath t0 t1 t2 entries dir
      hparse hne hmk
    rcases hl : (buildLoop p dir 0 entries 0 "" t2).1 with e | ⟨t, f⟩
    · rw [hb.1 e hl]
      exact ⟨_, rfl⟩
    · rw [hb.2 t f hl]
      simp only [List.append_assoc]
      exact ⟨_, rfl⟩

/-- Witness of C5: the engine measures 7 seconds for the intermediate track
of a clip in the slot [0, 5]; the next entry, starting at 10, gets silence of
10 - 7 = 3 seconds. -/
theorem buildStep_cursor_is_measured_witness :
    ∃ err, (buildStep { audioProc := mock.clampingEngine 7 } "/tmp/b" 1
        { StartTime := 10, EndTime := 12, Speaker := "SPEAKER_01", FilePath := "/fake/b.wav" }
        7 (buildFileName "/tmp/b" 0) []).2.2.filter Event.isGenerateSilence =
      [.GenerateSilence (10 - 7) (silenceFileName "/tmp/b" 1) err] :=
  (buildStep_cursor_is_measured { audioProc := mock.clampingEngine 7 } "/tmp/b" 0
    { StartTime := 0, EndTime := 5, Speaker := "SPEAKER_00", FilePath := "/fake/a.wav" }
    0 "" [] [] 7 (buildFileName "/tmp/b" 0)
    [.Concatenate ["/fake/a.wav"] (buildFileName "/tmp/b" 0) none,
     .GetDuration (buildFileName "/tmp/b" 0) (.ok 7)]
    (by norm_num [buildStep, epsilon, mock.clampingEngine])).2.2.2.1
    { StartTime := 10, EndTime := 12, Speaker := "SPEAKER_01", FilePath := "/fake/b.wav" }
    (by norm_num [epsilon])

/-! ## Timeline assembly: failures -/

/-- A list with one marked element after which nothing is marked splits at a
marked element in one way only. -/
theorem split_at_marked {α : Type} (P : α → Bool) (B : List α) (x ev : α) (post : List α)
    (hB : ∀ b ∈ B, P b = false) (hev : P ev = true) :
    ∀ (A pre : List α), (∀ a ∈ A, P a = false) → A ++ x :: B = pre ++ ev :: post →
      post = B := by
  intro A
  induction A with
  | nil =>
    intro pre _ h
    cases pre with
    | nil =>
      simp only [List.nil_append, List.cons.injEq] at h
      exact h.2.symm
    | cons y pre2 =>
      simp only [List.nil_append, List.cons_append, List.cons.injEq] at h
      have hmem : ev ∈ B := by rw [h.2]; simp
      rw [hB ev hmem] at hev
      cases hev
  | cons a A2 ih =>
    intro pre hA h
    cases pre with
    | nil =>
      simp only [List.cons_append, List.nil_append, List.cons.injEq] at h
      have := hA a (List.mem_cons_self a A2)
      rw [h.1, hev] at this
      cases this
    | cons y pre2 =>
      simp only [List.cons_append, List.cons.injEq] at h
      exact ih pre2 (fun b hb => hA b (List.mem_cons_of_mem a hb)) h.2

/-- The calls of a step are engine calls; none fails when the step succeeds;
when it fails, its error is one of the three engine failures and the failing
call is its last call, the only one that failed. -/
theorem buildStep_calls {σ : Type} (p : Processor σ) (tempDir : String) (i : Nat)
    (entry : ManifestEntry) (currentTime : ℚ) (currentBuildFile : String) (s : σ) :
    (∀ ev ∈ (buildStep p tempDir i entry currentTime currentBuildFile s).2.2,
        Event.isEngineCall ev = true)
    ∧ (∀ r, (buildStep p tempDir i entry currentTime currentBuildFile s).1 = .ok r →
        ∀ ev ∈ (buildStep p tempDir i entry currentTime currentBuildFile s).2.2,
          Event.isFailedEngineCall ev = false)
    ∧ (∀ e, (buildStep p tempDir i entry currentTime currentBuildFile s).1 = .error e →
        (∀ md, e ≠ .invalidDuration md)
        ∧ ∃ pre last, (buildStep p tempDir i entry currentTime currentBuildFile s).2.2
              = pre ++ [last]
            ∧ Event.isFailedEngineCall last = true
            ∧ ∀ x ∈ pre, Event.isFailedEngineCall x = false) := by
  have hsil : ∀ x ∈ stepSilence tempDir i entry currentTime,
      Event.isEngineCall x = true ∧ Event.isFailedEngineCall x = false := by
    intro x hx
    unfold stepSilence at hx
    split_ifs at hx
    · simp only [List.mem_singleton] at hx
      subst hx
      exact ⟨rfl, rfl⟩
    · simp at hx
  rcases buildStep_cases p tempDir i entry currentTime currentBuildFile s with
    ⟨err, s1, _, h⟩ | ⟨err, s2, h⟩ | ⟨err, s3, h⟩ | ⟨d, s3, h⟩
  · rw [h]
    refine ⟨?_, ?_, ?_⟩
    · intro ev hev
      simp only [List.mem_singleton] at hev
      subst hev
      rfl
    · intro r hr
      simp at hr
    · intro e he
      simp only [Except.error.injEq] at he
      subst he
      exact ⟨fun md => by simp, [], _, rfl, rfl, by simp⟩
  · rw [h]
    refine ⟨?_, ?_, ?_⟩
    · intro ev hev
      simp only [List.mem_append, List.mem_singleton] at hev
      rcases hev with hev | hev
      · exact (hsil ev hev).1
      · subst hev
        rfl
    · intro r hr
      simp at hr
    · intro e he
      simp only [Except.error.injEq] at he
      subst he
      exact ⟨fun md => by simp, _, _, rfl, rfl, fun x hx => (hsil x hx).2⟩
  · rw [h]
    refine ⟨?_, ?_, ?_⟩
    · intro ev hev
      simp only [List.mem_append, List.mem_cons, List.mem_singleton, List.not_mem_nil,
        or_false] at hev
      rcases hev with hev | hev | hev
      · exact (hsil ev hev).1
      · subst hev
        rfl
      · subst hev
        rfl
    · intro r hr
      simp at hr
    · intro e he
      simp only [Except.error.injEq] at he
      subst he
      refine ⟨fun md => by simp, stepSilence tempDir i entry currentTime ++
        [.Concatenate (stepInputs tempDir i entry currentTime currentBuildFile)
          (buildFileName tempDir i) none],
        .GetDuration (buildFileName tempDir i) (.error err), by simp, rfl, ?_⟩
      intro x hx
      simp only [List.mem_append, List.mem_singleton] at hx
      rcases hx with hx | hx
      · exact (hsil x hx).2
      · subst hx
        rfl
  · rw [h]
    refine ⟨?_, ?_, ?_⟩
    · intro ev hev
      simp only [List.mem_append, List.mem_cons, List.mem_singleton, List.not_mem_nil,
        or_false] at hev
      rcases hev with hev | hev | hev
      · exact (hsil ev hev).1
      · subst hev
        rfl
      · subst hev
        rfl
    · intro r _ ev hev
      simp only [List.mem_append, List.mem_cons, List.mem_singleton, List.not_mem_nil,
        or_false] at hev
      rcases hev with hev | hev | hev
      · exact (hsil ev hev).2
      · subst hev
        rfl
      · subst hev
        rfl
    · intro e he
      simp at he

/-- The loop of `BuildFromManifest` inherits the properties of its steps: only
engine calls; no failed call when it ends without error; otherwise an engine
failure as error, the failing call last and alone in having failed. -/
theorem buildLoop_calls {σ : Type} (p : Processor σ) (tempDir : String)
    (entries : List ManifestEntry) :
    ∀ (i : Nat) (currentTime : ℚ) (currentBuildFile : String) (s : σ),
      (∀ ev ∈ (buildLoop p tempDir i entries currentTime currentBuildFile s).2.2,
          Event.isEngineCall ev = true)
      ∧ (∀ r, (buildLoop p tempDir i entries currentTime currentBuildFile s).1 = .ok r →
          ∀ ev ∈ (buildLoop p tempDir i entries currentTime currentBuildFile s).2.2,
            Event.isFailedEngineCall ev = false)
      ∧ (∀ e, (buildLoop p tempDir i entries currentTime currentBuildFile s).1 = .error e →
          (∀ md, e ≠ .invalidDuration md)
          ∧ ∃ pre last, (buildLoop p tempDir i entries currentTime currentBuildFile s).2.2
                = pre ++ [last]
              ∧ Event.isFailedEngineCall last = true
              ∧ ∀ x ∈ pre, Event.isFailedEngineCall x = false) := by
  induction entries with
  | nil =>
    intro i currentTime currentBuildFile s
    simp [buildLoop]
  | cons entry rest ih =>
    intro i currentTime currentBuildFile s
    have hstep := buildStep_calls p tempDir i entry currentTime currentBuildFile s
    rw [buildLoop]
    rcases hs : buildStep p tempDir i entry currentTime currentBuildFile s with
      ⟨e | ⟨t, f⟩, s1, ev⟩
    · rw [hs] at hstep
      exact hstep
    · rw [hs] at hstep
      simp only at hstep ⊢
      obtain ⟨h1, h2, _⟩ := hstep
      obtain ⟨r1, r2, r3⟩ := ih (i + 1) t f s1
      refine ⟨?_, ?_, ?_⟩
      · intro x hx
        rcases List.mem_append.mp hx with hx | hx
        · exact h1 x hx
        · exact r1 x hx
      · intro r hr x hx
        rcases List.mem_append.mp hx with hx | hx
        · exact h2 _ rfl x hx
        · exact r2 r hr x hx
      · intro e he
        obtain ⟨hk, pre, last, hev, hl, hpre⟩ := r3 e he
        refine ⟨hk, ev ++ pre, last, by rw [hev, List.append_assoc], hl, ?_⟩
        intro x hx
        rcases List.mem_append.mp hx with hx | hx
        · exact h2 _ rfl x hx
        · exact hpre x hx

/-- C10: `BuildFromManifest` fails closed. An unreadable manifest gives
`ErrInvalidManifest` and an empty one the dedicated empty-manifest error, in
both cases with the reading of the manifest as the only call (no engine call,
no rename); and whenever an engine call of the run returned an error, the
method returns an error, no engine call follows the failing one, and
`os.Rename` is never called. -/
theorem BuildFromManifest_fails_closed {σ : Type} (sys : System σ) (p : Processor σ)
    (manifestPath outputPath : String) (s : σ) :
    (∀ err, (sys.Parse manifestPath s).1 = .error err →
        (BuildFromManifest sys p manifestPath outputPath s).1 = some (.ErrInvalidManifest err)
        ∧ (BuildFromManifest sys p manifestPath outputPath s).2.2
            = [.Parse manifestPath (.error err)])
    ∧ ((sys.Parse manifestPath s).1 = .ok [] →
        (BuildFromManifest sys p manifestPath outputPath s).1 = some .emptyManifest
        ∧ (BuildFromManifest sys p manifestPath outputPath s).2.2
            = [.Parse manifestPath (.ok [])])
    ∧ (∀ pre ev post,
        (BuildFromManifest sys p manifestPath outputPath s).2.2 = pre ++ ev :: post →
        Event.isFailedEngineCall ev = true →
          (BuildFromManifest sys p manifestPath outputPath s).1 ≠ none
          ∧ (∀ x ∈ post, Event.isEngineCall x = false)
          ∧ (∀ x ∈ (BuildFromManifest sys p manifestPath outputPath s).2.2,
              Event.isRename x = false)) := by
  rcases hparse : sys.Parse manifestPath s with ⟨err | entries, s1⟩
  · refine ⟨?_, ?_, ?_⟩
    · intro e he
      simp only [Except.error.injEq] at he
      subst he
      simp [BuildFromManifest, hparse]
    · intro he
      simp at he
    · intro pre ev post hsplit hfail
      simp only [BuildFromManifest, hparse] at hsplit
      have hmem : ev ∈ [Event.Parse manifestPath (.error err)] := by rw [hsplit]; simp
      simp only [List.mem_singleton] at hmem
      subst hmem
      cases hfail
  · by_cases hnil : entries = []
    · subst hnil
      refine ⟨?_, ?_, ?_⟩
      · intro e he
        simp at he
      · intro _
        simp [BuildFromManifest, hparse]
      · intro pre ev post hsplit hfail
        simp only [BuildFromManifest, hparse, List.length_nil, if_true] at hsplit
        have hmem : ev ∈ [Event.Parse manifestPath (.ok [])] := by rw [hsplit]; simp
        simp only [List.mem_singleton] at hmem
        subst hmem
        cases hfail
    · refine ⟨?_, ?_, ?_⟩
      · intro e he
        simp at he
      · intro he
        simp only [Except.ok.injEq] at he
        exact absurd he hnil
      · have hlen : ¬ entries.length = 0 := fun h => hnil (List.length_eq_zero.mp h)
        rcases hmk : sys.MkdirTemp "" "sync-audio-build-" s1 with ⟨err | tempDir, s2⟩
        · intro pre ev post hsplit hfail
          simp only [BuildFromManifest, hparse, hlen, if_false, hmk] at hsplit
          have hmem : ev ∈ [Event.Parse manifestPath (.ok entries),
              Event.MkdirTemp "" "sync-audio-build-" (.error err)] := by rw [hsplit]; simp
          simp only [List.mem_cons, List.mem_singleton, List.not_mem_nil, or_false] at hmem
          rcases hmem with hmem | hmem <;>
          · subst hmem
            cases hfail
        · have hb := BuildFromManifest_started sys p manifestPath outputPath s s1 s2 entries
            tempDir hparse hnil hmk
          obtain ⟨l1, l2, l3⟩ := buildLoop_calls p tempDir entries 0 0 "" s2
          rcases hl : (buildLoop p tempDir 0 entries 0 "" s2).1 with e | ⟨t, f⟩
          · rw [hb.1 e hl]
            obtain ⟨_, lpre, last, hev, hlast, hlpre⟩ := l3 e hl
            intro pre ev post hsplit hfail
            simp only at hsplit ⊢
            refine ⟨by simp, ?_, ?_⟩
            · have hpost : post = [Event.RemoveAll tempDir (sys.RemoveAll tempDir
                  (buildLoop p tempDir 0 entries 0 "" s2).2.1).1] := by
                refine split_at_marked Event.isFailedEngineCall _ last ev post ?_ hfail
                  ([Event.Parse manifestPath (.ok entries),
                    Event.MkdirTemp "" "sync-audio-build-" (.ok tempDir)] ++ lpre) pre ?_ ?_
                · intro b hb2
                  simp only [List.mem_singleton] at hb2
                  subst hb2
                  rfl
                · intro a ha
                  simp only [List.cons_append, List.nil_append, List.mem_cons] at ha
                  rcases ha with ha | ha | ha
                  · subst ha; rfl
                  · subst ha; rfl
                  · exact hlpre a ha
                · rw [← hsplit, hev]
                  simp
              intro x hx
              rw [hpost] at hx
              simp only [List.mem_singleton] at hx
              subst hx
              rfl
            · intro x hx
              simp only [List.cons_append, List.nil_append, List.mem_cons, List.mem_append,
                List.mem_singleton, List.not_mem_nil, or_false] at hx
              rcases hx with hx | hx | hx | hx
              · subst hx; rfl
              · subst hx; rfl
              · have := l1 x hx
                cases x <;> simp_all [Event.isEngineCall, Event.isRename]
              · subst hx; rfl
          · rw [hb.2 t f hl]
            intro pre ev post hsplit hfail
            simp only at hsplit
            have hmem : ev ∈ pre ++ ev :: post := by simp
            rw [← hsplit] at hmem
            simp only [List.cons_append, List.nil_append, List.mem_cons, List.mem_append,
              List.mem_singleton, List.not_mem_nil, or_false] at hmem
            rcases hmem with hmem | hmem | (hmem | hmem) | hmem
            · subst hmem; cases hfail
            · subst hmem; cases hfail
            · rw [l2 (t, f) hl ev hmem] at hfail
              cases hfail
            · subst hmem; cases hfail
            · subst hmem; cases hfail

/-- A step of `BuildFromManifest` reads only the StartTime and the FilePath of
its entry. -/
theorem buildStep_reads_start_and_path {σ : Type} (p : Processor σ) (tempDir : String)
    (i : Nat) (entry other : ManifestEntry) (currentTime : ℚ) (currentBuildFile : String)
    (s : σ) (hstart : entry.StartTime = other.StartTime) (hpath : entry.FilePath = other.FilePath) :
    buildStep p tempDir i entry currentTime currentBuildFile s =
      buildStep p tempDir i other currentTime currentBuildFile s := by
  simp only [buildStep, hstart, hpath]

/-- Counterexample to C9: a manifest whose first entry spans [5, 5] is
assembled without error and its track is renamed to the output path. -/
theorem BuildFromManifest_accepts_empty_interval :
    (∃ e ∈ mock.mixedManifest, e.EndTime ≤ e.StartTime)
    ∧ (BuildFromManifest (mock.system (.ok mock.mixedManifest))
        { audioProc := mock.clampingEngine 10 } "manifest.txt" "out.wav" []).1 = none
    ∧ Event.Rename (buildFileName "/tmp/sync-audio-build-1" 1) "out.wav" none
        ∈ (BuildFromManifest (mock.system (.ok mock.mixedManifest))
            { audioProc := mock.clampingEngine 10 } "manifest.txt" "out.wav" []).2.2 := by
  refine ⟨⟨_, List.mem_cons_self _ _, le_refl _⟩, ?_, ?_⟩
  · norm_num [BuildFromManifest, buildLoop, buildStep, mock.system, mock.mixedManifest,
      mock.clampingEngine, epsilon]
  · norm_num [BuildFromManifest, buildLoop, buildStep, mock.system, mock.mixedManifest,
      mock.clampingEngine, epsilon]

/-- The loop of `BuildFromManifest` reads only the StartTime and the FilePath
of the entries: two entry lists that agree on these give the same result,
state and calls. -/
theorem buildLoop_reads_start_and_path {σ : Type} (p : Processor σ) (tempDir : String)
    (entries : List ManifestEntry) :
    ∀ others : List ManifestEntry,
      entries.map (fun e => (e.StartTime, e.FilePath))
          = others.map (fun e => (e.StartTime, e.FilePath)) →
        ∀ (i : Nat) (currentTime : ℚ) (currentBuildFile : String) (s : σ),
          buildLoop p tempDir i entries currentTime currentBuildFile s
            = buildLoop p tempDir i others currentTime currentBuildFile s := by
  induction entries with
  | nil =>
    intro others h i currentTime currentBuildFile s
    cases others with
    | nil => rfl
    | cons o os => simp at h
  | cons e es ih =>
    intro others h i currentTime currentBuildFile s
    cases others with
    | nil => simp at h
    | cons o os =>
      simp only [List.map_cons, List.cons.injEq, Prod.mk.injEq] at h
      obtain ⟨⟨h1, h2⟩, h3⟩ := h
      rw [buildLoop, buildLoop, buildStep_reads_start_and_path p tempDir i e o _ _ s h1 h2]
      rcases buildStep p tempDir i o currentTime currentBuildFile s with
        ⟨err | ⟨t, f⟩, s1, ev⟩
      · rfl
      · simp only
        rw [ih os h3]

/-- A whole run of `BuildFromManifest` reads only the StartTime and the
FilePath of the entries: when the manifest reader answers two entry lists that
agree on these, the result, the final state and every call after the reading of
the manifest are the same. -/
theorem BuildFromManifest_reads_start_and_path {σ : Type} (sys other : System σ)
    (p : Processor σ) (manifestPath outputPath : String) (s s1 : σ)
    (entries others : List ManifestEntry)
    (hparse : sys.Parse manifestPath s = (.ok entries, s1))
    (hother : other.Parse manifestPath s = (.ok others, s1))
    (hmk : other.MkdirTemp = sys.MkdirTemp) (hrm : other.RemoveAll = sys.RemoveAll)
    (hren : other.Rename = sys.Rename)
    (hsame : entries.map (fun e => (e.StartTime, e.FilePath))
        = others.map (fun e => (e.StartTime, e.FilePath))) :
    (BuildFromManifest other p manifestPath outputPath s).1
        = (BuildFromManifest sys p manifestPath outputPath s).1
    ∧ (BuildFromManifest other p manifestPath outputPath s).2.1
        = (BuildFromManifest sys p manifestPath outputPath s).2.1
    ∧ (BuildFromManifest other p manifestPath outputPath s).2.2.tail
        = (BuildFromManifest sys p manifestPath outputPath s).2.2.tail := by
  have hlen : others.length = entries.length := by
    have h := congrArg List.length hsame
    simpa using h.symm
  have hloop : ∀ (tempDir : String) (s2 : σ),
      buildLoop p tempDir 0 others 0 "" s2 = buildLoop p tempDir 0 entries 0 "" s2 :=
    fun tempDir s2 =>
      (buildLoop_reads_start_and_path p tempDir entries others hsame 0 0 "" s2).symm
  simp only [BuildFromManifest, hparse, hother, hlen, hmk, hrm, hren]
  by_cases h0 : entries.length = 0
  · simp [h0]
  · simp only [h0, if_false]
    rcases sys.MkdirTemp "" "sync-audio-build-" s1 with ⟨err | tempDir, s2⟩
    · simp
    · simp only [hloop]
      simp

/-- The calls of `BuildFromManifest` whose error the method returns: it
returns an error exactly when the manifest is empty or one of its calls of
`manifest.Parse`, `os.MkdirTemp`, the engine or `os.Rename` failed; and a run
without error ends with the assembled track renamed to the output path. -/
theorem BuildFromManifest_error_cases {σ : Type} (sys : System σ) (p : Processor σ)
    (manifestPath outputPath : String) (s : σ) :
    ((BuildFromManifest sys p manifestPath outputPath s).1 ≠ none ↔
      ((sys.Parse manifestPath s).1 = .ok []
        ∨ ∃ ev ∈ (BuildFromManifest sys p manifestPath outputPath s).2.2,
            Event.isFailure ev = true))
    ∧ ((BuildFromManifest sys p manifestPath outputPath s).1 = none →
        ∃ track, Event.Rename track outputPath none
          ∈ (BuildFromManifest sys p manifestPath outputPath s).2.2) := by
  have hengine : ∀ ev : Event, Event.isEngineCall ev = true →
      Event.isFailure ev = Event.isFailedEngineCall ev := by
    intro ev hev
    cases ev with
    | GetDuration f r => cases r <;> rfl
    | ApplySpeed a b c err => cases err <;> rfl
    | GenerateSilence d f err => cases err <;> rfl
    | Concatenate fs f err => cases err <;> rfl
    | Parse a r => cases hev
    | Write a b c => cases hev
    | MkdirTemp a b r => cases hev
    | RemoveAll a e => cases hev
    | Rename a b e => cases hev
  rcases hparse : sys.Parse manifestPath s with ⟨err | entries, s1⟩
  · simp [BuildFromManifest, hparse, Event.isFailure]
  · by_cases hnil : entries = []
    · subst hnil
      simp [BuildFromManifest, hparse]
    · have hlen : ¬ entries.length = 0 := fun h => hnil (List.length_eq_zero.mp h)
      have hok : ¬ (Except.ok entries : Except String (List ManifestEntry)) = .ok [] := by
        intro h
        exact hnil (Except.ok.inj h)
      rcases hmk : sys.MkdirTemp "" "sync-audio-build-" s1 with ⟨err | tempDir, s2⟩
      · simp [BuildFromManifest, hparse, hlen, hmk, Event.isFailure]
      · have hb := BuildFromManifest_started sys p manifestPath outputPath s s1 s2 entries
          tempDir hparse hnil hmk
        have hcalls := buildLoop_calls p tempDir entries 0 0 "" s2
        rcases hl : (buildLoop p tempDir 0 entries 0 "" s2).1 with e | ⟨t, f⟩
        · obtain ⟨_, pre, last, hev, hlast, _⟩ := hcalls.2.2 e hl
          have hfail : Event.isFailure last = true := by
            rw [hengine last (hcalls.1 last (by rw [hev]; simp))]
            exact hlast
          rw [hb.1 e hl]
          refine ⟨⟨fun _ => Or.inr ⟨last, ?_, hfail⟩, fun _ => by simp⟩, fun h => by simp at h⟩
          rw [hev]
          simp
        · have hclean : ∀ ev ∈ (buildLoop p tempDir 0 entries 0 "" s2).2.2,
              Event.isFailure ev = false := by
            intro ev hmem
            rw [hengine ev (hcalls.1 ev hmem)]
            exact hcalls.2.1 (t, f) hl ev hmem
          rw [hb.2 t f hl]
          rcases hr : sys.Rename f outputPath (buildLoop p tempDir 0 entries 0 "" s2).2.1 with
            ⟨_ | err, s4⟩
          · refine ⟨⟨fun h => by simp at h, ?_⟩, fun _ => ⟨f, by simp⟩⟩
            rintro (h | ⟨ev, hmem, hfail⟩)
            · exact absurd h hok
            · simp only [List.cons_append, List.nil_append, List.mem_cons, List.mem_append,
                List.mem_singleton, List.not_mem_nil, or_false] at hmem
              rcases hmem with h | h | (h | h) | h
              · subst h; cases hfail
              · subst h; cases hfail
              · rw [hclean ev h] at hfail
                cases hfail
              · subst h; cases hfail
              · subst h; cases hfail
          · refine ⟨⟨fun _ => Or.inr ⟨.Rename f outputPath (some err), by simp, rfl⟩,
              fun _ => by simp⟩, fun h => by simp at h⟩

/-- C9 (amended): `BuildFromManifest` makes no interval check. It never fails
with the invalid-duration error; its loop and the whole run read only
StartTime and FilePath: two entry lists that agree on these, whatever their
EndTime values, give the same result, the same final state and the same calls
after the reading of the manifest, so an entry with a non-positive interval is
assembled like any other; the run returns an error exactly when the manifest
is unreadable or empty or the creation of the scratch directory, an engine call
or the final rename failed; and a run without error renames the assembled track
to the output path. -/
theorem BuildFromManifest_ignores_intervals {σ : Type} (p : Processor σ) :
    (∀ (sys : System σ) (manifestPath outputPath : String) (s : σ) (md : ℚ),
        (BuildFromManifest sys p manifestPath outputPath s).1 ≠ some (.invalidDuration md))
    ∧ (∀ (tempDir : String) (entries others : List ManifestEntry),
        entries.map (fun e => (e.StartTime, e.FilePath))
            = others.map (fun e => (e.StartTime, e.FilePath)) →
          ∀ (i : Nat) (currentTime : ℚ) (currentBuildFile : String) (s : σ),
            buildLoop p tempDir i entries currentTime currentBuildFile s
              = buildLoop p tempDir i others currentTime currentBuildFile s)
    ∧ (∀ (sys other : System σ) (manifestPath outputPath : String) (s s1 : σ)
        (entries others : List ManifestEntry),
        sys.Parse manifestPath s = (.ok entries, s1) →
        other.Parse manifestPath s = (.ok others, s1) →
        other.MkdirTemp = sys.MkdirTemp → other.RemoveAll = sys.RemoveAll →
        other.Rename = sys.Rename →
        entries.map (fun e => (e.StartTime, e.FilePath))
            = others.map (fun e => (e.StartTime, e.FilePath)) →
          (BuildFromManifest other p manifestPath outputPath s).1
              = (BuildFromManifest sys p manifestPath outputPath s).1
          ∧ (BuildFromManifest other p manifestPath outputPath s).2.1
              = (BuildFromManifest sys p manifestPath outputPath s).2.1
          ∧ (BuildFromManifest other p manifestPath outputPath s).2.2.tail
              = (BuildFromManifest sys p manifestPath outputPath s).2.2.tail)
    ∧ (∀ (sys : System σ) (manifestPath outputPath : String) (s : σ),
        ((BuildFromManifest sys p manifestPath outputPath s).1 ≠ none ↔
          ((sys.Parse manifestPath s).1 = .ok []
            ∨ ∃ ev ∈ (BuildFromManifest sys p manifestPath outputPath s).2.2,
                Event.isFailure ev = true))
        ∧ ((BuildFromManifest sys p manifestPath outputPath s).1 = none →
            ∃ track, Event.Rename track outputPath none
              ∈ (BuildFromManifest sys p manifestPath outputPath s).2.2)) := by
  refine ⟨?_, ?_, ?_, ?_⟩
  · intro sys manifestPath outputPath s md
    rcases hparse : sys.Parse manifestPath s with ⟨err | entries, s1⟩
    · simp [BuildFromManifest, hparse]
    · by_cases hnil : entries = []
      · subst hnil
        simp [BuildFromManifest, hparse]
      · have hlen : ¬ entries.length = 0 := fun h => hnil (List.length_eq_zero.mp h)
        rcases hmk : sys.MkdirTemp "" "sync-audio-build-" s1 with ⟨err | tempDir, s2⟩
        · simp [BuildFromManifest, hparse, hlen, hmk]
        · have hb := BuildFromManifest_started sys p manifestPath outputPath s s1 s2 entries
            tempDir hparse hnil hmk
          rcases hl : (buildLoop p tempDir 0 entries 0 "" s2).1 with e | ⟨t, f⟩
          · rw [hb.1 e hl]
            have := ((buildLoop_calls p tempDir entries 0 0 "" s2).2.2 e hl).1 md
            simpa using this
          · rw [hb.2 t f hl]
            rcases (sys.Rename f outputPath (buildLoop p tempDir 0 entries 0 "" s2).2.1).1
              with _ | err <;> simp
  · intro tempDir entries others h
    exact buildLoop_reads_start_and_path p tempDir entries others h
  · intro sys other manifestPath outputPath s s1 entries others hparse hother hmk hrm hren hsame
    exact BuildFromManifest_reads_start_and_path sys other p manifestPath outputPath s s1
      entries others hparse hother hmk hrm hren hsame
  · intro sys manifestPath outputPath s
    exact BuildFromManifest_error_cases sys p manifestPath outputPath s

/-- Witness of C9 (amended): a manifest whose second entry spans [9, 7] is
assembled exactly like the manifest with that entry spanning [9, 12], and the
run ends without error. -/
theorem BuildFromManifest_ignores_intervals_witness :
    (∃ e ∈ mock.reversedManifest, e.EndTime < e.StartTime)
    ∧ (BuildFromManifest (mock.system (.ok mock.reversedManifest))
          { audioProc := mock.clampingEngine 10 } "manifest.txt" "out.wav" []).1
        = (BuildFromManifest (mock.system (.ok mock.forwardManifest))
          { audioProc := mock.clampingEngine 10 } "manifest.txt" "out.wav" []).1
    ∧ (BuildFromManifest (mock.system (.ok mock.reversedManifest))
          { audioProc := mock.clampingEngine 10 } "manifest.txt" "out.wav" []).2.2.tail
        = (BuildFromManifest (mock.system (.ok mock.forwardManifest))
          { audioProc := mock.clampingEngine 10 } "manifest.txt" "out.wav" []).2.2.tail
    ∧ (BuildFromManifest (mock.system (.ok mock.reversedManifest))
          { audioProc := mock.clampingEngine 10 } "manifest.txt" "out.wav" []).1 = none := by
  have h := (BuildFromManifest_ignores_intervals { audioProc := mock.clampingEngine 10 }).2.2.1
    (mock.system (.ok mock.forwardManifest)) (mock.system (.ok mock.reversedManifest))
    "manifest.txt" "out.wav" [] [] mock.forwardManifest mock.reversedManifest rfl rfl rfl rfl rfl
    (by simp [mock.forwardManifest, mock.reversedManifest])
  refine ⟨⟨_, List.mem_cons_of_mem _ (List.mem_cons_self _ _), by norm_num⟩, h.1, h.2.2, ?_⟩
  norm_num [BuildFromManifest, buildLoop, buildStep, mock.system, mock.reversedManifest,
    mock.clampingEngine, epsilon]

end core

/-! ## Timeline assembly under the ideal engine -/

namespace core

open manifest

/-- The loop of `BuildFromManifest` over a list in two parts runs the second
part from where the first one ended. -/
theorem buildLoop_append {σ : Type} (p : Processor σ) (tempDir : String)
    (xs ys : List ManifestEntry) :
    ∀ (i : Nat) (currentTime : ℚ) (currentBuildFile : String) (s : σ),
      buildLoop p tempDir i (xs ++ ys) currentTime currentBuildFile s =
        match buildLoop p tempDir i xs currentTime currentBuildFile s with
        | (.error e, s1, ev) => (.error e, s1, ev)
        | (.ok (t, f), s1, ev) =>
          ((buildLoop p tempDir (i + xs.length) ys t f s1).1,
           (buildLoop p tempDir (i + xs.length) ys t f s1).2.1,
           ev ++ (buildLoop p tempDir (i + xs.length) ys t f s1).2.2) := by
  induction xs with
  | nil =>
    intro i currentTime currentBuildFile s
    simp [buildLoop]
  | cons x xs ih =>
    intro i currentTime currentBuildFile s
    rw [List.cons_append, buildLoop, buildLoop]
    rcases buildStep p tempDir i x currentTime currentBuildFile s with ⟨e | ⟨t, f⟩, s1, ev⟩
    · rfl
    · simp only
      rw [ih (i + 1) t f s1]
      rcases buildLoop p tempDir (i + 1) xs t f s1 with ⟨e2 | ⟨t2, f2⟩, s2, ev2⟩
      · rfl
      · simp only [List.length_cons, List.append_assoc]
        rw [show i + (xs.length + 1) = i + 1 + xs.length by omega]

end core

namespace ideal

open manifest core

/-- The duration of two tracks in a row is the sum of their durations. -/
theorem duration_append (a b : List Segment) : duration (a ++ b) = duration a + duration b := by
  simp [duration]

/-- The clips of two tracks in a row: those of the first, then those of the
second shifted by the duration of the first. -/
theorem clipStartsFrom_append (a b : List Segment) :
    ∀ off : ℚ, clipStartsFrom off (a ++ b) =
      clipStartsFrom off a ++ clipStartsFrom (off + duration a) b := by
  induction a with
  | nil => intro off; simp [clipStartsFrom, duration]
  | cons sg a ih =>
    intro off
    cases sg with
    | silence x =>
      have hd : off + duration (Segment.silence x :: a) = off + x + duration a := by
        simp [duration, Segment.duration, add_assoc]
      rw [List.cons_append, clipStartsFrom, clipStartsFrom, ih (off + x), hd]
    | clip name x =>
      have hd : off + duration (Segment.clip name x :: a) = off + x + duration a := by
        simp [duration, Segment.duration, add_assoc]
      rw [List.cons_append, clipStartsFrom, clipStartsFrom, ih (off + x), hd]
      rfl

/-- Padding holds no clip, and its duration is the gap it fills. -/
theorem padding_facts (startTime cursor off : ℚ) :
    clipStartsFrom off (padding startTime cursor) = []
    ∧ duration (padding startTime cursor) =
        if startTime - cursor > epsilon then startTime - cursor else 0 := by
  unfold padding
  split_ifs <;> simp [clipStartsFrom, duration, Segment.duration]

/-- One step of `BuildFromManifest` over the ideal engine: with the previous
track and the clip on disk, the step succeeds, writes the previous track, the
padding and the clip as the new intermediate track, and returns its duration
as the new cursor; no file but the two scratch files of the step changes. -/
theorem buildStep_ideal (d1 : Disk) (td : String) (j : Nat) (e : ManifestEntry) (t : ℚ)
    (f : String) (track : List Segment) (dur : ℚ)
    (hprev : 0 < j → d1.audio f = some track ∧ f ≠ silenceFileName td j)
    (hfirst : j = 0 → track = [])
    (hclip : d1.audio e.FilePath = some [.clip e.FilePath dur])
    (hes : e.FilePath ≠ silenceFileName td j) :
    (buildStep processor td j e t f d1).1 =
        .ok (duration (track ++ padding e.StartTime t ++ [.clip e.FilePath dur]),
          buildFileName td j)
      ∧ (buildStep processor td j e t f d1).2.1.audio (buildFileName td j)
          = some (track ++ padding e.StartTime t ++ [.clip e.FilePath dur])
      ∧ ∀ g, g ≠ silenceFileName td j → g ≠ buildFileName td j →
          (buildStep processor td j e t f d1).2.1.audio g = d1.audio g := by
  by_cases hgap : e.StartTime - t > epsilon
  · by_cases hj : 0 < j
    · obtain ⟨hp, hfs⟩ := hprev hj
      refine ⟨?_, ?_, ?_⟩
      · simp [buildStep, processor, engine, hgap, hj, padding, Disk.put, Disk.readAll, hp, hfs,
          hclip, hes]
      · simp [buildStep, processor, engine, hgap, hj, padding, Disk.put, Disk.readAll, hp, hfs,
          hclip, hes]
      · intro g hg1 hg2
        simp [buildStep, processor, engine, hgap, hj, padding, Disk.put, Disk.readAll, hp, hfs,
          hclip, hes, hg1, hg2]
    · have hj0 : j = 0 := by omega
      have ht := hfirst hj0
      subst ht
      refine ⟨?_, ?_, ?_⟩
      · simp [buildStep, processor, engine, hgap, hj, padding, Disk.put, Disk.readAll,
          hclip, hes]
      · simp [buildStep, processor, engine, hgap, hj, padding, Disk.put, Disk.readAll,
          hclip, hes]
      · intro g hg1 hg2
        simp [buildStep, processor, engine, hgap, hj, padding, Disk.put, Disk.readAll,
          hclip, hes, hg1, hg2]
  · by_cases hj : 0 < j
    · obtain ⟨hp, hfs⟩ := hprev hj
      refine ⟨?_, ?_, ?_⟩
      · simp [buildStep, processor, engine, hgap, hj, padding, Disk.put, Disk.readAll, hp,
          hclip]
      · simp [buildStep, processor, engine, hgap, hj, padding, Disk.put, Disk.readAll, hp,
          hclip]
      · intro g hg1 hg2
        simp [buildStep, processor, engine, hgap, hj, padding, Disk.put, Disk.readAll, hp,
          hclip, hg2]
    · have hj0 : j = 0 := by omega
      have ht := hfirst hj0
      subst ht
      refine ⟨?_, ?_, ?_⟩
      · simp [buildStep, processor, engine, hgap, hj, padding, Disk.put, Disk.readAll,
          hclip]
      · simp [buildStep, processor, engine, hgap, hj, padding, Disk.put, Disk.readAll,
          hclip]
      · intro g hg1 hg2
        simp [buildStep, processor, engine, hgap, hj, padding, Disk.put, Disk.readAll,
          hclip, hg2]

end ideal

namespace ideal

open manifest core

/-- The cursor at step `k` is the time the loop over the first `k` entries
returns. -/
theorem cursorAt_of_ok (entries : List ManifestEntry) (k : Nat) (d : Disk) (t : ℚ) (f : String)
    (h : (buildLoop processor d.tempDir 0 (entries.take k) 0 "" d).1 = .ok (t, f)) :
    cursorAt entries k d = t := by
  unfold cursorAt
  rcases hL : buildLoop processor d.tempDir 0 (entries.take k) 0 "" d with ⟨r, d1, ev⟩
  rw [hL] at h
  simp only at h
  subst h
  rfl

/-- The loop of one more entry: the loop over the first `j` entries, then the
step of entry `j`. -/
theorem buildLoop_take_succ (entries : List ManifestEntry) (j : Nat) (d : Disk)
    (e : ManifestEntry) (he : entries[j]? = some e) (t : ℚ) (f : String)
    (h : (buildLoop processor d.tempDir 0 (entries.take j) 0 "" d).1 = .ok (t, f)) :
    (buildLoop processor d.tempDir 0 (entries.take (j + 1)) 0 "" d).1
        = (match buildStep processor d.tempDir j e t f
              (buildLoop processor d.tempDir 0 (entries.take j) 0 "" d).2.1 with
            | (.error err, _, _) => .error err
            | (.ok r, _, _) => .ok r)
    ∧ (buildLoop processor d.tempDir 0 (entries.take (j + 1)) 0 "" d).2.1
        = (buildStep processor d.tempDir j e t f
            (buildLoop processor d.tempDir 0 (entries.take j) 0 "" d).2.1).2.1 := by
  have hj : j < entries.length := by
    rcases List.getElem?_eq_some.mp he with ⟨hlt, _⟩
    exact hlt
  have hlen : (entries.take j).length = j := by
    rw [List.length_take]
    omega
  rw [List.take_succ, he, Option.toList, buildLoop_append]
  rcases hL : buildLoop processor d.tempDir 0 (entries.take j) 0 "" d with ⟨r, d1, ev⟩
  rw [hL] at h
  simp only at h
  subst h
  simp only [hlen, Nat.zero_add, buildLoop]
  rcases buildStep processor d.tempDir j e t f d1 with ⟨err | ⟨t2, f2⟩, d2, ev2⟩ <;> simp

/-- The invariant of the loop of `BuildFromManifest` over the ideal engine:
after `j` steps the loop has not failed, the intermediate track holds the
first `j` clips, clip `k` starting at the cursor of step `k` plus the padding
of step `k`, the cursor is the duration of that track, and no file outside
the scratch files of the steps made has changed. -/
theorem buildLoop_ideal (d : Disk) (entries : List ManifestEntry)
    (hclips : ∀ e ∈ entries, ∃ dur, d.audio e.FilePath = some [.clip e.FilePath dur])
    (hscratch : ∀ e ∈ entries, ∀ i < entries.length,
      e.FilePath ≠ silenceFileName d.tempDir i ∧ e.FilePath ≠ buildFileName d.tempDir i)
    (hnames : ∀ i < entries.length, ∀ j < entries.length,
      silenceFileName d.tempDir i ≠ buildFileName d.tempDir j) :
    ∀ j, j ≤ entries.length → ∃ track,
      (buildLoop processor d.tempDir 0 (entries.take j) 0 "" d).1
          = .ok (duration track, if j = 0 then "" else buildFileName d.tempDir (j - 1))
      ∧ (0 < j → (buildLoop processor d.tempDir 0 (entries.take j) 0 "" d).2.1.audio
            (buildFileName d.tempDir (j - 1)) = some track)
      ∧ (j = 0 → track = [])
      ∧ (clipStarts track).length = j
      ∧ (∀ k e, k < j → entries[k]? = some e →
          (clipStarts track)[k]? = some (e.FilePath,
            cursorAt entries k d + duration (padding e.StartTime (cursorAt entries k d))))
      ∧ (∀ g, (∀ i < j, g ≠ silenceFileName d.tempDir i ∧ g ≠ buildFileName d.tempDir i) →
          (buildLoop processor d.tempDir 0 (entries.take j) 0 "" d).2.1.audio g = d.audio g) := by
  intro j
  induction j with
  | zero =>
    intro _
    refine ⟨[], ?_, ?_, ?_, ?_, ?_, ?_⟩
    · simp [buildLoop, duration]
    · intro h; omega
    · intro _; rfl
    · simp [clipStarts, clipStartsFrom]
    · intro k e hk; omega
    · intro g _
      simp [buildLoop]
  | succ j ih =>
    intro hj
    obtain ⟨track, h1, h2, h3, h4, h5, h6⟩ := ih (by omega)
    have hjlt : j < entries.length := by omega
    obtain ⟨e, he⟩ : ∃ e, entries[j]? = some e := ⟨entries[j], List.getElem?_eq_getElem hjlt⟩
    have hmem : e ∈ entries := by
      rcases List.getElem?_eq_some.mp he with ⟨hlt, heq⟩
      rw [← heq]
      exact List.getElem_mem hlt
    obtain ⟨dur, hdur⟩ := hclips e hmem
    have hcur : cursorAt entries j d = duration track := cursorAt_of_ok entries j d _ _ h1
    obtain ⟨s1, s2⟩ := buildLoop_take_succ entries j d e he _ _ h1
    have hclip1 : (buildLoop processor d.tempDir 0 (entries.take j) 0 "" d).2.1.audio e.FilePath
        = some [.clip e.FilePath dur] := by
      rw [h6 e.FilePath (fun i hi => hscratch e hmem i (by omega))]
      exact hdur
    have hstep := buildStep_ideal (buildLoop processor d.tempDir 0 (entries.take j) 0 "" d).2.1
      d.tempDir j e (duration track) (if j = 0 then "" else buildFileName d.tempDir (j - 1))
      track dur
      (by
        intro hpos
        have hj0 : ¬ j = 0 := by omega
        simp only [hj0, if_false]
        exact ⟨h2 hpos, fun hEq => hnames j hjlt (j - 1) (by omega) hEq.symm⟩)
      h3 hclip1 (hscratch e hmem j hjlt).1
    obtain ⟨b1, b2, b3⟩ := hstep
    refine ⟨track ++ padding e.StartTime (duration track) ++ [.clip e.FilePath dur],
      ?_, ?_, ?_, ?_, ?_, ?_⟩
    · rw [s1]
      rcases hB : buildStep processor d.tempDir j e (duration track)
        (if j = 0 then "" else buildFileName d.tempDir (j - 1))
        (buildLoop processor d.tempDir 0 (entries.take j) 0 "" d).2.1 with ⟨r, d2, ev2⟩
      rw [hB] at b1
      simp only at b1
      subst b1
      simp
    · intro _
      rw [s2]
      simpa using b2
    · intro h; omega
    · simp only [clipStarts, clipStartsFrom_append, (padding_facts _ _ _).1, clipStartsFrom,
        List.append_nil, List.length_append, List.length_singleton]
      simp only [clipStarts] at h4
      rw [h4]
    · intro k e2 hk he2
      simp only [clipStarts, clipStartsFrom_append, (padding_facts _ _ _).1, clipStartsFrom,
        List.append_nil]
      simp only [clipStarts] at h4 h5
      by_cases hkj : k < j
      · rw [List.getElem?_append_left (by rw [h4]; exact hkj)]
        exact h5 k e2 hkj he2
      · have hk2 : k = j := by omega
        subst hk2
        rw [he] at he2
        simp only [Option.some.injEq] at he2
        subst he2
        have hlen : k = (clipStartsFrom 0 track).length := h4.symm
        conv_lhs => rw [hlen]
        rw [List.getElem?_concat_length, hcur]
        simp [duration_append]
    · intro g hg
      rw [s2, b3 g (hg j (by omega)).1 (hg j (by omega)).2]
      exact h6 g (fun i hi => hg i (by omega))

/-- A clip placed at the cursor plus the padding of its step starts within
epsilon of its StartTime when the gap is not negative, and exactly at its
StartTime when the gap exceeds epsilon. -/
theorem placement_error (startTime cursor : ℚ) (h : cursor ≤ startTime) :
    |cursor + duration (padding startTime cursor) - startTime| ≤ epsilon
    ∧ (startTime - cursor > epsilon →
        cursor + duration (padding startTime cursor) = startTime) := by
  rw [(padding_facts startTime cursor 0).2]
  by_cases hgap : startTime - cursor > epsilon
  · simp only [hgap, if_true]
    refine ⟨?_, fun _ => by ring⟩
    rw [show cursor + (startTime - cursor) - startTime = 0 by ring, abs_zero]
    norm_num [epsilon]
  · simp only [hgap, if_false, add_zero]
    refine ⟨?_, fun h2 => h2.elim⟩
    rw [abs_le]
    constructor
    · linarith [not_lt.mp hgap]
    · have : (0 : ℚ) ≤ epsilon := by norm_num [epsilon]
      linarith

/-- C3: under the ideal engine (a concatenated track is its inputs in a row,
silence has exactly the requested duration), for a non-empty manifest whose
clips are on disk outside the scratch files and in which every entry's
StartTime is at least the cursor when its step begins (gap >= 0),
`BuildFromManifest` succeeds and the track it leaves at the output path holds
the clips of the manifest in order, clip k starting within epsilon of its
StartTime, and exactly at its StartTime when its gap exceeds epsilon; the
bound holds for every clip on its own, so no start error accumulates. -/
theorem BuildFromManifest_places_clips (d : Disk) (manifestPath outputPath : String)
    (entries : List ManifestEntry)
    (hman : d.manifests manifestPath = some entries)
    (hne : entries ≠ [])
    (hclips : ∀ e ∈ entries, ∃ dur, d.audio e.FilePath = some [.clip e.FilePath dur])
    (hscratch : ∀ e ∈ entries, ∀ i < entries.length,
      e.FilePath ≠ silenceFileName d.tempDir i ∧ e.FilePath ≠ buildFileName d.tempDir i)
    (hnames : ∀ i < entries.length, ∀ j < entries.length,
      silenceFileName d.tempDir i ≠ buildFileName d.tempDir j)
    (hout : inDirectory d.tempDir outputPath = false)
    (hgap : ∀ k (hk : k < entries.length),
      cursorAt entries k d ≤ (entries.get ⟨k, hk⟩).StartTime) :
    (BuildFromManifest system processor manifestPath outputPath d).1 = none
    ∧ ∃ track,
        (BuildFromManifest system processor manifestPath outputPath d).2.1.audio outputPath
          = some track
        ∧ (clipStarts track).length = entries.length
        ∧ ∀ k (hk : k < entries.length), ∃ start,
            (clipStarts track)[k]? = some ((entries.get ⟨k, hk⟩).FilePath, start)
            ∧ |start - (entries.get ⟨k, hk⟩).StartTime| ≤ epsilon
            ∧ ((entries.get ⟨k, hk⟩).StartTime - cursorAt entries k d > epsilon →
                start = (entries.get ⟨k, hk⟩).StartTime) := by
  have hparse : system.Parse manifestPath d = (.ok entries, d) := by
    simp [system, hman]
  have hmk : system.MkdirTemp "" "sync-audio-build-" d = (.ok d.tempDir, d) := rfl
  have hb := (BuildFromManifest_started system processor manifestPath outputPath d d d entries
    d.tempDir hparse hne hmk).2
  obtain ⟨track, h1, h2, _, h4, h5, _⟩ :=
    buildLoop_ideal d entries hclips hscratch hnames entries.length (le_refl _)
  rw [List.take_length] at h1 h2
  have hpos : 0 < entries.length := List.length_pos.mpr hne
  have hn0 : ¬ entries.length = 0 := by omega
  simp only [hn0, if_false] at h1
  have h2 := h2 hpos
  rw [hb _ _ h1]
  have hren : system.Rename (buildFileName d.tempDir (entries.length - 1)) outputPath
      (buildLoop processor d.tempDir 0 entries 0 "" d).2.1 =
      (none, { (buildLoop processor d.tempDir 0 entries 0 "" d).2.1 with
        audio := fun f =>
          if f = outputPath then some track
          else if f = buildFileName d.tempDir (entries.length - 1) then none
          else (buildLoop processor d.tempDir 0 entries 0 "" d).2.1.audio f }) := by
    simp [system, h2]
  rw [hren]
  refine ⟨rfl, track, ?_, h4, ?_⟩
  · simp [system, hout]
  · intro k hk
    have hk5 := h5 k (entries.get ⟨k, hk⟩) hk (by simp)
    have hp := placement_error (entries.get ⟨k, hk⟩).StartTime (cursorAt entries k d) (hgap k hk)
    exact ⟨_, hk5, hp.1, hp.2⟩

/-- The cursors of the two steps of the demo run: 0, and 5 after two seconds
of silence and the clip of three seconds. -/
theorem demo_cursors :
    cursorAt demoManifest 0 demoDisk = 0 ∧ cursorAt demoManifest 1 demoDisk = 5 := by
  have h0 : (buildLoop processor demoDisk.tempDir 0 (demoManifest.take 0) 0 "" demoDisk).1
      = .ok (0, "") := rfl
  refine ⟨cursorAt_of_ok demoManifest 0 demoDisk 0 "" h0, ?_⟩
  have hs : (buildLoop processor demoDisk.tempDir 0 (demoManifest.take 1) 0 "" demoDisk).1
      = (match buildStep processor demoDisk.tempDir 0
            { StartTime := 2, EndTime := 5, Speaker := "SPEAKER_00", FilePath := "/clips/a.wav" }
            0 "" demoDisk with
          | (.error err, _, _) => .error err
          | (.ok r, _, _) => .ok r) :=
    (buildLoop_take_succ demoManifest 0 demoDisk _ rfl 0 "" h0).1
  have hst := (buildStep_ideal demoDisk demoDisk.tempDir 0
    { StartTime := 2, EndTime := 5, Speaker := "SPEAKER_00", FilePath := "/clips/a.wav" }
    0 "" [] 3 (fun h => absurd h (lt_irrefl 0)) (fun _ => rfl) rfl (by decide)).1
  rcases hB : buildStep processor demoDisk.tempDir 0
    { StartTime := 2, EndTime := 5, Speaker := "SPEAKER_00", FilePath := "/clips/a.wav" }
    0 "" demoDisk with ⟨r, d2, ev⟩
  rw [hB] at hs hst
  simp only at hst
  subst hst
  simp only at hs
  rw [cursorAt_of_ok demoManifest 1 demoDisk _ _ hs]
  norm_num [duration, padding, epsilon, Segment.duration]

/-- Witness of C3: the demo manifest (clips of 3 and 2 seconds, to start at 2
and at 5.005) is assembled, and both clips start within epsilon of their
StartTime. -/
theorem BuildFromManifest_places_clips_witness :
    (BuildFromManifest system processor "manifest.txt" "out.wav" demoDisk).1 = none
    ∧ ∃ track,
        (BuildFromManifest system processor "manifest.txt" "out.wav" demoDisk).2.1.audio "out.wav"
          = some track
        ∧ (clipStarts track).length = demoManifest.length
        ∧ ∀ k (hk : k < demoManifest.length), ∃ start,
            (clipStarts track)[k]? = some ((demoManifest.get ⟨k, hk⟩).FilePath, start)
            ∧ |start - (demoManifest.get ⟨k, hk⟩).StartTime| ≤ epsilon
            ∧ ((demoManifest.get ⟨k, hk⟩).StartTime - cursorAt demoManifest k demoDisk > epsilon →
                start = (demoManifest.get ⟨k, hk⟩).StartTime) :=
  BuildFromManifest_places_clips demoDisk "manifest.txt" "out.wav" demoManifest
    rfl (by simp [demoManifest])
    (by
      intro e he
      simp only [demoManifest, List.mem_cons, List.mem_singleton, List.not_mem_nil,
        or_false] at he
      rcases he with rfl | rfl
      · exact ⟨3, rfl⟩
      · exact ⟨2, rfl⟩)
    (by decide) (by decide) (by decide)
    (by
      intro k hk
      have hk2 : k < 2 := hk
      obtain ⟨c0, c1⟩ := demo_cursors
      interval_cases k
      · rw [c0]
        norm_num [demoManifest]
      · rw [c1]
        norm_num [demoManifest])

end ideal

/-! ## Runs of the test doubles -/

namespace core

open manifest

/-- Witness of C4: step 1 of a run whose cursor stands at 7, for an entry that
starts at 10: the previous track, the silence file and the clip are
concatenated, in this order. -/
theorem buildStep_concatenate_inputs_witness :
    ∃ err, (buildStep { audioProc := mock.clampingEngine 7 } "/tmp/b" 1
        { StartTime := 10, EndTime := 12, Speaker := "SPEAKER_01", FilePath := "/fake/b.wav" }
        7 (buildFileName "/tmp/b" 0) []).2.2.filter Event.isConcatenate =
      [.Concatenate [buildFileName "/tmp/b" 0, silenceFileName "/tmp/b" 1, "/fake/b.wav"]
        (buildFileName "/tmp/b" 1) err] := by
  have h := (buildStep_concatenate_inputs { audioProc := mock.clampingEngine 7 } "/tmp/b" 1
    { StartTime := 10, EndTime := 12, Speaker := "SPEAKER_01", FilePath := "/fake/b.wav" }
    7 (buildFileName "/tmp/b" 0) []).2.2.1
    (by
      norm_num [buildStep, epsilon, mock.clampingEngine]
      intro d f err
      refine ⟨fun _ _ h => ?_, fun h => ?_, fun h => ?_⟩ <;> cases h)
  have hgap : (10 : ℚ) - 7 > epsilon := by norm_num [epsilon]
  simpa [hgap] using h

/-- Witness of C7: with the test double whose `GetDuration` fails, a manifest
of one entry is processed without error and no manifest is written. -/
theorem ProcessManifest_error_iff_witness :
    (ProcessManifest (mock.system (.ok (mock.clampingManifest 5)))
        { audioProc := mock.failingEngine } "manifest.txt" ()).1 = none
    ∧ ∀ ev ∈ (ProcessManifest (mock.system (.ok (mock.clampingManifest 5)))
        { audioProc := mock.failingEngine } "manifest.txt" ()).2.2, Event.isWrite ev = false :=
  (ProcessManifest_error_iff (mock.system (.ok (mock.clampingManifest 5)))
    { audioProc := mock.failingEngine } "manifest.txt" ()).2.2.2
    (fun _ _ => ⟨"mock get duration error", rfl⟩) (mock.clampingManifest 5) rfl

/-- Witness of C10: with the test double whose `GetDuration` fails, the run
over a manifest of one entry concatenates, fails to measure the intermediate
track, and ends: an error is returned, only the removal of the scratch
directory follows the failed call, and nothing is renamed. -/
theorem BuildFromManifest_fails_closed_witness :
    (BuildFromManifest (mock.system (.ok (mock.clampingManifest 5)))
        { audioProc := mock.failingEngine } "manifest.txt" "out.wav" ()).1 ≠ none
    ∧ (∀ x ∈ [Event.RemoveAll "/tmp/sync-audio-build-1" none], Event.isEngineCall x = false)
    ∧ (∀ x ∈ (BuildFromManifest (mock.system (.ok (mock.clampingManifest 5)))
        { audioProc := mock.failingEngine } "manifest.txt" "out.wav" ()).2.2,
          Event.isRename x = false) :=
  (BuildFromManifest_fails_closed (mock.system (.ok (mock.clampingManifest 5)))
    { audioProc := mock.failingEngine } "manifest.txt" "out.wav" ()).2.2
    [.Parse "manifest.txt" (.ok (mock.clampingManifest 5)),
     .MkdirTemp "" "sync-audio-build-" (.ok "/tmp/sync-audio-build-1"),
     .Concatenate ["/fake/audio.wav"] (buildFileName "/tmp/sync-audio-build-1" 0) none]
    (.GetDuration (buildFileName "/tmp/sync-audio-build-1" 0) (.error "mock get duration error"))
    [.RemoveAll "/tmp/sync-audio-build-1" none]
    (by norm_num [BuildFromManifest, buildLoop, buildStep, mock.system, mock.clampingManifest,
      mock.failingEngine, epsilon])
    rfl

end core

/-! ## The clamp range and the range of the engine -/

namespace core

open manifest

/-- Every speed `processEntry` passes to `ApplySpeed` is a value of `clamp`
with the bounds `minSpeed` and `maxSpeed`. -/
theorem processEntry_speed_clamped {σ : Type} (p : Processor σ) (entry : ManifestEntry) (s : σ)
    (inputFile outputFile : String) (speed : ℚ) (err : Option String)
    (h : Event.ApplySpeed inputFile outputFile speed err ∈ (processEntry p entry s).2.2) :
    ∃ value, speed = clamp value minSpeed maxSpeed := by
  simp only [processEntry] at h
  split_ifs at h with h1
  · simp at h
  · revert h
    rcases p.audioProc.GetDuration entry.FilePath s with ⟨_ | actual, s2⟩
    · simp
    · simp only
      split_ifs with h2
      · simp
      · rcases p.audioProc.ApplySpeed entry.FilePath (getOutputFilePath entry.FilePath)
          (clamp (actual / (entry.EndTime - entry.StartTime)) minSpeed maxSpeed) s2
          with ⟨_ | e, s3⟩ <;>
        · simp only [List.mem_cons, List.mem_singleton, List.not_mem_nil, or_false,
            reduceCtorEq, false_or, Event.ApplySpeed.injEq]
          rintro ⟨_, _, hsp, _⟩
          exact ⟨_, hsp⟩

/-- When the measured duration is a number: every speed `processEntry` passes
to `ApplySpeed` lies in [minSpeed, maxSpeed] = [0.8, 1.5], which lies inside
[0.5, 2.0], so `FFmpegProcessor.ApplySpeed` does not answer it with the
out-of-range error; that error is returned, before ffmpeg is run, for every
speed below 0.5 or above 2.0, such as 0.4 and 2.1. -/
theorem processEntry_speed_within_engine_range {σ τ : Type} (p : Processor σ)
    (entry : ManifestEntry) (s : σ)
    (run : String → ℚ → String → τ → (String × Option String) × τ) :
    (∀ inputFile outputFile speed err,
        Event.ApplySpeed inputFile outputFile speed err ∈ (processEntry p entry s).2.2 →
          minSpeed ≤ speed ∧ speed ≤ maxSpeed ∧ (0.5 : ℚ) ≤ speed ∧ speed ≤ 2.0
          ∧ ∀ (t : τ) (x : ℚ),
              (audio.FFmpegProcessor.ApplySpeed run inputFile outputFile speed t).1
                ≠ some (.unsupportedSpeed x))
    ∧ minSpeed = 0.8 ∧ maxSpeed = 1.5 ∧ (0.5 : ℚ) ≤ minSpeed ∧ maxSpeed ≤ 2.0
    ∧ (∀ (inputFile outputFile : String) (speed : ℚ) (t : τ), speed < 0.5 ∨ speed > 2.0 →
        audio.FFmpegProcessor.ApplySpeed run inputFile outputFile speed t
          = (some (.unsupportedSpeed speed), t))
    ∧ (∀ t : τ, audio.FFmpegProcessor.ApplySpeed run "input.wav" "output.wav" 0.4 t
          = (some (.unsupportedSpeed 0.4), t))
    ∧ (∀ t : τ, audio.FFmpegProcessor.ApplySpeed run "input.wav" "output.wav" 2.1 t
          = (some (.unsupportedSpeed 2.1), t)) := by
  have hout : ∀ (inputFile outputFile : String) (speed : ℚ) (t : τ),
      speed < 0.5 ∨ speed > 2.0 →
        audio.FFmpegProcessor.ApplySpeed run inputFile outputFile speed t
          = (some (.unsupportedSpeed speed), t) := by
    intro inputFile outputFile speed t h
    simp only [audio.FFmpegProcessor.ApplySpeed, h, if_true]
  refine ⟨?_, rfl, rfl, by norm_num [minSpeed], by norm_num [maxSpeed], hout, ?_, ?_⟩
  · intro inputFile outputFile speed err hmem
    obtain ⟨value, hv⟩ := processEntry_speed_clamped p entry s inputFile outputFile speed err hmem
    have hr := clamp_mem_range value minSpeed maxSpeed (by norm_num [minSpeed, maxSpeed])
    rw [← hv] at hr
    have hlo : (0.5 : ℚ) ≤ speed := le_trans (by norm_num [minSpeed]) hr.1
    have hhi : speed ≤ (2.0 : ℚ) := le_trans hr.2 (by norm_num [maxSpeed])
    refine ⟨hr.1, hr.2, hlo, hhi, ?_⟩
    intro t x
    have hin : ¬ (speed < 0.5 ∨ speed > 2.0) := by
      rintro (h | h)
      · exact absurd hlo (not_le.mpr h)
      · exact absurd hhi (not_le.mpr h)
    simp only [audio.FFmpegProcessor.ApplySpeed, hin, if_false]
    rcases run inputFile speed outputFile t with ⟨⟨output, _ | e⟩, t1⟩ <;> simp
  · intro t
    exact hout _ _ _ t (Or.inl (by norm_num))
  · intro t
    exact hout _ _ _ t (Or.inr (by norm_num))

/-- The clip of the clamping test in a slot of 20 seconds is applied at 0.8,
which `FFmpegProcessor.ApplySpeed` accepts. -/
theorem processEntry_speed_within_engine_range_witness :
    minSpeed ≤ (0.8 : ℚ) ∧ (0.8 : ℚ) ≤ maxSpeed ∧ (0.5 : ℚ) ≤ 0.8 ∧ (0.8 : ℚ) ≤ 2.0
    ∧ ∀ (t : Unit) (x : ℚ),
        (audio.FFmpegProcessor.ApplySpeed (fun _ _ _ u => (("", none), u))
          "/fake/audio.wav" "/fake/audio_synced.wav" 0.8 t).1 ≠ some (.unsupportedSpeed x) :=
  (processEntry_speed_within_engine_range { audioProc := mock.clampingEngine 10 }
    { StartTime := 0, EndTime := 20, Speaker := "SPEAKER_00", FilePath := "/fake/audio.wav" }
    [] (fun _ _ _ u => (("", none), u))).1
    "/fake/audio.wav" "/fake/audio_synced.wav" 0.8 none
    (by
      have hp : getOutputFilePath "/fake/audio.wav" = "/fake/audio_synced.wav" := by decide
      norm_num [processEntry, mock.clampingEngine, clamp, minSpeed, maxSpeed, hp])

end core

/-! ## The manifest reader: `Parse` -/

namespace manifest

/-- The loop of `Parse` only appends to `entries`. -/
theorem parseLines_acc (raws : List (List Char)) :
    ∀ acc : List ManifestEntry,
      parseLines raws acc = (parseLines raws []).map (fun entries => acc ++ entries) := by
  induction raws with
  | nil => intro acc; simp [parseLines, Except.map]
  | cons raw rest ih =>
    intro acc
    simp only [parseLines]
    split_ifs with hlong
    · rfl
    · rcases parseLine (dropCR raw) with e | (_ | entry)
      · rfl
      · exact ih acc
      · simp only
        rw [ih (acc ++ [entry]), ih ([] ++ [entry])]
        rcases parseLines rest [] with e | entries
        · rfl
        · simp [Except.map]

/-- A line that is not blank and does not match the pattern makes the loop of
`Parse` fail, wherever it stands. -/
theorem parseLines_mismatch (raws : List (List Char)) :
    ∀ acc : List ManifestEntry,
      (∃ raw ∈ raws, isBlank (dropCR raw) = false ∧ matchLine (dropCR raw) = none) →
        ∃ e, parseLines raws acc = .error e := by
  induction raws with
  | nil =>
    intro acc h
    obtain ⟨raw, hmem, _⟩ := h
    simp at hmem
  | cons raw rest ih =>
    intro acc h
    simp only [parseLines]
    split_ifs with hlong
    · exact ⟨_, rfl⟩
    · obtain ⟨bad, hmem, hblank, hmatch⟩ := h
      rcases List.mem_cons.mp hmem with hb | hb
      · subst hb
        simp only [parseLine, hblank, hmatch]
        exact ⟨_, rfl⟩
      · rcases parseLine (dropCR raw) with e | (_ | entry)
        · exact ⟨_, rfl⟩
        · exact ih acc ⟨bad, hb, hblank, hmatch⟩
        · exact ih _ ⟨bad, hb, hblank, hmatch⟩

/-- When every line fits the buffer of the scanner and is blank or gives an
entry, the loop of `Parse` returns the entries of the lines, in order. -/
theorem parseLines_ok (raws : List (List Char)) :
    (∀ raw ∈ raws, utf8Length raw < maxScanTokenSize
      ∧ (isBlank (dropCR raw) = false → ∃ entry, parseLine (dropCR raw) = .ok (some entry))) →
    parseLines raws [] = .ok (lineEntries raws)
      ∧ (lineEntries raws).length
          = (raws.filter (fun raw => !isBlank (dropCR raw))).length := by
  induction raws with
  | nil => intro _; simp [parseLines, lineEntries]
  | cons raw rest ih =>
    intro h
    obtain ⟨hshort, hline⟩ := h raw (List.mem_cons_self _ _)
    obtain ⟨ih1, ih2⟩ := ih (fun r hr => h r (List.mem_cons_of_mem _ hr))
    have hnl : ¬ utf8Length raw ≥ maxScanTokenSize := not_le.mpr hshort
    simp only [parseLines, hnl, if_false]
    by_cases hblank : isBlank (dropCR raw) = true
    · have hp : parseLine (dropCR raw) = .ok none := by simp [parseLine, hblank]
      simp only [hp, lineEntries, List.filterMap_cons, List.filter_cons, hblank, Bool.not_true]
      exact ⟨ih1, ih2⟩
    · have hb : isBlank (dropCR raw) = false := by simpa using hblank
      obtain ⟨entry, hp⟩ := hline hb
      simp only [hp, lineEntries, List.filterMap_cons, List.filter_cons, hb, Bool.not_false,
        if_true, List.length_cons]
      rw [parseLines_acc rest ([] ++ [entry]), ih1]
      exact ⟨by simp [Except.map, lineEntries], by simpa [lineEntries] using ih2⟩

/-- A line that does not fit the buffer of the scanner makes the loop of
`Parse` fail, wherever it stands. -/
theorem parseLines_too_long (raws : List (List Char)) :
    ∀ acc : List ManifestEntry,
      (∃ raw ∈ raws, utf8Length raw ≥ maxScanTokenSize) →
        ∃ e, parseLines raws acc = .error e := by
  induction raws with
  | nil =>
    intro acc h
    obtain ⟨raw, hmem, _⟩ := h
    simp at hmem
  | cons raw rest ih =>
    intro acc h
    simp only [parseLines]
    split_ifs with hlong
    · exact ⟨_, rfl⟩
    · obtain ⟨bad, hmem, hbad⟩ := h
      rcases List.mem_cons.mp hmem with hb | hb
      · subst hb
        exact absurd hbad hlong
      · rcases parseLine (dropCR raw) with e | (_ | entry)
        · exact ⟨_, rfl⟩
        · exact ih acc ⟨bad, hb, hbad⟩
        · exact ih _ ⟨bad, hb, hbad⟩

/-- A text without line feed is one line. -/
theorem rawLines_single (l : List Char) (hne : l ≠ []) (hnl : ∀ c ∈ l, c ≠ '\n') :
    rawLines l = [l] := by
  induction l with
  | nil => exact absurd rfl hne
  | cons c cs ih =>
    have hc : c ≠ '\n' := hnl c (List.mem_cons_self _ _)
    simp only [rawLines, hc, if_false]
    cases cs with
    | nil => simp [rawLines]
    | cons d ds =>
      rw [ih (by simp) (fun x hx => hnl x (List.mem_cons_of_mem _ hx))]

/-- A text that begins with a line and its line feed: the line, then the
lines of the rest. -/
theorem rawLines_line (l rest : List Char) (hnl : ∀ c ∈ l, c ≠ '\n') :
    rawLines (l ++ '\n' :: rest) = l :: rawLines rest := by
  induction l with
  | nil => simp [rawLines]
  | cons c cs ih =>
    have hc : c ≠ '\n' := hnl c (List.mem_cons_self _ _)
    rw [List.cons_append, rawLines, if_neg hc,
      ih (fun x hx => hnl x (List.mem_cons_of_mem _ hx))]

/-- A line gives an entry exactly when it is not blank, matches the pattern,
and both its times are in the range of `float64`. -/
theorem parseLine_ok_iff (line : List Char) (entry : ManifestEntry) :
    parseLine line = .ok (some entry) ↔
      isBlank line = false ∧ ∃ m1 m2 m3 m4 t1 t2,
        matchLine line = some (m1, m2, m3, m4) ∧ ParseFloat m1 = some t1
        ∧ ParseFloat m2 = some t2
        ∧ entry = { StartTime := t1, EndTime := t2, Speaker := String.mk m3,
                    FilePath := String.mk m4 } := by
  unfold parseLine
  by_cases hb : isBlank line = true
  · simp [hb]
  · have hb2 : isBlank line = false := by simpa using hb
    simp only [hb2, Bool.false_eq_true, if_false, true_and]
    rcases hm : matchLine line with _ | ⟨m1, m2, m3, m4⟩
    · simp
    · simp only
      rcases h1 : ParseFloat m1 with _ | t1
      · constructor
        · intro h
          cases h
        · rintro ⟨a1, a2, a3, a4, b1, b2, hm2, hb1, _, _⟩
          cases hm2
          rw [h1] at hb1
          cases hb1
      · simp only
        rcases h2 : ParseFloat m2 with _ | t2
        · constructor
          · intro h
            cases h
          · rintro ⟨a1, a2, a3, a4, b1, b2, hm2, _, hb2, _⟩
            cases hm2
            rw [h2] at hb2
            cases hb2
        · constructor
          · intro h
            simp only [Except.ok.injEq, Option.some.injEq] at h
            exact ⟨m1, m2, m3, m4, t1, t2, rfl, h1, h2, h.symm⟩
          · rintro ⟨a1, a2, a3, a4, b1, b2, hm2, hb1, hb2, he⟩
            cases hm2
            rw [h1] at hb1
            rw [h2] at hb2
            cases hb1
            cases hb2
            rw [he]

/-- The UTF-8 length of a row of spaces is its number of characters. -/
theorem utf8Length_replicate_space (n : Nat) : utf8Length (List.replicate n ' ') = n := by
  induction n with
  | zero => rfl
  | succ n ih =>
    have h1 : Char.utf8Size ' ' = 1 := by decide
    simp only [utf8Length, List.replicate_succ, List.map_cons, List.sum_cons, h1] at ih ⊢
    rw [ih]
    omega

/-- Counterexample to C12: a file of one blank line, 65536 spaces long, is not
accepted: the scanner gives up on the line and `Parse` returns an error. -/
theorem parseText_long_blank_line :
    rawLines (String.mk (List.replicate 65536 ' ')).data = [List.replicate 65536 ' ']
    ∧ isBlank (dropCR (List.replicate 65536 ' ')) = true
    ∧ parseText (String.mk (List.replicate 65536 ' ')) = .error .readFailed := by
  have hmem : ∀ c ∈ List.replicate 65536 ' ', c = ' ' := fun c hc => List.eq_of_mem_replicate hc
  have hlines : rawLines (List.replicate 65536 ' ') = [List.replicate 65536 ' '] := by
    apply rawLines_single
    · intro h
      have := congrArg List.length h
      rw [List.length_replicate] at this
      cases this
    · intro c hc
      rw [hmem c hc]
      decide
  have hlong : utf8Length (List.replicate 65536 ' ') ≥ maxScanTokenSize := by
    rw [utf8Length_replicate_space]
    decide
  refine ⟨hlines, ?_, ?_⟩
  · have hcr : dropCR (List.replicate 65536 ' ') = List.replicate 65536 ' ' := by
      unfold dropCR
      have hlast : (List.replicate 65536 ' ').getLast? ≠ some '\r' := by
        intro h
        have hm := List.mem_of_getLast?_eq_some h
        have := hmem _ hm
        revert this
        decide
      simp only [hlast, if_false]
    rw [hcr]
    simp only [isBlank, List.all_eq_true]
    intro c hc
    rw [hmem c hc]
    decide
  · show parseLines (rawLines (List.replicate 65536 ' ')) [] = .error .readFailed
    rw [hlines, parseLines, if_pos hlong]

end manifest

/-! ## Decimal numbers: `%.1f` and `strconv.ParseFloat` -/

namespace manifest

/-- The character of a digit below ten is a digit with that value. -/
theorem digitChar_facts (k : Nat) (hk : k < 10) :
    isDigit (Nat.digitChar k) = true ∧ digitValue (Nat.digitChar k) = k := by
  interval_cases k <;> exact ⟨by decide, by decide⟩

/-- The digits of a number come out in front of the digits already there. -/
theorem toDigitsCore_append (fuel : Nat) :
    ∀ (n : Nat) (ds : List Char),
      Nat.toDigitsCore 10 fuel n ds = Nat.toDigitsCore 10 fuel n [] ++ ds := by
  induction fuel with
  | zero => intro n ds; simp [Nat.toDigitsCore]
  | succ fuel ih =>
    intro n ds
    simp only [Nat.toDigitsCore]
    split_ifs with h
    · simp
    · rw [ih (n / 10) (Nat.digitChar (n % 10) :: ds), ih (n / 10) [Nat.digitChar (n % 10)]]
      simp

/-- The decimal digits of a number are digits, at least one, and stand for the
number. -/
theorem toDigitsCore_facts (fuel : Nat) :
    ∀ n : Nat, n < fuel →
      (∀ c ∈ Nat.toDigitsCore 10 fuel n [], isDigit c = true)
      ∧ Nat.toDigitsCore 10 fuel n [] ≠ []
      ∧ parseNat (Nat.toDigitsCore 10 fuel n []) = n := by
  induction fuel with
  | zero => intro n h; omega
  | succ fuel ih =>
    intro n hn
    have hd := digitChar_facts (n % 10) (Nat.mod_lt _ (by norm_num))
    simp only [Nat.toDigitsCore]
    split_ifs with h
    · refine ⟨?_, by simp, ?_⟩
      · intro c hc
        simp only [List.mem_singleton] at hc
        rw [hc]
        exact hd.1
      · simp only [parseNat, List.foldl_cons, List.foldl_nil, hd.2]
        omega
    · have hlt : n / 10 < fuel := by omega
      obtain ⟨i1, i2, i3⟩ := ih (n / 10) hlt
      rw [toDigitsCore_append fuel (n / 10) [Nat.digitChar (n % 10)]]
      refine ⟨?_, by simp [i2], ?_⟩
      · intro c hc
        rcases List.mem_append.mp hc with hc | hc
        · exact i1 c hc
        · simp only [List.mem_singleton] at hc
          rw [hc]
          exact hd.1
      · simp only [parseNat, List.foldl_append, List.foldl_cons, List.foldl_nil, hd.2] at i3 ⊢
        rw [i3]
        omega

/-- The decimal digits `Nat.toDigits 10 n`: digits, at least one, standing
for `n`. -/
theorem toDigits_facts (n : Nat) :
    (∀ c ∈ Nat.toDigits 10 n, isDigit c = true)
    ∧ Nat.toDigits 10 n ≠ []
    ∧ parseNat (Nat.toDigits 10 n) = n :=
  toDigitsCore_facts (n + 1) n (Nat.lt_succ_self n)

/-- A number below ten has one decimal digit. -/
theorem toDigits_single (k : Nat) (hk : k < 10) : Nat.toDigits 10 k = [Nat.digitChar k] := by
  interval_cases k <;> rfl

/-- The value of digits, a point and more digits. -/
theorem decimalValue_point (whole frac : List Char) (hw : ∀ c ∈ whole, isDigit c = true) :
    decimalValue (whole ++ '.' :: frac)
      = (parseNat whole : ℚ) + (parseNat frac : ℚ) / (10 : ℚ) ^ frac.length := by
  have hdot : ¬ isDigit '.' = true := by decide
  unfold decimalValue
  simp only [List.takeWhile_append_of_pos hw, List.dropWhile_append_of_pos hw,
    List.takeWhile_cons_of_neg hdot, List.dropWhile_cons_of_neg hdot, List.append_nil,
    List.drop_succ_cons, List.drop_zero]

/-- The group of a number matches digits, a point and more digits, up to a
character that is not a digit. -/
theorem matchNumber_point (whole frac rest : List Char)
    (hw : ∀ c ∈ whole, isDigit c = true) (hwne : whole ≠ [])
    (hf : ∀ c ∈ frac, isDigit c = true) (hfne : frac ≠ [])
    (hrest : ∀ c, rest.head? = some c → isDigit c = false) :
    matchNumber (whole ++ '.' :: (frac ++ rest)) = some (whole ++ '.' :: frac, rest) := by
  have hdot : ¬ isDigit '.' = true := by decide
  have htr : rest.takeWhile isDigit = [] ∧ rest.dropWhile isDigit = rest := by
    cases rest with
    | nil => simp
    | cons c cs =>
      have hc : ¬ isDigit c = true := by simp [hrest c rfl]
      simp [List.takeWhile_cons_of_neg hc, List.dropWhile_cons_of_neg hc]
  unfold matchNumber
  simp only [List.takeWhile_append_of_pos hw, List.dropWhile_append_of_pos hw,
    List.takeWhile_cons_of_neg hdot, List.dropWhile_cons_of_neg hdot, List.append_nil,
    List.takeWhile_append_of_pos hf, List.dropWhile_append_of_pos hf, htr.1, htr.2, hwne,
    if_false, true_and, ne_eq, hfne, not_false_eq_true, if_true]

/-- Rounding a number that is not negative gives an integer that is not
negative. -/
theorem roundHalfEven_nonneg (x : ℚ) (hx : 0 ≤ x) : 0 ≤ roundHalfEven x := by
  have hf : 0 ≤ ⌊x⌋ := Int.floor_nonneg.mpr hx
  unfold roundHalfEven
  split_ifs <;> omega

/-- Rounding an integer gives the integer. -/
theorem roundHalfEven_intCast (z : ℤ) : roundHalfEven (z : ℚ) = z := by
  unfold roundHalfEven
  simp

/-- A time with at most one decimal is its own rounding to one decimal. -/
theorem roundTenth_tenths (k : ℕ) : roundTenth ((k : ℚ) / 10) = (k : ℚ) / 10 := by
  unfold roundTenth
  have h : (k : ℚ) / 10 * 10 = ((k : ℤ) : ℚ) := by
    push_cast
    ring
  rw [h, roundHalfEven_intCast]
  push_cast
  rfl

/-- The text `%.1f` gives for a time that is not negative: the digits of the
tenths, with a point before the last one. -/
theorem formatTenths_nonneg (t : ℚ) (ht : 0 ≤ t) :
    formatTenths t
      = Nat.toDigits 10 ((roundHalfEven (t * 10)).toNat / 10)
          ++ '.' :: Nat.toDigits 10 ((roundHalfEven (t * 10)).toNat % 10) := by
  unfold formatTenths
  simp only [abs_of_nonneg ht, not_lt.mpr ht, if_false, List.nil_append]

/-- The value of the text of a time that is not negative is the time rounded
to one decimal. -/
theorem decimalValue_formatTenths (t : ℚ) (ht : 0 ≤ t) :
    decimalValue (formatTenths t) = roundTenth t := by
  have hr : 0 ≤ roundHalfEven (t * 10) := roundHalfEven_nonneg _ (by positivity)
  have hmod : (roundHalfEven (t * 10)).toNat % 10 < 10 := Nat.mod_lt _ (by norm_num)
  rw [formatTenths_nonneg t ht, decimalValue_point _ _ (toDigits_facts _).1,
    (toDigits_facts _).2.2, (toDigits_facts _).2.2, toDigits_single _ hmod]
  unfold roundTenth
  have hn : ((roundHalfEven (t * 10)).toNat : ℤ) = roundHalfEven (t * 10) :=
    Int.toNat_of_nonneg hr
  have hq : (roundHalfEven (t * 10) : ℚ) = (((roundHalfEven (t * 10)).toNat : ℕ) : ℚ) := by
    rw [← hn]
    push_cast
    rw [hn]
  rw [hq]
  have hsplit : (((roundHalfEven (t * 10)).toNat : ℕ) : ℚ)
      = 10 * (((roundHalfEven (t * 10)).toNat / 10 : ℕ) : ℚ)
        + (((roundHalfEven (t * 10)).toNat % 10 : ℕ) : ℚ) := by
    have := Nat.div_add_mod (roundHalfEven (t * 10)).toNat 10
    exact_mod_cast this.symm
  rw [hsplit]
  simp only [List.length_singleton, pow_one]
  ring

/-- The text of a time that is not negative holds digits and a point only:
no line feed. -/
theorem formatTenths_chars (t : ℚ) (ht : 0 ≤ t) :
    ∀ c ∈ formatTenths t, c ≠ '\n' := by
  intro c hc
  rw [formatTenths_nonneg t ht] at hc
  have hd : ∀ x, isDigit x = true → x ≠ '\n' := by
    intro x hx hEq
    rw [hEq] at hx
    revert hx
    decide
  simp only [List.mem_append, List.mem_cons] at hc
  rcases hc with hc | hc | hc
  · exact hd c ((toDigits_facts _).1 c hc)
  · rw [hc]
    decide
  · exact hd c ((toDigits_facts _).1 c hc)

/-- The group of a number matches the text of a time that is not negative
when a character that is not a digit follows. -/
theorem matchNumber_formatTenths (t : ℚ) (ht : 0 ≤ t) (rest : List Char)
    (hrest : ∀ c, rest.head? = some c → isDigit c = false) :
    matchNumber (formatTenths t ++ rest) = some (formatTenths t, rest) := by
  rw [formatTenths_nonneg t ht, List.append_assoc, List.cons_append]
  exact matchNumber_point _ _ rest (toDigits_facts _).1 (toDigits_facts _).2.1
    (toDigits_facts _).1 (toDigits_facts _).2.1 hrest

/-- Reading back the text of a time that is not negative gives the time
rounded to one decimal, when that is in the range of `float64`. -/
theorem ParseFloat_formatTenths (t : ℚ) (ht : 0 ≤ t) (hrange : roundTenth t < floatOverflow) :
    ParseFloat (formatTenths t) = some (roundTenth t) := by
  unfold ParseFloat
  rw [decimalValue_formatTenths t ht]
  simp only [ge_iff_le, not_le.mpr hrange, if_false]

end manifest

/-! ## The pattern on a line that `Write` has written -/

namespace manifest

/-- The end of the pattern does not match where a closing parenthesis is not
followed by white space and one more character. -/
theorem matchSpacesPath_none (rest : List Char)
    (h : (match rest with
      | w :: _ :: _ => isReSpace w
      | _ => false) = false) :
    matchSpacesPath rest = none := by
  unfold matchSpacesPath
  cases rest with
  | nil => simp
  | cons w tl =>
    cases tl with
    | nil =>
      by_cases hw : isReSpace w = true
      · simp [hw]
      · simp [hw]
    | cons x tl2 =>
      simp only at h
      have hw : ¬ isReSpace w = true := by simp [h]
      simp [List.takeWhile_cons_of_neg hw]

/-- A text with no place where the end of the pattern matches gives no split. -/
theorem matchSpeakerPath_none (path : List Char) (h : noSplitInside path = true) :
    matchSpeakerPath path = none := by
  induction path with
  | nil => rfl
  | cons c rest ih =>
    simp only [noSplitInside, Bool.and_eq_true, Bool.not_eq_true', Bool.and_eq_false_imp,
      decide_eq_true_eq] at h
    obtain ⟨h1, h2⟩ := h
    simp only [matchSpeakerPath, ih h2]
    split_ifs with hnl hp
    · rfl
    · rw [matchSpacesPath_none rest (h1 hp)]
    · rfl

/-- After one space, the end of the pattern takes a path that does not begin
with white space and has no line feed. -/
theorem matchSpacesPath_space (path : List Char) (hne : path ≠ [])
    (hnl : ∀ c ∈ path, c ≠ '\n') (hhead : ∀ c, path.head? = some c → isReSpace c = false) :
    matchSpacesPath (' ' :: path) = some path := by
  cases path with
  | nil => exact absurd rfl hne
  | cons c cs =>
    have hc : ¬ isReSpace c = true := by simp [hhead c rfl]
    have hsp : isReSpace ' ' = true := by decide
    have hany : (c :: cs).any (fun x => x == '\n') = false := by
      rw [List.any_eq_false]
      intro x hx
      simpa using hnl x hx
    unfold matchSpacesPath
    simp only [List.takeWhile_cons, hsp, if_true, List.dropWhile_cons, hc, if_false,
      List.cons_ne_nil, hany, Bool.false_eq_true]

/-- The part of the pattern for speaker and path splits a written line where
`Write` has put the closing parenthesis. -/
theorem matchSpeakerPath_written (speaker path : List Char)
    (hsp : ∀ c ∈ speaker, c ≠ ')' ∧ c ≠ '\n')
    (hne : path ≠ []) (hnl : ∀ c ∈ path, c ≠ '\n')
    (hhead : ∀ c, path.head? = some c → isReSpace c = false)
    (hsplit : noSplitInside path = true) :
    matchSpeakerPath (speaker ++ ')' :: ' ' :: path) = some (speaker, path) := by
  induction speaker with
  | nil =>
    have h1 : matchSpeakerPath (' ' :: path) = none := by
      simp only [matchSpeakerPath, matchSpeakerPath_none path hsplit]
      have : ¬ (' ' = '\n') := by decide
      have h2 : ¬ (' ' = ')') := by decide
      simp [this, h2]
    have h3 : ¬ (')' = '\n') := by decide
    rw [List.nil_append, matchSpeakerPath, if_neg h3, h1]
    simp only [if_true, matchSpacesPath_space path hne hnl hhead]
  | cons c cs ih =>
    have hc := hsp c (List.mem_cons_self _ _)
    rw [List.cons_append, matchSpeakerPath, if_neg hc.2,
      ih (fun x hx => hsp x (List.mem_cons_of_mem _ hx))]

/-- The written line, read from the left. -/
theorem formatLine_eq (entry : ManifestEntry) :
    formatLine entry =
      '[' :: (formatTenths entry.StartTime ++ 's' :: '–' :: (formatTenths entry.EndTime
        ++ 's' :: ']' :: ' ' :: '(' :: (entry.Speaker.data ++ ')' :: ' ' :: entry.FilePath.data))) := by
  simp [formatLine, List.append_assoc]

/-- The pattern matches the line `Write` writes for a well-formed entry, and
its groups are the two written times, the speaker and the file path. -/
theorem matchLine_formatLine (entry : ManifestEntry) (h : WellFormed entry) :
    matchLine (formatLine entry) =
      some (formatTenths entry.StartTime, formatTenths entry.EndTime, entry.Speaker.data,
        entry.FilePath.data) := by
  have hs : ∀ (rest : List Char) (c : Char), ('s' :: rest).head? = some c → isDigit c = false := by
    intro rest c hc
    simp only [List.head?_cons, Option.some.injEq] at hc
    rw [← hc]
    decide
  have hn1 := matchNumber_formatTenths entry.StartTime h.startTime.1
    ('s' :: '–' :: (formatTenths entry.EndTime
      ++ 's' :: ']' :: ' ' :: '(' :: (entry.Speaker.data ++ ')' :: ' ' :: entry.FilePath.data)))
    (hs _)
  have hn2 := matchNumber_formatTenths entry.EndTime h.endTime.1
    ('s' :: ']' :: ' ' :: '(' :: (entry.Speaker.data ++ ')' :: ' ' :: entry.FilePath.data))
    (hs _)
  have hsp := matchSpeakerPath_written entry.Speaker.data entry.FilePath.data
    (fun c hc => ⟨(h.speaker.2 c hc).2.1, (h.speaker.2 c hc).2.2⟩)
    h.filePath.1 h.filePath.2.1 h.filePath.2.2.1 h.filePath.2.2.2.2
  have hspace : matchSpaces (' ' :: '(' :: (entry.Speaker.data ++ ')' :: ' ' :: entry.FilePath.data))
      = some ('(' :: (entry.Speaker.data ++ ')' :: ' ' :: entry.FilePath.data)) := by
    have h1 : isReSpace ' ' = true := by decide
    have h2 : ¬ isReSpace '(' = true := by decide
    simp [matchSpaces, List.takeWhile_cons, List.dropWhile_cons, h1, h2]
  rw [formatLine_eq]
  simp only [matchLine, expect, if_true, Option.bind_eq_bind, Option.some_bind, hn1, hn2,
    matchDash, true_or, hspace, hsp, h.speaker.1, if_false, Option.pure_def, bind, pure]

/-- A written line is not blank, has no line feed, and keeps its last
character when the carriage return is dropped. -/
theorem formatLine_facts (entry : ManifestEntry) (h : WellFormed entry) :
    isBlank (formatLine entry) = false
    ∧ (∀ c ∈ formatLine entry, c ≠ '\n')
    ∧ dropCR (formatLine entry) = formatLine entry := by
  refine ⟨?_, ?_, ?_⟩
  · rw [formatLine_eq]
    have hb : isSpace '[' = false := by decide
    simp [isBlank, hb]
  · intro c hc
    have hmem : c ∈ formatTenths entry.StartTime ∨ c ∈ formatTenths entry.EndTime
        ∨ c ∈ entry.Speaker.data ∨ c ∈ entry.FilePath.data
        ∨ c ∈ ['[', 's', '–', ']', ' ', '(', ')'] := by
      rw [formatLine_eq] at hc
      simp only [List.mem_cons, List.mem_append, List.mem_singleton, List.not_mem_nil,
        or_false] at hc ⊢
      tauto
    rcases hmem with h1 | h1 | h1 | h1 | h1
    · exact formatTenths_chars _ h.startTime.1 c h1
    · exact formatTenths_chars _ h.endTime.1 c h1
    · exact (h.speaker.2 c h1).2.2
    · exact h.filePath.2.1 c h1
    · intro hEq
      rw [hEq] at h1
      revert h1
      decide
  · have hlast : (formatLine entry).getLast? = entry.FilePath.data.getLast? := by
      obtain ⟨ys, a, hya⟩ : ∃ ys a, entry.FilePath.data = ys ++ [a] := by
        have hne := h.filePath.1
        exact ⟨_, _, (List.dropLast_concat_getLast hne).symm⟩
      have hform : formatLine entry =
          (('[' :: formatTenths entry.StartTime ++ 's' :: '–' :: formatTenths entry.EndTime
            ++ 's' :: ']' :: ' ' :: '(' :: entry.Speaker.data) ++ [')', ' '])
            ++ entry.FilePath.data := by
        simp [formatLine]
      rw [hform, hya, ← List.append_assoc, List.getLast?_concat, List.getLast?_concat]
    unfold dropCR
    rw [hlast]
    simp only [h.filePath.2.2.2.1, if_false]

/-- Reading a written line gives the entry with its times rounded. -/
theorem parseLine_formatLine (entry : ManifestEntry) (h : WellFormed entry) :
    parseLine (formatLine entry) = .ok (some (roundEntry entry)) := by
  rw [parseLine_ok_iff]
  exact ⟨(formatLine_facts entry h).1, _, _, _, _, _, _, matchLine_formatLine entry h,
    ParseFloat_formatTenths _ h.startTime.1 h.startTime.2,
    ParseFloat_formatTenths _ h.endTime.1 h.endTime.2, rfl⟩

/-- Reading the text `Write` has written for well-formed entries gives the
entries with their times rounded. -/
theorem parseLines_written (entries : List ManifestEntry) (h : ∀ e ∈ entries, WellFormed e) :
    parseLines (rawLines (entries.flatMap (fun entry => formatLine entry ++ ['\n']))) []
      = .ok (entries.map roundEntry) := by
  induction entries with
  | nil => rfl
  | cons e rest ih =>
    have he := h e (List.mem_cons_self _ _)
    obtain ⟨_, f2, f3⟩ := formatLine_facts e he
    have hshort : ¬ utf8Length (formatLine e) ≥ maxScanTokenSize := not_le.mpr he.lineLength
    rw [List.flatMap_cons, List.append_assoc, List.singleton_append, rawLines_line _ _ f2,
      parseLines, if_neg hshort, f3, parseLine_formatLine e he]
    simp only
    rw [parseLines_acc, ih (fun x hx => h x (List.mem_cons_of_mem _ hx))]
    simp [Except.map]

end manifest

/-! ## `Write`, then `Parse` -/

namespace manifest

/-- The text `%.1f` gives for a number of tenths. -/
theorem formatTenths_tenths (k : ℕ) :
    formatTenths ((k : ℚ) / 10)
      = Nat.toDigits 10 (k / 10) ++ '.' :: Nat.toDigits 10 (k % 10) := by
  have h : (k : ℚ) / 10 * 10 = ((k : ℤ) : ℚ) := by
    push_cast
    ring
  rw [formatTenths_nonneg _ (by positivity), h, roundHalfEven_intCast, Int.toNat_ofNat]

/-- Reading back the text of a number of tenths in the range of `float64`. -/
theorem ParseFloat_tenths (k : ℕ) (hrange : (k : ℚ) / 10 < floatOverflow) :
    ParseFloat (Nat.toDigits 10 (k / 10) ++ '.' :: Nat.toDigits 10 (k % 10))
      = some ((k : ℚ) / 10) := by
  have h := ParseFloat_formatTenths ((k : ℚ) / 10) (by positivity)
    (by rw [roundTenth_tenths]; exact hrange)
  rw [formatTenths_tenths, roundTenth_tenths] at h
  exact h

/-- The texts of the times 0 and 5, and what `ParseFloat` reads in them. -/
theorem sample_times :
    formatTenths 0 = ['0', '.', '0'] ∧ formatTenths 5 = ['5', '.', '0']
    ∧ ParseFloat ['0', '.', '0'] = some 0 ∧ ParseFloat ['5', '.', '0'] = some 5 := by
  have h0 : (0 : ℚ) = ((0 : ℕ) : ℚ) / 10 := by norm_num
  have h5 : (5 : ℚ) = ((50 : ℕ) : ℚ) / 10 := by norm_num
  refine ⟨?_, ?_, ?_, ?_⟩
  · rw [h0, formatTenths_tenths]
    decide
  · rw [h5, formatTenths_tenths]
    decide
  · have := ParseFloat_tenths 0 (by norm_num [floatOverflow])
    rw [← h0] at this
    exact this
  · have := ParseFloat_tenths 50 (by norm_num [floatOverflow])
    rw [← h5] at this
    exact this

/-- Counterexample to C11: the entry with speaker `SPEAKER_00` and file
`/x/clip (1) copy.wav` is written as one line and read back with speaker
`SPEAKER_00) /x/clip (1` and file `copy.wav`; the entry with an empty speaker
is written as a line that `Parse` rejects. -/
theorem Parse_Write_not_identity :
    (∀ c ∈ copyEntry.Speaker.data, c ≠ '(' ∧ c ≠ ')')
    ∧ parseText (writeText [copyEntry])
        = .ok [{ StartTime := 0, EndTime := 5, Speaker := "SPEAKER_00) /x/clip (1",
                 FilePath := "copy.wav" }]
    ∧ parseText (writeText [copyEntry]) ≠ .ok [roundEntry copyEntry]
    ∧ parseText (writeText [unnamedEntry])
        = .error (.lineMismatch "[0.0s–5.0s] () /x/clip.wav") := by
  obtain ⟨f0, f5, p0, p5⟩ := sample_times
  have hline : formatLine copyEntry = "[0.0s–5.0s] (SPEAKER_00) /x/clip (1) copy.wav".data := by
    simp only [formatLine, copyEntry, f0, f5]
    rfl
  have hline2 : formatLine unnamedEntry = "[0.0s–5.0s] () /x/clip.wav".data := by
    simp only [formatLine, unnamedEntry, f0, f5]
    rfl
  have hparse : parseText (writeText [copyEntry])
      = .ok [{ StartTime := 0, EndTime := 5, Speaker := "SPEAKER_00) /x/clip (1",
               FilePath := "copy.wav" }] := by
    have hraw : rawLines (writeText [copyEntry]).data
        = ["[0.0s–5.0s] (SPEAKER_00) /x/clip (1) copy.wav".data] := by
      simp only [writeText, List.flatMap_cons, List.flatMap_nil, List.append_nil, hline]
      decide
    have hpl : parseLine (dropCR "[0.0s–5.0s] (SPEAKER_00) /x/clip (1) copy.wav".data)
        = .ok (some { StartTime := 0, EndTime := 5, Speaker := "SPEAKER_00) /x/clip (1",
                      FilePath := "copy.wav" }) := by
      rw [parseLine_ok_iff]
      exact ⟨by decide, ['0', '.', '0'], ['5', '.', '0'], "SPEAKER_00) /x/clip (1".data,
        "copy.wav".data, 0, 5, by decide, p0, p5, rfl⟩
    have hshort : ¬ utf8Length "[0.0s–5.0s] (SPEAKER_00) /x/clip (1) copy.wav".data
        ≥ maxScanTokenSize := by decide
    rw [parseText, hraw, parseLines, if_neg hshort, hpl]
    rfl
  refine ⟨by decide, hparse, ?_, ?_⟩
  · rw [hparse]
    intro h
    simp only [Except.ok.injEq, List.cons.injEq, and_true] at h
    have hs := congrArg ManifestEntry.Speaker h
    revert hs
    simp only [roundEntry, copyEntry]
    decide
  · have hraw : rawLines (writeText [unnamedEntry]).data
        = ["[0.0s–5.0s] () /x/clip.wav".data] := by
      simp only [writeText, List.flatMap_cons, List.flatMap_nil, List.append_nil, hline2]
      decide
    have hshort : ¬ utf8Length "[0.0s–5.0s] () /x/clip.wav".data ≥ maxScanTokenSize := by
      decide
    have hpl : parseLine (dropCR "[0.0s–5.0s] () /x/clip.wav".data)
        = .error (.lineMismatch "[0.0s–5.0s] () /x/clip.wav") := by
      have hd : dropCR "[0.0s–5.0s] () /x/clip.wav".data = "[0.0s–5.0s] () /x/clip.wav".data := by
        decide
      have hb : isBlank "[0.0s–5.0s] () /x/clip.wav".data = false := by decide
      have hm : matchLine "[0.0s–5.0s] () /x/clip.wav".data = none := by decide
      rw [hd]
      simp only [parseLine, hb, hm]
      rfl
    rw [parseText, hraw, parseLines, if_neg hshort, hpl]

/-- C11 (amended): for well-formed entries (see `WellFormed`) written to a
file that can be created, `Write` succeeds and `Parse` of the file returns
the same list with the times rounded to one decimal place: same length and
order, Speaker and FilePath identical; a time with at most one decimal is
returned as it is. -/
theorem Parse_Write_round_trip (canCreate : String → Bool) (files : String → Option String)
    (path : String) (entries : List ManifestEntry)
    (hcreate : canCreate path = true) (hvalid : ∀ e ∈ entries, WellFormed e) :
    (Write canCreate files path entries).1 = none
    ∧ Parse (Write canCreate files path entries).2 path = .ok (entries.map roundEntry)
    ∧ (entries.map roundEntry).length = entries.length
    ∧ (∀ e : ManifestEntry, (roundEntry e).Speaker = e.Speaker
        ∧ (roundEntry e).FilePath = e.FilePath
        ∧ (roundEntry e).StartTime = roundTenth e.StartTime
        ∧ (roundEntry e).EndTime = roundTenth e.EndTime)
    ∧ (∀ k : ℕ, roundTenth ((k : ℚ) / 10) = (k : ℚ) / 10) := by
  refine ⟨by simp [Write, hcreate], ?_, by simp, fun e => ⟨rfl, rfl, rfl, rfl⟩,
    roundTenth_tenths⟩
  simp only [Write, hcreate, if_true, Parse, parseText, writeText]
  exact parseLines_written entries hvalid

/-- The lines `Write` writes for the two entries of `TestParse`. -/
theorem formatLine_testEntries :
    formatLine testEntry0 = "[0.0s–5.0s] (SPEAKER_00) /path/to/audio/000.wav".data
    ∧ formatLine testEntry1 = "[5.7s–8.4s] (SPEAKER_01) /path/to/audio/001.wav".data := by
  have h57 : (5.7 : ℚ) = ((57 : ℕ) : ℚ) / 10 := by norm_num
  have h84 : (8.4 : ℚ) = ((84 : ℕ) : ℚ) / 10 := by norm_num
  constructor
  · simp only [formatLine, testEntry0, sample_times.1, sample_times.2.1]
    rfl
  · simp only [formatLine, testEntry1]
    rw [h57, h84, formatTenths_tenths, formatTenths_tenths]
    decide

/-- The two entries of `TestParse` are well-formed. -/
theorem testEntries_wellFormed : ∀ e ∈ testEntries, WellFormed e := by
  have h0 : (0 : ℚ) = ((0 : ℕ) : ℚ) / 10 := by norm_num
  have h5 : (5 : ℚ) = ((50 : ℕ) : ℚ) / 10 := by norm_num
  have h57 : (5.7 : ℚ) = ((57 : ℕ) : ℚ) / 10 := by norm_num
  have h84 : (8.4 : ℚ) = ((84 : ℕ) : ℚ) / 10 := by norm_num
  have hr : ∀ k : ℕ, k ≤ 100 → roundTenth ((k : ℚ) / 10) < floatOverflow := by
    intro k hk
    rw [roundTenth_tenths]
    have h1 : (k : ℚ) ≤ 100 := by exact_mod_cast hk
    have h2 : (100 : ℚ) < floatOverflow := by norm_num [floatOverflow]
    linarith
  have hhead : ∀ (rest : List Char) (c : Char),
      ('/' :: rest).head? = some c → isReSpace c = false := by
    intro rest c hc
    simp only [List.head?_cons, Option.some.injEq] at hc
    rw [← hc]
    decide
  intro e he
  simp only [testEntries, List.mem_cons, List.mem_singleton, List.not_mem_nil, or_false] at he
  rcases he with rfl | rfl
  · have hline := formatLine_testEntries.1
    refine ⟨⟨le_refl _, ?_⟩, ⟨by norm_num [testEntry0], ?_⟩,
      ⟨by decide, by decide⟩, ⟨by decide, by decide, hhead _, by decide, by decide⟩, ?_⟩
    · show roundTenth 0 < floatOverflow
      rw [h0]
      exact hr 0 (by norm_num)
    · show roundTenth 5 < floatOverflow
      rw [h5]
      exact hr 50 (by norm_num)
    · rw [hline]
      decide
  · have hline := formatLine_testEntries.2
    refine ⟨⟨by norm_num [testEntry1], ?_⟩, ⟨by norm_num [testEntry1], ?_⟩,
      ⟨by decide, by decide⟩, ⟨by decide, by decide, hhead _, by decide, by decide⟩, ?_⟩
    · show roundTenth 5.7 < floatOverflow
      rw [h57]
      exact hr 57 (by norm_num)
    · show roundTenth 8.4 < floatOverflow
      rw [h84]
      exact hr 84 (by norm_num)
    · rw [hline]
      decide

/-- Witness of C11: the two entries of `TestParse`, written to `manifest.txt`
and read back. -/
theorem Parse_Write_round_trip_witness :
    (Write (fun _ => true) (fun _ => none) "manifest.txt" testEntries).1 = none
    ∧ Parse (Write (fun _ => true) (fun _ => none) "manifest.txt" testEntries).2 "manifest.txt"
        = .ok (testEntries.map roundEntry) :=
  ⟨(Parse_Write_round_trip (fun _ => true) (fun _ => none) "manifest.txt" testEntries rfl
      testEntries_wellFormed).1,
   (Parse_Write_round_trip (fun _ => true) (fun _ => none) "manifest.txt" testEntries rfl
      testEntries_wellFormed).2.1⟩

/-- C12 (amended): in every manifest text, a line that is not blank and does
not match the pattern makes `Parse` return an error, with no entries, however
many valid lines come before or after it; a blank line that fits the buffer
of the scanner is skipped; and when every line fits the buffer and every line
that is not blank matches with both times in the range of `float64`, `Parse`
returns one entry per line that is not blank, in the order of the file.
A line that does not fit the buffer makes `Parse` fail too. `Parse` of a
file is `parseText` of its text. -/
theorem parseText_fail_fast (text : String) :
    ((∃ raw ∈ rawLines text.data,
        isBlank (dropCR raw) = false ∧ matchLine (dropCR raw) = none) →
      ∃ e, parseText text = .error e)
    ∧ ((∃ raw ∈ rawLines text.data, utf8Length raw ≥ maxScanTokenSize) →
      ∃ e, parseText text = .error e)
    ∧ (∀ (files : String → Option String) (path : String), files path = some text →
        Parse files path = parseText text)
    ∧ (∀ (raw : List Char) (rest : List (List Char)) (acc : List ManifestEntry),
        utf8Length raw < maxScanTokenSize → isBlank (dropCR raw) = true →
          parseLines (raw :: rest) acc = parseLines rest acc)
    ∧ ((∀ raw ∈ rawLines text.data, utf8Length raw < maxScanTokenSize
          ∧ (isBlank (dropCR raw) = false → ∃ m1 m2 m3 m4 t1 t2,
              matchLine (dropCR raw) = some (m1, m2, m3, m4)
              ∧ ParseFloat m1 = some t1 ∧ ParseFloat m2 = some t2)) →
        parseText text = .ok (lineEntries (rawLines text.data))
        ∧ (lineEntries (rawLines text.data)).length
            = ((rawLines text.data).filter (fun raw => !isBlank (dropCR raw))).length) := by
  refine ⟨?_, ?_, ?_, ?_, ?_⟩
  · intro h
    exact parseLines_mismatch (rawLines text.data) [] h
  · intro h
    exact parseLines_too_long (rawLines text.data) [] h
  · intro files path h
    simp only [Parse, h]
  · intro raw rest acc hshort hblank
    have hp : parseLine (dropCR raw) = .ok none := by simp [parseLine, hblank]
    rw [parseLines, if_neg (not_le.mpr hshort), hp]
  · intro h
    apply parseLines_ok
    intro raw hraw
    obtain ⟨hshort, hline⟩ := h raw hraw
    refine ⟨hshort, fun hb => ?_⟩
    obtain ⟨m1, m2, m3, m4, t1, t2, hm, h1, h2⟩ := hline hb
    exact ⟨_, (parseLine_ok_iff _ _).mpr ⟨hb, m1, m2, m3, m4, t1, t2, hm, h1, h2, rfl⟩⟩

/-- Witness of C12: the manifest of `TestParse_InvalidLine`, a valid line
followed by `invalid line`, is rejected. -/
theorem parseText_fail_fast_witness :
    ∃ e, parseText
      "[0.0s–5.0s] (SPEAKER_00) /path/to/audio/000.wav\ninvalid line\n" = .error e :=
  (parseText_fail_fast
    "[0.0s–5.0s] (SPEAKER_00) /path/to/audio/000.wav\ninvalid line\n").1
    ⟨"invalid line".data, by decide, by decide, by decide⟩

/-- The manifest of `TestParse` is what `Write` writes for its two entries,
and `Parse` reads exactly these two entries in it. -/
theorem parseText_TestParse :
    writeText testEntries =
      "[0.0s–5.0s] (SPEAKER_00) /path/to/audio/000.wav\n[5.7s–8.4s] (SPEAKER_01) /path/to/audio/001.wav\n"
    ∧ parseText
      "[0.0s–5.0s] (SPEAKER_00) /path/to/audio/000.wav\n[5.7s–8.4s] (SPEAKER_01) /path/to/audio/001.wav\n"
        = .ok testEntries := by
  have hw : writeText testEntries =
      "[0.0s–5.0s] (SPEAKER_00) /path/to/audio/000.wav\n[5.7s–8.4s] (SPEAKER_01) /path/to/audio/001.wav\n" := by
    simp only [writeText, testEntries, List.flatMap_cons, List.flatMap_nil, List.append_nil,
      formatLine_testEntries.1, formatLine_testEntries.2]
    rfl
  refine ⟨hw, ?_⟩
  have h57 : (5.7 : ℚ) = ((57 : ℕ) : ℚ) / 10 := by norm_num
  have h84 : (8.4 : ℚ) = ((84 : ℕ) : ℚ) / 10 := by norm_num
  have h0 : (0 : ℚ) = ((0 : ℕ) : ℚ) / 10 := by norm_num
  have h5 : (5 : ℚ) = ((50 : ℕ) : ℚ) / 10 := by norm_num
  have hround : testEntries.map roundEntry = testEntries := by
    simp only [testEntries, List.map_cons, List.map_nil, roundEntry, testEntry0, testEntry1]
    rw [h57, h84, roundTenth_tenths, roundTenth_tenths]
    nth_rewrite 1 [h0]
    nth_rewrite 1 [h5]
    rw [roundTenth_tenths, roundTenth_tenths, ← h0, ← h5]
  have hp := parseLines_written testEntries testEntries_wellFormed
  rw [hround] at hp
  rw [← hw]
  exact hp

end manifest

/-! ## The clamp on `float64` values: NaN -/

namespace float64

open manifest

/-- The value of `clamp` with ordered bounds lies between them unless the
clamped value is NaN, which `clamp` returns unchanged. -/
theorem clamp_within (value : Value) (lo hi : ℚ) (h : lo ≤ hi) :
    (value ≠ .NaN → Value.within lo hi (clamp value (.num lo) (.num hi)) = true)
    ∧ clamp .NaN (.num lo) (.num hi) = .NaN := by
  refine ⟨?_, rfl⟩
  intro hv
  cases value with
  | num q =>
    unfold clamp
    by_cases h1 : q < lo
    · simp [Value.lt, Value.within, h1, h]
    · by_cases h2 : hi < q
      · simp [Value.lt, Value.gt, Value.within, h1, h2, h]
      · simp [Value.lt, Value.gt, Value.within, h1, h2, not_lt.mp h1, not_lt.mp h2]
  | posInf => simp [clamp, Value.lt, Value.gt, Value.within, h]
  | negInf => simp [clamp, Value.lt, Value.gt, Value.within, h]
  | NaN => exact absurd rfl hv

/-- The quotient of a value by a positive number is NaN only for NaN. -/
theorem div_ne_NaN (value : Value) (d : ℚ) (hd : 0 < d) (hv : value ≠ .NaN) :
    value.div d ≠ .NaN := by
  cases value with
  | num q => simp [Value.div, ne_of_gt hd]
  | posInf => simp [Value.div, not_lt.mpr (le_of_lt hd)]
  | negInf => simp [Value.div, not_lt.mpr (le_of_lt hd)]
  | NaN => exact absurd rfl hv

/-- C13: the clamp misses NaN. With a positive manifest duration and a
measured duration that is NaN, `processEntry` passes NaN to `ApplySpeed`: the
zero test and both comparisons of `clamp` are false for NaN. NaN does not lie
in [minSpeed, maxSpeed], and the range check of `FFmpegProcessor.ApplySpeed`
does not reject it either, so ffmpeg is run with it. For every other measured
duration, a number or an infinity, each speed passed to `ApplySpeed` is a
number in [minSpeed, maxSpeed] = [0.8, 1.5], inside [0.5, 2.0], which
`FFmpegProcessor.ApplySpeed` does not answer with the out-of-range error. -/
theorem processEntry_passes_NaN {σ τ : Type} (audioProc : Processor σ) (entry : ManifestEntry)
    (s s1 : σ) (measured : Value)
    (run : String → Value → String → τ → (String × Option String) × τ)
    (hpos : 0 < entry.EndTime - entry.StartTime)
    (hmeasured : audioProc.GetDuration entry.FilePath s = (.ok measured, s1)) :
    (measured = .NaN →
      (processEntry audioProc entry s).2.2 = [.NaN]
      ∧ Value.within core.minSpeed core.maxSpeed .NaN = false
      ∧ Value.within 0.5 2.0 .NaN = false
      ∧ ∀ (inputFile outputFile : String) (t : τ),
          FFmpegProcessor.ApplySpeed run inputFile outputFile .NaN t
            = match run inputFile .NaN outputFile t with
              | ((output, some err), t1) => (some (.ffmpegFailed output err), t1)
              | ((_, none), t1) => (none, t1))
    ∧ (measured ≠ .NaN →
      ∀ speed ∈ (processEntry audioProc entry s).2.2,
        Value.within core.minSpeed core.maxSpeed speed = true
        ∧ Value.within 0.5 2.0 speed = true
        ∧ ∀ (inputFile outputFile : String) (t : τ) (x : Value),
            (FFmpegProcessor.ApplySpeed run inputFile outputFile speed t).1
              ≠ some (.unsupportedSpeed x)) := by
  have hnot : ¬ entry.EndTime - entry.StartTime ≤ 0 := not_le.mpr hpos
  constructor
  · intro hnan
    subst hnan
    refine ⟨?_, rfl, rfl, ?_⟩
    · simp only [processEntry, hnot, if_false, hmeasured, Value.isZero, Value.div, clamp,
        Value.lt, Value.gt, Bool.false_eq_true]
      split <;> rfl
    · intro inputFile outputFile t
      simp [FFmpegProcessor.ApplySpeed, Value.lt, Value.gt]
  · intro hv speed hmem
    have hspeed : speed = clamp (measured.div (entry.EndTime - entry.StartTime))
        (.num core.minSpeed) (.num core.maxSpeed) := by
      simp only [processEntry, hnot, if_false, hmeasured] at hmem
      split_ifs at hmem with hz
      · simp at hmem
      · split at hmem <;>
        · simp only [List.mem_singleton] at hmem
          exact hmem
    have hin := (clamp_within (measured.div (entry.EndTime - entry.StartTime))
      core.minSpeed core.maxSpeed (by norm_num [core.minSpeed, core.maxSpeed])).1
      (div_ne_NaN measured _ hpos hv)
    rw [← hspeed] at hin
    cases speed with
    | num q =>
      simp only [Value.within, decide_eq_true_eq] at hin
      have hlo : (0.5 : ℚ) ≤ q := le_trans (by norm_num [core.minSpeed]) hin.1
      have hhi : q ≤ (2.0 : ℚ) := le_trans hin.2 (by norm_num [core.maxSpeed])
      refine ⟨by simp [Value.within, hin], by simp only [Value.within, decide_eq_true_eq]; exact ⟨hlo, hhi⟩, ?_⟩
      intro inputFile outputFile t x
      have h1 : ¬ q < 0.5 := not_lt.mpr hlo
      have h2 : ¬ (2.0 : ℚ) < q := not_lt.mpr hhi
      simp only [FFmpegProcessor.ApplySpeed, Value.lt, Value.gt, h1, h2, decide_False,
        Bool.or_self, Bool.false_eq_true, if_false]
      rcases run inputFile (.num q) outputFile t with ⟨⟨output, _ | e⟩, t1⟩ <;> simp
    | posInf => simp [Value.within] at hin
    | negInf => simp [Value.within] at hin
    | NaN => simp [Value.within] at hin

/-- Witness of C13: the entry of the clamping test in a slot of 5 seconds, its
duration measured as NaN, is applied at the speed NaN, which
`FFmpegProcessor.ApplySpeed` passes on to ffmpeg. -/
theorem processEntry_passes_NaN_witness :
    (0 : ℚ) < mock.clipEntry.EndTime - mock.clipEntry.StartTime
    ∧ (processEntry nanEngine mock.clipEntry []).2.2 = [.NaN]
    ∧ (processEntry nanEngine mock.clipEntry []).2.1 = [.NaN]
    ∧ Value.within core.minSpeed core.maxSpeed .NaN = false
    ∧ (FFmpegProcessor.ApplySpeed (fun _ speed _ (u : List Value) => (("", none), u ++ [speed]))
        "/fake/audio.wav" "/fake/audio_synced.wav" .NaN []) = (none, [.NaN]) := by
  have hpos : (0 : ℚ) < mock.clipEntry.EndTime - mock.clipEntry.StartTime := by
    norm_num [mock.clipEntry]
  have h := (processEntry_passes_NaN nanEngine mock.clipEntry [] [] .NaN
    (fun _ speed _ (u : List Value) => (("", none), u ++ [speed])) hpos rfl).1 rfl
  refine ⟨hpos, h.1, ?_, h.2.1, ?_⟩
  · have hnot : ¬ mock.clipEntry.EndTime - mock.clipEntry.StartTime ≤ 0 := not_le.mpr hpos
    simp [processEntry, hnot, nanEngine, Value.isZero, Value.div, clamp, Value.lt, Value.gt]
  · rw [h.2.2.2 "/fake/audio.wav" "/fake/audio_synced.wav" []]
    rfl

end float64
